import Mathlib

/-!
Shallow embedding of the tgmux Session Bridge Runtime (Go) and proofs
about its specification.

Modelling conventions:
* A Go string is modelled as the list of its runes (`GoStr := List Char`).
  Go indexes strings by UTF-8 bytes; byte positions that fall on rune
  boundaries are represented exactly through the UTF-8 byte size of each
  rune (`Char.utf8Size`).  All byte indices produced by the embedded code
  fall on rune boundaries (they come from rune-offset computations or from
  positions of ASCII search patterns), so no information is lost.
* Go maps used by the embedded code are modelled as association lists.
* Effectful code (chat-platform calls, file reads) is modelled by explicit
  state passing plus oracle inputs for the environment, and a trace of the
  externally visible calls.
-/

/-- A Go string: the sequence of runes. -/
abbrev GoStr := List Char

/-- UTF-8 byte length of a Go string (Go `len(s)`). -/
def byteLen (s : GoStr) : Nat := (s.map Char.utf8Size).sum

/-- Go slice `s[:n]` for a byte index `n` on a rune boundary: take runes
while their cumulative UTF-8 size fits in `n`. -/
def takeBytes : GoStr → Nat → GoStr
  | [], _ => []
  | c :: cs, n => if c.utf8Size ≤ n then c :: takeBytes cs (n - c.utf8Size) else []

/-- Go slice `s[n:]` for a byte index `n` on a rune boundary. -/
def dropBytes : GoStr → Nat → GoStr
  | [], _ => []
  | c :: cs, n => if c.utf8Size ≤ n then dropBytes cs (n - c.utf8Size) else c :: cs

/-- Byte index of the first occurrence of `pat` in `s`, if any
(Go `strings.Index` for a non-empty ASCII `pat`; an ASCII pattern can only
occur on rune boundaries in UTF-8 text, so rune-level search is exact). -/
def goIndexBytes : GoStr → GoStr → Option Nat
  | s, pat =>
    if pat.isPrefixOf s then some 0
    else
      match s with
      | [] => none
      | c :: cs => (goIndexBytes cs pat).map (· + c.utf8Size)

/-- Byte index of the last occurrence of `pat` in `s`, if any
(Go `strings.LastIndex` for a non-empty ASCII `pat`). -/
def goLastIndexBytes : GoStr → GoStr → Option Nat
  | s, pat =>
    match s with
    | [] => if pat.isEmpty then some 0 else none
    | c :: cs =>
      match goLastIndexBytes cs pat with
      | some i => some (c.utf8Size + i)
      | none => if pat.isPrefixOf (c :: cs) then some 0 else none

/-- Go `strings.Index`, with -1 for no match. -/
def stringsIndex (s pat : GoStr) : Int :=
  match goIndexBytes s pat with
  | some n => (n : Int)
  | none => -1

/-- Go `strings.LastIndex`, with -1 for no match. -/
def stringsLastIndex (s pat : GoStr) : Int :=
  match goLastIndexBytes s pat with
  | some n => (n : Int)
  | none => -1

/-- Go `strings.Contains`. -/
def stringsContains (s pat : GoStr) : Bool := (goIndexBytes s pat).isSome

/-- Go `strings.HasPrefix`. -/
def stringsHasPre (s pat : GoStr) : Bool := pat.isPrefixOf s

/-- Go `strings.HasSuffix`. -/
def stringsHasSuf (s pat : GoStr) : Bool := pat.isSuffixOf s

/-- Source `runeByteOffset` (bot/stream.go): the byte index of the n-th
rune of `s`; `len(s)` when `n` is at least the rune count. -/
def runeByteOffset : GoStr → Nat → Nat
  | _, 0 => 0
  | [], _ + 1 => 0
  | c :: cs, n + 1 => c.utf8Size + runeByteOffset cs n

/-- Source `truncateRunes` (bot/stream.go): first `n` runes of `s`. -/
def truncateRunes (s : GoStr) (n : Nat) : GoStr := takeBytes s (runeByteOffset s n)

/-- The fenced-code marker searched for by the splitter. -/
def fenceStr : GoStr := "```".data

/-- A single newline, as a search pattern. -/
def nlStr : GoStr := "\n".data

/-- Source `findSplitPoint` (bot/stream.go): a byte-index split point for a
text of more than `maxLen` runes.  `byteLimit` is the byte offset of the
`maxLen`-th rune; the last ``` fence before it wins if it lies past half of
`byteLimit` (the split is then after the next newline following the fence,
searched in the whole remaining text); else the last newline past half of
`byteLimit`; else a hard cut at `byteLimit`. -/
def findSplitPoint (text : GoStr) (maxLen : Nat) : Nat :=
  if text.length ≤ maxLen then byteLen text
  else
    let byteLimit := runeByteOffset text maxLen
    let sub := takeBytes text byteLimit
    let lastFence := stringsLastIndex sub fenceStr
    if lastFence > (byteLimit / 2 : Nat) then
      let nlIdx := stringsIndex (dropBytes text lastFence.toNat) nlStr
      if nlIdx ≥ 0 then lastFence.toNat + nlIdx.toNat + 1
      else lastFence.toNat
    else
      let lastNL := stringsLastIndex sub nlStr
      if lastNL > (byteLimit / 2 : Nat) then lastNL.toNat + 1
      else byteLimit

/-- Loop body of source `splitMessage` (bot/stream.go), with explicit fuel
(the Go loop runs while more than `maxLen` runes remain; `splitMessage`
supplies `text.length` as fuel, which suffices because every iteration
consumes at least one rune). -/
def splitMessageLoop : Nat → GoStr → Nat → List GoStr
  | 0, text, _ => if text.isEmpty then [] else [text]
  | fuel + 1, text, maxLen =>
    if maxLen < text.length then
      let splitIdx := findSplitPoint text maxLen
      takeBytes text splitIdx :: splitMessageLoop fuel (dropBytes text splitIdx) maxLen
    else if text.isEmpty then [] else [text]

/-- Source `splitMessage` (bot/stream.go): split `text` into chunks for the
chat platform, `maxLen` runes preferred per chunk. -/
def splitMessage (text : GoStr) (maxLen : Nat) : List GoStr :=
  if text.length ≤ maxLen then [text]
  else splitMessageLoop text.length text maxLen

/-! ### Lemmas about the byte-indexed string primitives -/

theorem byteLen_nil : byteLen [] = 0 := rfl

theorem byteLen_cons (c : Char) (s : GoStr) : byteLen (c :: s) = c.utf8Size + byteLen s := by
  simp [byteLen]

theorem byteLen_append (s t : GoStr) : byteLen (s ++ t) = byteLen s + byteLen t := by
  simp [byteLen]

theorem byteLen_pos (s : GoStr) (h : s ≠ []) : 0 < byteLen s := by
  cases s with
  | nil => exact absurd rfl h
  | cons c cs => rw [byteLen_cons]; exact Nat.lt_of_lt_of_le c.utf8Size_pos (Nat.le_add_right _ _)

theorem byteLen_eq_zero (s : GoStr) (h : byteLen s = 0) : s = [] := by
  by_contra hne
  exact Nat.lt_irrefl 0 (h ▸ byteLen_pos s hne)

theorem length_le_byteLen (s : GoStr) : s.length ≤ byteLen s := by
  induction s with
  | nil => simp [byteLen]
  | cons c cs ih =>
    rw [byteLen_cons, List.length_cons]
    have := c.utf8Size_pos
    omega

/-- Strings whose runes are all single-byte (every byte index is a rune index). -/
def AllAscii (s : GoStr) : Prop := ∀ c ∈ s, c.utf8Size = 1

theorem byteLen_ascii (s : GoStr) (h : AllAscii s) : byteLen s = s.length := by
  induction s with
  | nil => rfl
  | cons c cs ih =>
    rw [byteLen_cons, List.length_cons, h c (List.mem_cons_self c cs),
      ih (fun x hx => h x (List.mem_cons_of_mem c hx))]
    omega

theorem AllAscii.sublist {s t : GoStr} (h : AllAscii t) (hs : s.Sublist t) : AllAscii s :=
  fun c hc => h c (hs.mem hc)

theorem takeBytes_ascii (s : GoStr) (n : Nat) (h : AllAscii s) : takeBytes s n = s.take n := by
  induction s generalizing n with
  | nil => simp [takeBytes]
  | cons c cs ih =>
    have h1 : c.utf8Size = 1 := h c (List.mem_cons_self c cs)
    have h2 : AllAscii cs := fun x hx => h x (List.mem_cons_of_mem c hx)
    cases n with
    | zero => simp [takeBytes, h1]
    | succ m => simp [takeBytes, h1, ih m h2, List.take_succ_cons]

theorem dropBytes_ascii (s : GoStr) (n : Nat) (h : AllAscii s) : dropBytes s n = s.drop n := by
  induction s generalizing n with
  | nil => simp [dropBytes]
  | cons c cs ih =>
    have h1 : c.utf8Size = 1 := h c (List.mem_cons_self c cs)
    have h2 : AllAscii cs := fun x hx => h x (List.mem_cons_of_mem c hx)
    cases n with
    | zero => simp [dropBytes, h1]
    | succ m => simp [dropBytes, h1, ih m h2]

theorem takeBytes_append_dropBytes (s : GoStr) (n : Nat) :
    takeBytes s n ++ dropBytes s n = s := by
  induction s generalizing n with
  | nil => simp [takeBytes, dropBytes]
  | cons c cs ih =>
    by_cases h : c.utf8Size ≤ n
    · simp [takeBytes, dropBytes, h, ih]
    · simp [takeBytes, dropBytes, h]

theorem byteLen_takeBytes_le (s : GoStr) (n : Nat) : byteLen (takeBytes s n) ≤ n := by
  induction s generalizing n with
  | nil => simp [takeBytes, byteLen]
  | cons c cs ih =>
    by_cases h : c.utf8Size ≤ n
    · rw [takeBytes]
      simp only [h, if_true, byteLen_cons]
      have := ih (n - c.utf8Size)
      omega
    · rw [takeBytes]
      simp [h, byteLen]

theorem takeBytes_isPrefix (s : GoStr) (n : Nat) : takeBytes s n <+: s :=
  ⟨dropBytes s n, takeBytes_append_dropBytes s n⟩

theorem dropBytes_isSuffix (s : GoStr) (n : Nat) : dropBytes s n <:+ s :=
  ⟨takeBytes s n, takeBytes_append_dropBytes s n⟩

theorem takeBytes_eqLeft (p q : GoStr) : takeBytes (p ++ q) (byteLen p) = p := by
  induction p with
  | nil =>
    simp only [List.nil_append, byteLen_nil]
    cases q with
    | nil => rfl
    | cons c cs =>
      rw [takeBytes]
      have := c.utf8Size_pos
      simp [Nat.not_le.mpr this]
  | cons c cs ih =>
    rw [List.cons_append, takeBytes, byteLen_cons]
    simp [Nat.le_add_right, ih]

theorem dropBytes_eqRight (p q : GoStr) : dropBytes (p ++ q) (byteLen p) = q := by
  induction p with
  | nil =>
    simp only [List.nil_append, byteLen_nil]
    cases q with
    | nil => rfl
    | cons c cs =>
      rw [dropBytes]
      have := c.utf8Size_pos
      simp [Nat.not_le.mpr this]
  | cons c cs ih =>
    rw [List.cons_append, dropBytes, byteLen_cons]
    simp [Nat.le_add_right, ih]

theorem runeByteOffset_eq_take (s : GoStr) (n : Nat) :
    runeByteOffset s n = byteLen (s.take n) := by
  induction s generalizing n with
  | nil => cases n <;> simp [runeByteOffset, byteLen]
  | cons c cs ih =>
    cases n with
    | zero => simp [runeByteOffset, byteLen]
    | succ m => simp [runeByteOffset, List.take_succ_cons, byteLen_cons, ih m]

theorem length_le_of_byteLen_le_take {P s : GoStr} {k : Nat} (hp : P <+: s)
    (h : byteLen P ≤ byteLen (s.take k)) : P.length ≤ k := by
  by_contra hk
  push_neg at hk
  obtain ⟨t, ht⟩ := hp
  have htake : s.take k = P.take k := by
    rw [← ht, List.take_append_eq_append_take]
    have : k - P.length = 0 := by omega
    simp [this]
  have hsplit : P = P.take k ++ P.drop k := (List.take_append_drop k P).symm
  have hdropne : P.drop k ≠ [] := by
    intro hnil
    have := List.length_drop k P
    rw [hnil] at this
    simp at this
    omega
  have : byteLen P = byteLen (P.take k) + byteLen (P.drop k) := by
    conv_lhs => rw [hsplit]
    exact byteLen_append _ _
  have hpos := byteLen_pos _ hdropne
  rw [htake] at h
  omega

/-- `pat` occurs in `s` starting at byte offset `i`. -/
def MatchAt (pat s : GoStr) (i : Nat) : Prop :=
  ∃ u v, s = u ++ v ∧ byteLen u = i ∧ pat.isPrefixOf v

theorem matchAt_zero_iff (pat s : GoStr) : MatchAt pat s 0 ↔ pat.isPrefixOf s := by
  constructor
  · rintro ⟨u, v, hsplit, hlen, hpre⟩
    rw [byteLen_eq_zero u hlen] at hsplit
    simpa [hsplit] using hpre
  · intro h
    exact ⟨[], s, rfl, rfl, h⟩

theorem matchAt_cons (pat : GoStr) (c : Char) (cs : GoStr) (i : Nat) (h : MatchAt pat cs i) :
    MatchAt pat (c :: cs) (c.utf8Size + i) := by
  obtain ⟨u, v, hsplit, hlen, hpre⟩ := h
  exact ⟨c :: u, v, by simp [hsplit], by simp [byteLen_cons, hlen], hpre⟩

theorem matchAt_cons_elim {pat : GoStr} {c : Char} {cs : GoStr} {j : Nat}
    (h : MatchAt pat (c :: cs) j) :
    (j = 0 ∧ pat.isPrefixOf (c :: cs)) ∨ ∃ j', j = c.utf8Size + j' ∧ MatchAt pat cs j' := by
  obtain ⟨u, v, hsplit, hlen, hpre⟩ := h
  cases u with
  | nil =>
    left
    simp only [List.nil_append] at hsplit
    refine ⟨by simp [byteLen_nil] at hlen; omega, ?_⟩
    rw [hsplit]
    exact hpre
  | cons d ds =>
    right
    rw [List.cons_append] at hsplit
    injection hsplit with h1 h2
    subst h1
    exact ⟨byteLen ds, by rw [← hlen, byteLen_cons], ds, v, h2, rfl, hpre⟩

theorem matchAt_append_left {pat s : GoStr} {j : Nat} (t : GoStr) (h : MatchAt pat s j) :
    MatchAt pat (s ++ t) j := by
  obtain ⟨u, v, hsplit, hlen, hpre⟩ := h
  refine ⟨u, v ++ t, by simp [hsplit], hlen, ?_⟩
  rw [List.isPrefixOf_iff_prefix] at hpre ⊢
  exact hpre.trans (List.prefix_append v t)

theorem matchAt_nil_elim {pat : GoStr} {j : Nat} (h : MatchAt pat [] j) :
    pat = [] ∧ j = 0 := by
  obtain ⟨u, v, hsplit, hlen, hpre⟩ := h
  have hu : u = [] := (List.append_eq_nil.mp hsplit.symm).1
  have hv : v = [] := (List.append_eq_nil.mp hsplit.symm).2
  subst hu hv
  rw [List.isPrefixOf_iff_prefix] at hpre
  exact ⟨List.prefix_nil.mp hpre, by simpa [byteLen_nil] using hlen.symm⟩

theorem goIndexBytes_none {s pat : GoStr} (h : goIndexBytes s pat = none) :
    ∀ j, ¬ MatchAt pat s j := by
  induction s with
  | nil =>
    intro j hj
    obtain ⟨hpat, hj0⟩ := matchAt_nil_elim hj
    rw [goIndexBytes, hpat] at h
    simp [List.isPrefixOf] at h
  | cons c cs ih =>
    intro j hj
    rw [goIndexBytes] at h
    cases hp : pat.isPrefixOf (c :: cs) with
    | true => simp [hp] at h
    | false =>
      rw [hp] at h
      simp only [Bool.false_eq_true, if_false, Option.map_eq_none'] at h
      rcases matchAt_cons_elim hj with ⟨_, hpre⟩ | ⟨j', _, hj'⟩
      · rw [hp] at hpre; exact Bool.noConfusion hpre
      · exact ih h j' hj'

theorem goIndexBytes_some {s pat : GoStr} {i : Nat} (h : goIndexBytes s pat = some i) :
    MatchAt pat s i ∧ ∀ j, MatchAt pat s j → i ≤ j := by
  induction s generalizing i with
  | nil =>
    rw [goIndexBytes] at h
    cases hp : pat.isPrefixOf ([] : GoStr) with
    | true =>
      rw [hp] at h
      simp only [if_true] at h
      injection h with h
      subst h
      exact ⟨(matchAt_zero_iff pat []).mpr hp, fun j _ => Nat.zero_le j⟩
    | false => rw [hp] at h; simp [Bool.false_eq_true] at h
  | cons c cs ih =>
    rw [goIndexBytes] at h
    cases hp : pat.isPrefixOf (c :: cs) with
    | true =>
      rw [hp] at h
      simp only [if_true] at h
      injection h with h
      subst h
      exact ⟨(matchAt_zero_iff pat (c :: cs)).mpr hp, fun j _ => Nat.zero_le j⟩
    | false =>
      rw [hp] at h
      simp only [Bool.false_eq_true, if_false, Option.map_eq_some'] at h
      obtain ⟨i', hrec, hi⟩ := h
      obtain ⟨hm, hmin⟩ := ih hrec
      subst hi
      refine ⟨by rw [Nat.add_comm]; exact matchAt_cons pat c cs i' hm, ?_⟩
      intro j hj
      rcases matchAt_cons_elim hj with ⟨hj0, hpre⟩ | ⟨j', hj', hmj'⟩
      · rw [hp] at hpre; exact Bool.noConfusion hpre
      · subst hj'
        have := hmin j' hmj'
        omega

theorem goLastIndexBytes_none {s pat : GoStr} (h : goLastIndexBytes s pat = none) :
    ∀ j, ¬ MatchAt pat s j := by
  induction s with
  | nil =>
    intro j hj
    obtain ⟨hpat, hj0⟩ := matchAt_nil_elim hj
    rw [goLastIndexBytes, hpat] at h
    simp [List.isEmpty] at h
  | cons c cs ih =>
    intro j hj
    rw [goLastIndexBytes] at h
    cases hrec : goLastIndexBytes cs pat with
    | some i => rw [hrec] at h; exact Option.noConfusion h
    | none =>
      rw [hrec] at h
      cases hp : pat.isPrefixOf (c :: cs) with
      | true => rw [hp] at h; simp at h
      | false =>
        rcases matchAt_cons_elim hj with ⟨_, hpre⟩ | ⟨j', _, hj'⟩
        · rw [hp] at hpre; exact Bool.noConfusion hpre
        · exact ih hrec j' hj'

theorem goLastIndexBytes_some {s pat : GoStr} {i : Nat} (h : goLastIndexBytes s pat = some i) :
    MatchAt pat s i ∧ ∀ j, MatchAt pat s j → j ≤ i := by
  induction s generalizing i with
  | nil =>
    rw [goLastIndexBytes] at h
    cases hp : pat.isEmpty with
    | true =>
      rw [hp] at h
      simp only [if_true] at h
      injection h with h
      subst h
      have hpnil : pat = [] := by simpa [List.isEmpty_iff] using hp
      refine ⟨(matchAt_zero_iff pat []).mpr (by simp [hpnil, List.isPrefixOf]), ?_⟩
      intro j hj
      exact Nat.le_of_eq (matchAt_nil_elim hj).2
    | false => rw [hp] at h; simp [Bool.false_eq_true] at h
  | cons c cs ih =>
    rw [goLastIndexBytes] at h
    cases hrec : goLastIndexBytes cs pat with
    | some i' =>
      rw [hrec] at h
      injection h with h
      subst h
      obtain ⟨hm, hmax⟩ := ih hrec
      refine ⟨matchAt_cons pat c cs i' hm, ?_⟩
      intro j hj
      rcases matchAt_cons_elim hj with ⟨hj0, _⟩ | ⟨j', hj', hmj'⟩
      · omega
      · subst hj'
        have := hmax j' hmj'
        omega
    | none =>
      rw [hrec] at h
      cases hp : pat.isPrefixOf (c :: cs) with
      | true =>
        rw [hp] at h
        simp only [if_true] at h
        injection h with h
        subst h
        refine ⟨(matchAt_zero_iff pat (c :: cs)).mpr hp, ?_⟩
        intro j hj
        rcases matchAt_cons_elim hj with ⟨hj0, _⟩ | ⟨j', hj', hmj'⟩
        · omega
        · exact absurd hmj' (goLastIndexBytes_none hrec j')
      | false =>
        rw [hp] at h
        simp [Bool.false_eq_true] at h

theorem goIndexBytes_eq_some_of {s pat : GoStr} {i : Nat} (hm : MatchAt pat s i)
    (hmin : ∀ j, MatchAt pat s j → i ≤ j) : goIndexBytes s pat = some i := by
  cases h : goIndexBytes s pat with
  | none => exact absurd hm (goIndexBytes_none h i)
  | some i' =>
    obtain ⟨hm', hmin'⟩ := goIndexBytes_some h
    have h1 := hmin i' hm'
    have h2 := hmin' i hm
    have : i' = i := by omega
    rw [this]

theorem goLastIndexBytes_eq_some_of {s pat : GoStr} {i : Nat} (hm : MatchAt pat s i)
    (hmax : ∀ j, MatchAt pat s j → j ≤ i) : goLastIndexBytes s pat = some i := by
  cases h : goLastIndexBytes s pat with
  | none => exact absurd hm (goLastIndexBytes_none h i)
  | some i' =>
    obtain ⟨hm', hmax'⟩ := goLastIndexBytes_some h
    have h1 := hmax i' hm'
    have h2 := hmax' i hm
    have : i' = i := by omega
    rw [this]

theorem goLastIndexBytes_eq_none_of {s pat : GoStr} (h : ∀ j, ¬ MatchAt pat s j) :
    goLastIndexBytes s pat = none := by
  cases hv : goLastIndexBytes s pat with
  | none => rfl
  | some i => exact absurd (goLastIndexBytes_some hv).1 (h i)

theorem matchAt_ascii_iff {s : GoStr} (pat : GoStr) (j : Nat) (h : AllAscii s) :
    MatchAt pat s j ↔ j ≤ s.length ∧ pat.isPrefixOf (s.drop j) := by
  constructor
  · rintro ⟨u, v, hsplit, hlen, hpre⟩
    have hu : AllAscii u := fun c hc => h c (by rw [hsplit]; exact List.mem_append_left v hc)
    have hulen : u.length = j := by rw [← byteLen_ascii u hu]; exact hlen
    constructor
    · rw [hsplit, List.length_append]; omega
    · rw [hsplit, ← hulen, List.drop_left]; exact hpre
  · rintro ⟨hj, hpre⟩
    refine ⟨s.take j, s.drop j, (List.take_append_drop j s).symm, ?_, hpre⟩
    have ht : AllAscii (s.take j) := fun c hc => h c (List.take_subset j s hc)
    rw [byteLen_ascii _ ht, List.length_take]
    omega

/-! ### Claim C1: message splitting in the output pusher -/

/-- Concrete text for the C1 counterexample: 2049 copies of a, a code
fence, 3000 copies of b, one newline, 1100 copies of c (6153 runes). -/
def c1A : GoStr := List.replicate 2049 'a'

def c1B : GoStr := List.replicate 3000 'b'

def c1C : GoStr := List.replicate 1100 'c'

def c1Text : GoStr := c1A ++ fenceStr ++ c1B ++ nlStr ++ c1C

theorem fenceStr_eq : fenceStr = ['`', '`', '`'] := by decide

theorem nlStr_eq : nlStr = ['\n'] := by decide


theorem c1_ascii : AllAscii c1Text := by
  intro c hc
  simp only [c1Text, List.mem_append, or_assoc] at hc
  rcases hc with h | h | h | h | h
  · rw [List.eq_of_mem_replicate h]; decide
  · rw [fenceStr_eq] at h; fin_cases h <;> decide
  · rw [List.eq_of_mem_replicate h]; decide
  · rw [nlStr_eq] at h
    fin_cases h
    decide
  · rw [List.eq_of_mem_replicate h]; decide

theorem c1_len : c1Text.length = 6153 := by
  rw [c1Text, List.length_append, List.length_append, List.length_append, List.length_append,
    fenceStr_eq, nlStr_eq]
  rw [c1A, c1B, c1C, List.length_replicate, List.length_replicate, List.length_replicate]
  rfl

theorem fenceStr_eq_rep : fenceStr = List.replicate 3 '`' := by decide

theorem nlStr_eq_rep : nlStr = List.replicate 1 '\n' := by decide

theorem c1_getElem (k : Nat) :
    c1Text[k]? =
      if k < 2049 then some 'a'
      else if k < 2052 then some '`'
      else if k < 5052 then some 'b'
      else if k = 5052 then some '\n'
      else if k < 6153 then some 'c'
      else none := by
  rw [c1Text, c1A, c1B, c1C, fenceStr_eq_rep, nlStr_eq_rep,
    List.getElem?_append, List.getElem?_append, List.getElem?_append, List.getElem?_append]
  simp only [List.length_append, List.length_replicate, List.getElem?_replicate]
  split_ifs <;> first | rfl | omega

theorem c1_tick_pos {k : Nat} (h : c1Text[k]? = some '`') : 2049 ≤ k ∧ k < 2052 := by
  rw [c1_getElem] at h
  split_ifs at h <;> first | (exact absurd h (by decide)) | omega

theorem c1_nl_pos {k : Nat} (h : c1Text[k]? = some '\n') : k = 5052 := by
  rw [c1_getElem] at h
  split_ifs at h <;> first | (exact absurd h (by decide)) | omega

theorem c1_fence_at {j : Nat} (hj : MatchAt fenceStr c1Text j) : j = 2049 := by
  rw [matchAt_ascii_iff fenceStr j c1_ascii] at hj
  obtain ⟨hle, hpre⟩ := hj
  rw [List.isPrefixOf_iff_prefix, fenceStr_eq] at hpre
  obtain ⟨t, ht⟩ := hpre
  have h0 : c1Text[j]? = some '`' := by
    have hd := List.getElem?_drop c1Text j 0
    rw [← ht] at hd
    simpa using hd.symm
  have h2 : c1Text[j + 2]? = some '`' := by
    have hd := List.getElem?_drop c1Text j 2
    rw [← ht] at hd
    simpa using hd.symm
  have p0 := c1_tick_pos h0
  have p2 := c1_tick_pos h2
  omega

theorem c1_nl_at {j : Nat} (hj : MatchAt nlStr c1Text j) : j = 5052 := by
  rw [matchAt_ascii_iff nlStr j c1_ascii] at hj
  obtain ⟨hle, hpre⟩ := hj
  rw [List.isPrefixOf_iff_prefix, nlStr_eq] at hpre
  obtain ⟨t, ht⟩ := hpre
  have h0 : c1Text[j]? = some '\n' := by
    have hd := List.getElem?_drop c1Text j 0
    rw [← ht] at hd
    simpa using hd.symm
  exact c1_nl_pos h0

theorem matchAt_append_right {pat v : GoStr} {j : Nat} (u : GoStr) (h : MatchAt pat v j) :
    MatchAt pat (u ++ v) (byteLen u + j) := by
  obtain ⟨w, x, hsplit, hlen, hpre⟩ := h
  exact ⟨u ++ w, x, by simp [hsplit], by rw [byteLen_append, hlen], hpre⟩

theorem c1A_ascii : AllAscii c1A := by
  intro c hc
  rw [List.eq_of_mem_replicate hc]
  decide

theorem c1_byteLen_A : byteLen c1A = 2049 := by
  rw [byteLen_ascii c1A c1A_ascii, c1A, List.length_replicate]

theorem c1_split_4096 :
    c1Text = (c1A ++ fenceStr ++ List.replicate 2044 'b') ++
      (List.replicate 956 'b' ++ nlStr ++ c1C) := by
  rw [c1Text, c1B, show (3000 : Nat) = 2044 + 956 from rfl, List.replicate_add]
  simp only [List.append_assoc]

theorem c1_sub_eq : c1Text.take 4096 = c1A ++ fenceStr ++ List.replicate 2044 'b' := by
  rw [c1_split_4096]
  apply List.take_left'
  rw [c1A, fenceStr_eq_rep]
  simp only [List.length_append, List.length_replicate]

theorem c1_lastFence : goLastIndexBytes (c1Text.take 4096) fenceStr = some 2049 := by
  apply goLastIndexBytes_eq_some_of
  · rw [c1_sub_eq, List.append_assoc]
    refine ⟨c1A, fenceStr ++ List.replicate 2044 'b', rfl, c1_byteLen_A, ?_⟩
    rw [List.isPrefixOf_iff_prefix]
    exact List.prefix_append _ _
  · intro j hj
    have hfull : MatchAt fenceStr c1Text j := by
      have hsplit : c1Text = c1Text.take 4096 ++ c1Text.drop 4096 :=
        (List.take_append_drop 4096 c1Text).symm
      rw [hsplit]
      exact matchAt_append_left _ hj
    have := c1_fence_at hfull
    omega

theorem c1_rest_eq : c1Text.drop 2049 = fenceStr ++ c1B ++ nlStr ++ c1C := by
  have hsplit : c1Text = c1A ++ (fenceStr ++ c1B ++ nlStr ++ c1C) := by
    rw [c1Text]
    simp only [List.append_assoc]
  rw [hsplit]
  apply List.drop_left'
  rw [c1A, List.length_replicate]

theorem c1_nlIdx : goIndexBytes (c1Text.drop 2049) nlStr = some 3003 := by
  apply goIndexBytes_eq_some_of
  · rw [c1_rest_eq]
    have hassoc : fenceStr ++ c1B ++ nlStr ++ c1C = (fenceStr ++ c1B) ++ (nlStr ++ c1C) := by
      simp only [List.append_assoc]
    rw [hassoc]
    refine ⟨fenceStr ++ c1B, nlStr ++ c1C, rfl, ?_, ?_⟩
    · rw [byteLen_append]
      rw [show byteLen fenceStr = 3 by rw [fenceStr_eq]; rfl]
      rw [show byteLen c1B = 3000 by
        rw [byteLen_ascii c1B (fun c hc => by rw [List.eq_of_mem_replicate hc]; decide),
          c1B, List.length_replicate]]
    · rw [List.isPrefixOf_iff_prefix]
      exact List.prefix_append _ _
  · intro j hj
    have hstep : MatchAt nlStr (c1Text.take 2049 ++ c1Text.drop 2049)
        (byteLen (c1Text.take 2049) + j) := matchAt_append_right _ hj
    rw [List.take_append_drop] at hstep
    have hbl : byteLen (c1Text.take 2049) = 2049 := by
      rw [byteLen_ascii _ (fun c hc => c1_ascii c (List.take_subset _ _ hc)),
        List.length_take, c1_len]
      omega
    rw [hbl] at hstep
    have := c1_nl_at hstep
    omega

theorem stringsLastIndex_eq_of_some {s pat : GoStr} {n : Nat}
    (h : goLastIndexBytes s pat = some n) : stringsLastIndex s pat = (n : Int) := by
  unfold stringsLastIndex
  rw [h]

theorem stringsLastIndex_eq_of_none {s pat : GoStr}
    (h : goLastIndexBytes s pat = none) : stringsLastIndex s pat = -1 := by
  unfold stringsLastIndex
  rw [h]

theorem stringsIndex_eq_of_some {s pat : GoStr} {n : Nat}
    (h : goIndexBytes s pat = some n) : stringsIndex s pat = (n : Int) := by
  unfold stringsIndex
  rw [h]

theorem stringsIndex_eq_of_none {s pat : GoStr}
    (h : goIndexBytes s pat = none) : stringsIndex s pat = -1 := by
  unfold stringsIndex
  rw [h]

/-- `findSplitPoint` with its local variables inlined (definitional). -/
theorem findSplitPoint_def (text : GoStr) (maxLen : Nat) :
    findSplitPoint text maxLen =
      if text.length ≤ maxLen then byteLen text
      else
        if stringsLastIndex (takeBytes text (runeByteOffset text maxLen)) fenceStr >
            ((runeByteOffset text maxLen / 2 : Nat) : Int) then
          if stringsIndex (dropBytes text
              (stringsLastIndex (takeBytes text (runeByteOffset text maxLen)) fenceStr).toNat)
              nlStr ≥ 0 then
            (stringsLastIndex (takeBytes text (runeByteOffset text maxLen)) fenceStr).toNat +
              (stringsIndex (dropBytes text
                (stringsLastIndex (takeBytes text (runeByteOffset text maxLen)) fenceStr).toNat)
                nlStr).toNat + 1
          else (stringsLastIndex (takeBytes text (runeByteOffset text maxLen)) fenceStr).toNat
        else
          if stringsLastIndex (takeBytes text (runeByteOffset text maxLen)) nlStr >
              ((runeByteOffset text maxLen / 2 : Nat) : Int) then
            (stringsLastIndex (takeBytes text (runeByteOffset text maxLen)) nlStr).toNat + 1
          else runeByteOffset text maxLen := rfl

theorem c1_fsp : findSplitPoint c1Text 4096 = 5053 := by
  have hbl : runeByteOffset c1Text 4096 = 4096 := by
    rw [runeByteOffset_eq_take,
      byteLen_ascii _ (fun c hc => c1_ascii c (List.take_subset _ _ hc)),
      List.length_take, c1_len]
    omega
  rw [findSplitPoint_def, if_neg (by rw [c1_len]; omega), hbl,
    takeBytes_ascii c1Text 4096 c1_ascii,
    stringsLastIndex_eq_of_some c1_lastFence]
  rw [if_pos (by norm_num)]
  rw [Int.toNat_natCast,
    dropBytes_ascii c1Text 2049 c1_ascii,
    stringsIndex_eq_of_some c1_nlIdx]
  rw [if_pos (by norm_num)]
  rfl

/-- C1 counterexample core: one chunk of the split has more than 4096 runes. -/
theorem c1_counterexample_test : ∃ c ∈ splitMessage c1Text 4096, 4096 < c.length := by
  rw [splitMessage, c1_len]
  rw [if_neg (by omega)]
  rw [show (6153 : Nat) = 6152 + 1 from rfl, splitMessageLoop]
  rw [if_pos (by rw [c1_len]; omega)]
  rw [c1_fsp]
  refine ⟨takeBytes c1Text 5053, List.mem_cons_self _ _, ?_⟩
  rw [takeBytes_ascii _ _ c1_ascii, List.length_take, c1_len]
  omega

theorem takeBytes_runeByteOffset (s : GoStr) (n : Nat) :
    takeBytes s (runeByteOffset s n) = s.take n := by
  have h := takeBytes_eqLeft (s.take n) (s.drop n)
  rw [List.take_append_drop] at h
  rw [runeByteOffset_eq_take]
  exact h

theorem dropBytes_runeByteOffset (s : GoStr) (n : Nat) :
    dropBytes s (runeByteOffset s n) = s.drop n := by
  have h := dropBytes_eqRight (s.take n) (s.drop n)
  rw [List.take_append_drop] at h
  rw [runeByteOffset_eq_take]
  exact h

theorem truncateRunes_eq (s : GoStr) (n : Nat) : truncateRunes s n = s.take n := by
  rw [truncateRunes, takeBytes_runeByteOffset]

theorem splitMessageLoop_join (fuel : Nat) (text : GoStr) (maxLen : Nat) :
    (splitMessageLoop fuel text maxLen).flatten = text := by
  induction fuel generalizing text with
  | zero =>
    rw [splitMessageLoop]
    by_cases h : text.isEmpty
    · simp [h, List.isEmpty_iff.mp h]
    · simp [h]
  | succ fuel ih =>
    rw [splitMessageLoop]
    by_cases h : maxLen < text.length
    · simp only [h, if_true, List.flatten_cons, ih]
      exact takeBytes_append_dropBytes text _
    · by_cases he : text.isEmpty
      · simp [h, he, List.isEmpty_iff.mp he]
      · simp [h, he]

theorem splitMessage_join (text : GoStr) (maxLen : Nat) :
    (splitMessage text maxLen).flatten = text := by
  rw [splitMessage]
  by_cases h : text.length ≤ maxLen
  · simp [h]
  · simp only [h, if_false]
    exact splitMessageLoop_join _ _ _

/-- For a fence-free text the chosen split point stays within the byte
offset of the 4096-th rune, and cuts the text at a rune boundary into a
nonempty head. -/
theorem findSplitPoint_decomp (text : GoStr) (h4096 : 4096 < text.length)
    (hnf : ∀ j, ¬ MatchAt fenceStr text j) :
    ∃ p q, text = p ++ q ∧ p ≠ [] ∧ byteLen p = findSplitPoint text 4096 ∧
      findSplitPoint text 4096 ≤ runeByteOffset text 4096 := by
  have hsub : takeBytes text (runeByteOffset text 4096) = text.take 4096 :=
    takeBytes_runeByteOffset text 4096
  have hbl : runeByteOffset text 4096 = byteLen (text.take 4096) := runeByteOffset_eq_take _ _
  have hsubnf : ∀ j, ¬ MatchAt fenceStr (text.take 4096) j := by
    intro j hj
    have : MatchAt fenceStr (text.take 4096 ++ text.drop 4096) j := matchAt_append_left _ hj
    rw [List.take_append_drop] at this
    exact hnf j this
  have hfence : stringsLastIndex (takeBytes text (runeByteOffset text 4096)) fenceStr = -1 := by
    rw [hsub]
    exact stringsLastIndex_eq_of_none (goLastIndexBytes_eq_none_of hsubnf)
  have hfcond : ¬ (stringsLastIndex (takeBytes text (runeByteOffset text 4096)) fenceStr >
      ((runeByteOffset text 4096 / 2 : Nat) : Int)) := by
    rw [hfence]
    have : (0 : Int) ≤ ((runeByteOffset text 4096 / 2 : Nat) : Int) := Int.natCast_nonneg _
    omega
  have hlen : ¬ (text.length ≤ 4096) := by omega
  have htake4096 : (text.take 4096).length = 4096 := by
    rw [List.length_take]
    omega
  have htake_ne : text.take 4096 ≠ [] := by
    intro h
    rw [h] at htake4096
    simp at htake4096
  cases hNL : goLastIndexBytes (takeBytes text (runeByteOffset text 4096)) nlStr with
  | some i =>
    by_cases hcond : ((i : Nat) : Int) > ((runeByteOffset text 4096 / 2 : Nat) : Int)
    · -- split right after the last newline of the 4096-rune prefix
      have hval : findSplitPoint text 4096 = i + 1 := by
        rw [findSplitPoint_def, if_neg hlen, if_neg hfcond,
          stringsLastIndex_eq_of_some hNL, if_pos hcond, Int.toNat_natCast]
      obtain ⟨hm, _⟩ := goLastIndexBytes_some hNL
      obtain ⟨u, v, hsplit, hlenu, hpre⟩ := hm
      rw [List.isPrefixOf_iff_prefix, nlStr_eq] at hpre
      obtain ⟨w, hw⟩ := hpre
      rw [hsub] at hsplit
      have htext : text = (u ++ ['\n']) ++ (w ++ text.drop 4096) := by
        conv_lhs => rw [← List.take_append_drop 4096 text]
        rw [hsplit, ← hw]
        simp [List.append_assoc]
      refine ⟨u ++ ['\n'], w ++ text.drop 4096, htext, by simp, ?_, ?_⟩
      · rw [byteLen_append, hlenu, hval]
        rfl
      · rw [hval, hbl]
        have h1 : byteLen (text.take 4096) = byteLen u + byteLen v := by
          rw [hsplit, byteLen_append]
        have h2 : byteLen v = 1 + byteLen w := by
          rw [← hw, byteLen_append]
          rfl
        omega
    · have hval : findSplitPoint text 4096 = runeByteOffset text 4096 := by
        rw [findSplitPoint_def, if_neg hlen, if_neg hfcond,
          stringsLastIndex_eq_of_some hNL, if_neg hcond]
      refine ⟨text.take 4096, text.drop 4096, (List.take_append_drop 4096 text).symm,
        htake_ne, by rw [hval, hbl], le_of_eq hval⟩
  | none =>
    have hval : findSplitPoint text 4096 = runeByteOffset text 4096 := by
      rw [findSplitPoint_def, if_neg hlen, if_neg hfcond,
        stringsLastIndex_eq_of_none hNL, if_neg (by
          have : (0 : Int) ≤ ((runeByteOffset text 4096 / 2 : Nat) : Int) := Int.natCast_nonneg _
          omega)]
    exact ⟨text.take 4096, text.drop 4096, (List.take_append_drop 4096 text).symm,
      htake_ne, by rw [hval, hbl], le_of_eq hval⟩

theorem splitMessageLoop_bound (fuel : Nat) (text : GoStr) (hfuel : text.length ≤ fuel)
    (hnf : ∀ j, ¬ MatchAt fenceStr text j) :
    ∀ c ∈ splitMessageLoop fuel text 4096, c.length ≤ 4096 := by
  induction fuel generalizing text with
  | zero =>
    have : text = [] := List.eq_nil_of_length_eq_zero (by omega)
    subst this
    rw [splitMessageLoop]
    simp
  | succ fuel ih =>
    intro c hc
    rw [splitMessageLoop] at hc
    by_cases h : 4096 < text.length
    · rw [if_pos h] at hc
      rw [List.mem_cons] at hc
      obtain ⟨p, q, htext, hpne, hbp, hle⟩ := findSplitPoint_decomp text h hnf
      have htb : takeBytes text (findSplitPoint text 4096) = p := by
        rw [← hbp, htext]
        exact takeBytes_eqLeft p q
      have hdb : dropBytes text (findSplitPoint text 4096) = q := by
        rw [← hbp, htext]
        exact dropBytes_eqRight p q
      rcases hc with hc | hc
      · -- the emitted chunk is the head p, at most 4096 runes
        subst hc
        rw [htb]
        apply length_le_of_byteLen_le_take (k := 4096) ⟨q, htext.symm⟩
        rw [hbp, ← runeByteOffset_eq_take]
        exact hle
      · -- the rest is strictly shorter and still fence-free
        rw [hdb] at hc
        have hqlen : q.length < text.length := by
          rw [htext, List.length_append]
          have : 0 < p.length := List.length_pos.mpr hpne
          omega
        have hqnf : ∀ j, ¬ MatchAt fenceStr q j := by
          intro j hj
          have := matchAt_append_right p hj
          rw [← htext] at this
          exact hnf _ this
        exact ih q (by omega) hqnf c hc
    · rw [if_neg h] at hc
      by_cases he : text.isEmpty
      · rw [if_pos he] at hc
        simp at hc
      · rw [if_neg he, List.mem_singleton] at hc
        subst hc
        omega

/-- Claim C1, counterexample: the claim says every chunk produced by
`splitMessage text 4096` has rune-length at most 4096.  This is false: on
`c1Text` the fence branch finds the last ``` at byte 2049 of the 4096-rune
prefix and then searches for the next newline in the WHOLE remaining text,
landing at byte 5053, so the first emitted chunk has 5053 > 4096 runes. -/
theorem C1_split_counterexample : ∃ c ∈ splitMessage c1Text 4096, 4096 < c.length := by
  rw [splitMessage, c1_len]
  rw [if_neg (by omega)]
  rw [show (6153 : Nat) = 6152 + 1 from rfl, splitMessageLoop]
  rw [if_pos (by rw [c1_len]; omega)]
  rw [c1_fsp]
  refine ⟨takeBytes c1Text 5053, List.mem_cons_self _ _, ?_⟩
  rw [takeBytes_ascii _ _ c1_ascii, List.length_take, c1_len]
  omega

/-- Claim C1, amended: for every text, the concatenation of the chunks of
`splitMessage text 4096` is the original text; and whenever the text
contains no ``` fence marker, every chunk has rune-length at most 4096
(the fence branch may split past the 4096-rune boundary, because the
newline after the fence is searched in the whole remaining text; the
other two branches never do). -/
theorem C1_split_amended (text : GoStr) :
    (splitMessage text 4096).flatten = text ∧
    (stringsContains text fenceStr = false →
      ∀ c ∈ splitMessage text 4096, c.length ≤ 4096) := by
  refine ⟨splitMessage_join text 4096, ?_⟩
  intro hnf c hc
  have hno : ∀ j, ¬ MatchAt fenceStr text j := by
    intro j hj
    cases hgi : goIndexBytes text fenceStr with
    | none => exact goIndexBytes_none hgi j hj
    | some k =>
      rw [stringsContains, hgi] at hnf
      simp at hnf
  rw [splitMessage] at hc
  by_cases h : text.length ≤ 4096
  · rw [if_pos h, List.mem_singleton] at hc
    subst hc
    exact h
  · rw [if_neg h] at hc
    exact splitMessageLoop_bound text.length text (le_refl _) hno c hc

/-- Witness for the amended C1 theorem at a concrete fence-free text. -/
theorem C1_split_amended_witness :
    (splitMessage "hello\nworld".data 4096).flatten = "hello\nworld".data ∧
    (∀ c ∈ splitMessage "hello\nworld".data 4096, c.length ≤ 4096) :=
  ⟨(C1_split_amended "hello\nworld".data).1,
    (C1_split_amended "hello\nworld".data).2 (by decide)⟩

/-! ### sanitize.Redact (config/config.go sibling package `sanitize`)

The seven secret-redaction regular expressions are embedded as explicit
matchers: each takes a string and returns the rune-length of the match
starting at its head, if any, following the leftmost-first greedy
semantics of the Go `regexp` package.  `replaceAllM` mirrors
`Regexp.ReplaceAllString`: scan left to right, replace each
non-overlapping leftmost match with `[REDACTED]` and continue after it. -/

def isAlnum (c : Char) : Bool :=
  ('a' ≤ c && c ≤ 'z') || ('A' ≤ c && c ≤ 'Z') || ('0' ≤ c && c ≤ '9')

/-- The class `[a-zA-Z0-9\-._~+/]` of the Bearer pattern. -/
def isBearerChar (c : Char) : Bool :=
  isAlnum c || c == '-' || c == '.' || c == '_' || c == '~' || c == '+' || c == '/'

/-- The class `[a-zA-Z0-9\-._]` of the token pattern. -/
def isTokenChar (c : Char) : Bool :=
  isAlnum c || c == '-' || c == '.' || c == '_'

/-- Go regexp `\s`: the whitespace class of RE2, `[\t\n\f\r ]`. -/
def isWs (c : Char) : Bool :=
  c == ' ' || c == '\t' || c == '\n' || c == '\x0c' || c == '\r'

/-- The class `[^\s"']` of the password pattern. -/
def isPwChar (c : Char) : Bool :=
  !(isWs c || c == '"' || c == '\x27')

/-- The class `[0-9A-Z]` of the AKIA pattern. -/
def isUpperDigit (c : Char) : Bool :=
  ('A' ≤ c && c ≤ 'Z') || ('0' ≤ c && c ≤ '9')

/-- The class `[A-Z ]` of the private-key pattern. -/
def isKeyCap (c : Char) : Bool :=
  ('A' ≤ c && c ≤ 'Z') || c == ' '

/-- ASCII lower-casing, for the `(?i)` patterns. -/
def asciiLower (c : Char) : Char :=
  if 'A' ≤ c && c ≤ 'Z' then Char.ofNat (c.toNat + 32) else c

/-- Length of the greedy run of characters satisfying `p` at the head. -/
def runLen (p : Char → Bool) : GoStr → Nat
  | [] => 0
  | c :: cs => if p c then runLen p cs + 1 else 0

/-- Consume a literal prefix, returning the rest. -/
def dropLit (lit s : GoStr) : Option GoStr :=
  if lit.isPrefixOf s then some (s.drop lit.length) else none

/-- Consume a case-insensitive ASCII literal prefix (the literal is given
in lower case), returning the rest. -/
def dropLitCI : GoStr → GoStr → Option GoStr
  | [], s => some s
  | _ :: _, [] => none
  | l :: ls, c :: cs => if asciiLower c == l then dropLitCI ls cs else none

/-- `sk-[a-zA-Z0-9]{20,}` -/
def matchSk (s : GoStr) : Option Nat :=
  match dropLit "sk-".data s with
  | none => none
  | some r =>
    let n := runLen isAlnum r
    if 20 ≤ n then some (3 + n) else none

/-- `key-[a-zA-Z0-9]{20,}` -/
def matchKey (s : GoStr) : Option Nat :=
  match dropLit "key-".data s with
  | none => none
  | some r =>
    let n := runLen isAlnum r
    if 20 ≤ n then some (4 + n) else none

/-- `Bearer [a-zA-Z0-9\-._~+/]+=*` -/
def matchBearer (s : GoStr) : Option Nat :=
  match dropLit "Bearer ".data s with
  | none => none
  | some r =>
    let n := runLen isBearerChar r
    if 1 ≤ n then some (7 + n + runLen (· == '=') (r.drop n)) else none

/-- Common tail of the token and password patterns:
`[=:]\s*["']?C{min,}` for a character class `C`; returns the consumed
rune count.  When the optional quote is taken but the class run after it
is too short, the regex engine backtracks to not taking the quote, where
the class (which excludes quotes) fails immediately, so the whole match
fails. -/
def matchSepQuoteRun (cls : Char → Bool) (min : Nat) (r : GoStr) : Option Nat :=
  match r with
  | [] => none
  | c :: r1 =>
    if c == '=' || c == ':' then
      let w := runLen isWs r1
      let r2 := r1.drop w
      match r2 with
      | [] => none
      | q :: r3 =>
        if q == '"' || q == '\x27' then
          let n := runLen cls r3
          if min ≤ n then some (1 + w + 1 + n) else none
        else
          let n := runLen cls r2
          if min ≤ n then some (1 + w + n) else none
    else none

/-- `(?i)token[=:]\s*["']?[a-zA-Z0-9\-._]{20,}` -/
def matchToken (s : GoStr) : Option Nat :=
  match dropLitCI "token".data s with
  | none => none
  | some r => (matchSepQuoteRun isTokenChar 20 r).map (· + 5)

/-- `(?i)password[=:]\s*["']?[^\s"']{8,}` -/
def matchPassword (s : GoStr) : Option Nat :=
  match dropLitCI "password".data s with
  | none => none
  | some r => (matchSepQuoteRun isPwChar 8 r).map (· + 8)

/-- `AKIA[0-9A-Z]{16}` -/
def matchAkia (s : GoStr) : Option Nat :=
  match dropLit "AKIA".data s with
  | none => none
  | some r =>
    if 16 ≤ r.length && (r.take 16).all isUpperDigit then some 20 else none

/-- The literal tail ` PRIVATE KEY-----` of the private-key pattern. -/
def privKeyTail : GoStr := " PRIVATE KEY-----".data

/-- Backtracking search for the greedy `[A-Z ]*` of the private-key
pattern: try the run length `k` first, then shorter ones. -/
def findTailFrom (r : GoStr) : Nat → Option Nat
  | 0 => if privKeyTail.isPrefixOf r then some 0 else none
  | k + 1 =>
    if privKeyTail.isPrefixOf (r.drop (k + 1)) then some (k + 1)
    else findTailFrom r k

/-- `-----BEGIN [A-Z ]* PRIVATE KEY-----` -/
def matchPrivKey (s : GoStr) : Option Nat :=
  match dropLit "-----BEGIN ".data s with
  | none => none
  | some r =>
    match findTailFrom r (runLen isKeyCap r) with
    | none => none
    | some k => some (11 + k + 17)

/-- The replacement text of `sanitize.Redact`. -/
def redactedStr : GoStr := "[REDACTED]".data

/-- Go `Regexp.ReplaceAllString(s, "[REDACTED]")` for a matcher `m`:
leftmost non-overlapping matches are replaced and scanning continues
after each match.  Matchers never match the empty string (each pattern
starts with a non-empty literal), so the consumed length is positive. -/
def replaceAllM (m : GoStr → Option Nat) : GoStr → GoStr
  | [] => []
  | c :: cs =>
    match m (c :: cs) with
    | some n => redactedStr ++ replaceAllM m (cs.drop (n - 1))
    | none => c :: replaceAllM m cs
termination_by s => s.length
decreasing_by
  all_goals simp only [List.length_cons, List.length_drop]
  all_goals omega

/-- The seven redaction patterns, in source order (sanitize package). -/
def redactPatterns : List (GoStr → Option Nat) :=
  [matchSk, matchKey, matchBearer, matchToken, matchPassword, matchAkia, matchPrivKey]

/-- Source `sanitize.Redact`: apply every pattern in order, replacing all
matches with `[REDACTED]`; identity when disabled. -/
def Redact (text : GoStr) (enabled : Bool) : GoStr :=
  if !enabled then text
  else redactPatterns.foldl (fun t m => replaceAllM m t) text

/-! ### Go string helpers used by the pusher and status poller -/

/-- Go `strings.ReplaceAll` for a non-empty literal `old`. -/
def replaceAllLit (old new : GoStr) : GoStr → GoStr
  | [] => []
  | c :: cs =>
    if old ≠ [] ∧ old.isPrefixOf (c :: cs) then
      new ++ replaceAllLit old new (cs.drop (old.length - 1))
    else c :: replaceAllLit old new cs
termination_by s => s.length
decreasing_by
  all_goals simp only [List.length_cons, List.length_drop]
  all_goals omega

/-- Source `escapeHTML` (bot/markdown.go). -/
def escapeHTML (text : GoStr) : GoStr :=
  replaceAllLit ">".data "&gt;".data
    (replaceAllLit "<".data "&lt;".data
      (replaceAllLit "&".data "&amp;".data text))

/-- Go `unicode.IsSpace` on the Latin-1 range (the embedded inputs are
terminal captures; the higher White_Space code points do not occur). -/
def goIsSpace (c : Char) : Bool :=
  c == ' ' || c == '\t' || c == '\n' || c == '\x0b' || c == '\x0c' || c == '\r'
    || c == '\x85' || c == '\xa0'

/-- Go `strings.TrimSpace`. -/
def trimSpace (s : GoStr) : GoStr :=
  (s.dropWhile goIsSpace).reverse.dropWhile goIsSpace |>.reverse

/-- Go `strings.TrimRight` with a cutset. -/
def trimRightCut (s : GoStr) (cut : List Char) : GoStr :=
  (s.reverse.dropWhile (fun c => cut.contains c)).reverse

/-- Go `strings.ToLower`, restricted to ASCII case mapping (the patterns
compared against are ASCII). -/
def toLowerStr (s : GoStr) : GoStr := s.map asciiLower

/-! ### Parsed content blocks and message tasks (monitor/dispatcher.go,
bot/stream.go) -/

/-- Source `monitor.ContentType`. -/
inductive ContentType where
  | text
  | thinking
  | toolUse
  | toolResult
deriving DecidableEq, Repr

/-- Source `monitor.ParsedContent`. -/
structure ParsedContent where
  type : ContentType
  text : GoStr
  toolUseID : GoStr
  toolName : GoStr
deriving DecidableEq, Repr

/-- Source `bot.MessageTask`. -/
structure MessageTask where
  text : GoStr
  contentType : ContentType
  toolUseID : GoStr
  toolName : GoStr
deriving DecidableEq, Repr

/-! ### Interactive-prompt detection (monitor/confirm.go) -/

/-- Source `monitor.ConfirmPatterns`. -/
def ConfirmPatterns : List GoStr :=
  ["Allow".data, "Deny".data, "(y/n)".data, "(Y/N)".data, "(y/N)".data, "(Y/n)".data,
    "Do you want to proceed".data, "Are you sure".data, "allow this".data,
    "approve this".data]

/-- Source `monitor.DetectConfirmPrompt`. -/
def DetectConfirmPrompt (text : GoStr) : Bool :=
  let lower := toLowerStr text
  ConfirmPatterns.any (fun pat => stringsContains lower (toLowerStr pat))

/-- Source `monitor.InteractivePatterns`. -/
def InteractivePatterns : List GoStr :=
  ["❯".data, "●".data, "○".data, "◉".data, "[ ]".data, "[x]".data, "[X]".data,
    "Use arrow".data, "tab to cycle".data, "Esc to cancel".data]

/-- Source `monitor.DetectInteractiveUI`. -/
def DetectInteractiveUI (text : GoStr) : Bool :=
  InteractivePatterns.any (fun pat => stringsContains text pat)

/-! ### The global rate gate (bot/stream.go `RateLimiter`)

The gate is one atomic pause-until timestamp.  The model state carries
the current wall clock `nowMs` and the gate value `pausedUntilMs`;
`Wait` is modelled as returning once the clock has reached the gate
(time advances to the pause end; no concurrent `BackOff` interleaves,
and cancellation is not modelled).  The float64 jitter factor in
`[0.8, 1.2]` is modelled as an integer percentage in `[80, 120]`. -/

structure GateState where
  nowMs : Nat
  pausedUntilMs : Nat
deriving DecidableEq, Repr

/-- Source `RateLimiter.Wait`: block until the pause period expires. -/
def rateWait (g : GateState) : GateState :=
  { g with nowMs := max g.nowMs g.pausedUntilMs }

/-- Source `RateLimiter.BackOff`: clamp `retryAfterSec` to `[1, 30]`,
apply the jitter percentage, and set the pause-until timestamp. -/
def backOff (g : GateState) (retryAfterSec : Int) (jitterPct : Nat) : GateState :=
  let r1 : Int := if retryAfterSec ≤ 0 then 1 else retryAfterSec
  let r2 : Int := if 30 < r1 then 30 else r1
  { g with pausedUntilMs := g.nowMs + r2.toNat * jitterPct * 10 }

/-! ### The chat platform as an oracle, and the pusher state -/

/-- Outcome of one chat-platform call, as classified by the Go error
handling: success with the new message id, a TooManyRequestsError
carrying RetryAfter, or any other error. -/
inductive CallResult where
  | ok (msgID : Int)
  | tooMany (retryAfter : Int)
  | err
deriving DecidableEq, Repr

/-- Source `parseRetryAfter`: RetryAfter of a TooManyRequestsError,
0 otherwise. -/
def parseRetryAfter : CallResult → Int
  | .tooMany ra => ra
  | _ => 0

/-- The message id of a successful call. -/
def callID : CallResult → Option Int
  | .ok id => some id
  | _ => none

/-- One externally visible chat-platform call, recorded with the gate
state at the moment the call begins (chat and thread ids are per-pusher
constants and omitted). -/
inductive TgCall where
  | sendMsg (nowMs pausedUntilMs : Nat) (text : GoStr) (parseMode : GoStr)
  | editMsg (nowMs pausedUntilMs : Nat) (msgID : Int) (text : GoStr) (parseMode : GoStr)
deriving DecidableEq, Repr

/-- The gate state recorded at a call. -/
def TgCall.gateAt : TgCall → Nat × Nat
  | .sendMsg n p _ _ => (n, p)
  | .editMsg n p _ _ _ => (n, p)

/-- A call honors the rate gate when it does not begin while
`now < paused_until`. -/
def TgCall.honorsGate (c : TgCall) : Prop := c.gateAt.2 ≤ c.gateAt.1

/-- Go map lookup over an association list. -/
def mapLookup (m : List (GoStr × α)) (k : GoStr) : Option α :=
  (m.find? (fun p => p.1 == k)).map Prod.snd

/-- Go map insert. -/
def mapSet (m : List (GoStr × α)) (k : GoStr) (v : α) : List (GoStr × α) :=
  (k, v) :: m.filter (fun p => !(p.1 == k))

/-- Go map delete. -/
def mapDel (m : List (GoStr × α)) (k : GoStr) : List (GoStr × α) :=
  m.filter (fun p => !(p.1 == k))

/-- State of one `StreamPusher` worker together with the environment
oracles: the stream of platform-call outcomes, the stream of jitter
percentages for successive `BackOff` calls, and the trace of calls made
so far. -/
structure PusherSt where
  gate : GateState
  toolMsgIDs : List (GoStr × Int)
  toolNames : List (GoStr × GoStr)
  toolMsgTexts : List (GoStr × GoStr)
  results : List CallResult
  jitters : List Nat
  calls : List TgCall
deriving DecidableEq, Repr

/-- Perform `tgBot.SendMessage`: consume the next oracle outcome and
record the call with the gate state at its start. -/
def tgSendMessage (st : PusherSt) (text parseMode : GoStr) : CallResult × PusherSt :=
  (st.results.headD .err,
    { st with
        results := st.results.tail,
        calls := st.calls ++ [.sendMsg st.gate.nowMs st.gate.pausedUntilMs text parseMode] })

/-- Perform `tgBot.EditMessageText`. -/
def tgEditMessage (st : PusherSt) (msgID : Int) (text parseMode : GoStr) :
    CallResult × PusherSt :=
  (st.results.headD .err,
    { st with
        results := st.results.tail,
        calls := st.calls ++
          [.editMsg st.gate.nowMs st.gate.pausedUntilMs msgID text parseMode] })

/-- `rateLimiter.Wait` on the pusher state. -/
def stWait (st : PusherSt) : PusherSt := { st with gate := rateWait st.gate }

/-- `rateLimiter.BackOff` on the pusher state, consuming one jitter. -/
def stBackOff (st : PusherSt) (retryAfterSec : Int) : PusherSt :=
  { st with
      gate := backOff st.gate retryAfterSec (st.jitters.headD 100),
      jitters := st.jitters.tail }

/-- Source `StreamPusher.sendWithRetry` (bot/stream.go): send with the
given parse mode; on a 429 with positive retry-after, back off on the
global gate, wait, and retry once; on another error with a parse mode
set, retry once as plain text; otherwise give up. -/
def sendWithRetry (st : PusherSt) (text parseMode : GoStr) : Option Int × PusherSt :=
  match tgSendMessage st text parseMode with
  | (.ok id, st1) => (some id, st1)
  | (res, st1) =>
    let retryAfter := parseRetryAfter res
    if 0 < retryAfter then
      let st2 := stBackOff st1 retryAfter
      let st3 := stWait st2
      let (res2, st4) := tgSendMessage st3 text parseMode
      (callID res2, st4)
    else if parseMode ≠ [] then
      let (res2, st4) := tgSendMessage st1 text []
      (callID res2, st4)
    else (none, st1)

/-- Source `StreamPusher.editWithRetry` (bot/stream.go). -/
def editWithRetry (st : PusherSt) (msgID : Int) (text parseMode : GoStr) :
    Option Int × PusherSt :=
  match tgEditMessage st msgID text parseMode with
  | (.ok id, st1) => (some id, st1)
  | (res, st1) =>
    let retryAfter := parseRetryAfter res
    if 0 < retryAfter then
      let st2 := stBackOff st1 retryAfter
      let st3 := stWait st2
      let (res2, st4) := tgEditMessage st3 msgID text parseMode
      (callID res2, st4)
    else if parseMode ≠ [] then
      let (res2, st4) := tgEditMessage st1 msgID text []
      (callID res2, st4)
    else (none, st1)

/-- The HTML parse mode constant. -/
def parseModeHTML : GoStr := "HTML".data

/-- Source `StreamPusher.editToolMessage` (bot/stream.go): wait on the
gate, edit the paired message to the original text plus a newline plus
the escaped result (rune-truncated at 4093 plus three dots when over
4096 runes), and on edit failure send the result as a new message. -/
def editToolMessage (st : PusherSt) (msgID : Int) (origText resultText : GoStr) : PusherSt :=
  let st1 := stWait st
  let newText0 :=
    if origText = [] then escapeHTML resultText
    else origText ++ "\n".data ++ escapeHTML resultText
  let newText :=
    if 4096 < newText0.length then truncateRunes newText0 4093 ++ "...".data else newText0
  let r := editWithRetry st1 msgID newText parseModeHTML
  match r.1 with
  | some _ => r.2
  | none => (sendWithRetry r.2 (escapeHTML resultText) parseModeHTML).2

/-- The chunk-sending loop of source `StreamPusher.sendMessage`
(bot/stream.go): for each chunk wait on the gate, format it by content
type (the markdown-to-HTML conversion of bot/markdown.go is the
parameter `toHTMLf`), send with retry, abandon the rest on failure, and
on the last chunk of a tool_use task record the correlation entry. -/
def sendChunksLoop (toHTMLf : GoStr → GoStr) (task : MessageTask) :
    PusherSt → List GoStr → PusherSt
  | st, [] => st
  | st, chunk :: rest =>
    let st1 := stWait st
    let fmtd : GoStr :=
      match task.contentType with
      | .text => toHTMLf chunk
      | .thinking => chunk
      | .toolUse => escapeHTML chunk
      | .toolResult => escapeHTML chunk
    let r := sendWithRetry st1 fmtd parseModeHTML
    match r.1 with
    | none => r.2
    | some msgID =>
      let st3 :=
        if task.contentType = ContentType.toolUse ∧ task.toolUseID ≠ [] ∧ rest = [] then
          { r.2 with
              toolMsgIDs := mapSet r.2.toolMsgIDs task.toolUseID msgID,
              toolNames := mapSet r.2.toolNames task.toolUseID task.toolName,
              toolMsgTexts := mapSet r.2.toolMsgTexts task.toolUseID fmtd }
        else r.2
      sendChunksLoop toHTMLf task st3 rest

/-- Source `StreamPusher.sendMessage` (bot/stream.go): redact, drop
blank messages, pair a tool_result with its recorded tool_use message
by an in-place edit (consuming the correlation entry), otherwise split
into chunks and send them. -/
def sendMessage (toHTMLf : GoStr → GoStr) (redact : Bool) (st : PusherSt)
    (task : MessageTask) : PusherSt :=
  let text := Redact task.text redact
  if trimSpace text = [] then st
  else
    match
      (if task.contentType = ContentType.toolResult ∧ task.toolUseID ≠ [] then
        mapLookup st.toolMsgIDs task.toolUseID
      else none) with
    | some msgID =>
      let origText := (mapLookup st.toolMsgTexts task.toolUseID).getD []
      let st1 :=
        { st with
            toolMsgIDs := mapDel st.toolMsgIDs task.toolUseID,
            toolNames := mapDel st.toolNames task.toolUseID,
            toolMsgTexts := mapDel st.toolMsgTexts task.toolUseID }
      editToolMessage st1 msgID origText text
    | none => sendChunksLoop toHTMLf task st (splitMessage text 4096)

/-! ### Output handler keyboard notifications (bot/stream.go
`PusherManager.OutputHandler`) and the status poller (bot package,
status poller file) -/

/-- The interactive-keyboard notice text. -/
def interactiveNotice : GoStr := "🎮 检测到交互式界面：".data

/-- The confirm-keyboard notice text. -/
def confirmNotice : GoStr := "🔐 检测到权限确认请求：".data

/-- Source `PusherManager.OutputHandler` closure body: the keyboard
notification calls it makes directly (bypassing the queue and the rate
gate) and the task it enqueues on the pusher queue.  The calls are
recorded with the ambient gate state, which the handler never consults. -/
def outputHandler (gate : GateState) (content : ParsedContent) :
    List TgCall × Option MessageTask :=
  let kbCalls :=
    if DetectInteractiveUI content.text then
      [TgCall.sendMsg gate.nowMs gate.pausedUntilMs interactiveNotice []]
    else if DetectConfirmPrompt content.text then
      [TgCall.sendMsg gate.nowMs gate.pausedUntilMs confirmNotice []]
    else []
  let task : Option MessageTask :=
    match content.type with
    | .thinking =>
      some ⟨"<blockquote expandable>💭 ".data ++ escapeHTML content.text
        ++ "</blockquote>".data, .thinking, [], []⟩
    | .text => some ⟨content.text, .text, [], []⟩
    | .toolUse =>
      some ⟨"🔧 ".data ++ content.text, .toolUse, content.toolUseID, content.toolName⟩
    | .toolResult => some ⟨content.text, .toolResult, content.toolUseID, []⟩
  (kbCalls, task)

/-- Decimal digit test. -/
def isDigitCh (c : Char) : Bool := '0' ≤ c && c ≤ '9'

/-- Value of a run of decimal digits. -/
def digitsToNat (ds : GoStr) : Nat := ds.foldl (fun a c => a * 10 + (c.toNat - 48)) 0

/-- Scan a decimal natural at the head (at least one digit). -/
def scanNat (s : GoStr) : Option (Nat × GoStr) :=
  let ds := s.takeWhile isDigitCh
  if ds.isEmpty then none else some (digitsToNat ds, s.drop ds.length)

/-- Scan a Go `%d` integer at the head (optional minus sign). -/
def scanInt : GoStr → Option (Int × GoStr)
  | '-' :: r => (scanNat r).map (fun p => (-(p.1 : Int), p.2))
  | s => (scanNat s).map (fun p => ((p.1 : Int), p.2))

/-- Source `parseTopicKey` (bot/bot.go): parse `dm:`, `topic:` and
`general:` keys via `fmt.Sscanf`; unparsed integers keep the zero
value. -/
def parseTopicKey (key : GoStr) : Int × Int × Bool :=
  if stringsHasPre key "dm:".data then
    match scanInt (key.drop 3) with
    | none => (0, 0, true)
    | some (cid, r2) =>
      match r2 with
      | ':' :: r3 =>
        match scanInt r3 with
        | some (tid, _) => (cid, tid, true)
        | none => (cid, 0, true)
      | _ => (cid, 0, true)
  else if stringsHasPre key "topic:".data then
    match scanInt (key.drop 6) with
    | none => (0, 0, false)
    | some (cid, r2) =>
      match r2 with
      | ':' :: r3 =>
        match scanInt r3 with
        | some (tid, _) => (cid, tid, false)
        | none => (cid, 0, false)
      | _ => (cid, 0, false)
  else if stringsHasPre key "general:".data then
    match scanInt (key.drop 8) with
    | none => (0, 0, false)
    | some (cid, _) => (cid, 0, false)
  else (0, 0, false)

/-- Source `extractStatusLine` (status poller): last non-empty trimmed
line of the pane capture, rune-truncated at 200 plus three dots. -/
def extractStatusLine (text : GoStr) : GoStr :=
  let lines := (trimRightCut text "\n ".data).splitOn '\n'
  match (lines.reverse.map trimSpace).find? (fun l => !l.isEmpty) with
  | some line => if 200 < line.length then line.take 200 ++ "...".data else line
  | none => []

/-- Source `StatusPoller.pollOne`: skip when the pusher queue has
pending output, capture the pane (oracle `captureRes`), extract the
status line, skip when unchanged, then send a fresh status message or
edit the cached one — with no rate-gate interaction whatsoever.  The
entry is the cached `(message_id, last_text)` pair; `callRes` is the
platform outcome for the send or edit this poll performs. -/
def pollOne (gate : GateState) (key : GoStr) (hasPending : Bool)
    (captureRes : Option GoStr) (entry : Option (Int × GoStr)) (callRes : CallResult) :
    List TgCall × Option (Int × GoStr) :=
  if hasPending then ([], entry)
  else
    match captureRes with
    | none => ([], entry)
    | some text =>
      let statusText := extractStatusLine text
      if statusText = [] then ([], entry)
      else
        let e := entry.getD (0, [])
        if statusText = e.2 then ([], some e)
        else
          let e1 := (e.1, statusText)
          let (chatID, _, _) := parseTopicKey key
          if chatID = 0 then ([], some e1)
          else
            let displayText := "📊 ".data ++ statusText
            if e1.1 = 0 then
              ([TgCall.sendMsg gate.nowMs gate.pausedUntilMs displayText []],
                some (match callRes with
                  | .ok id => (id, statusText)
                  | _ => e1))
            else
              ([TgCall.editMsg gate.nowMs gate.pausedUntilMs e1.1 displayText []],
                some (match callRes with
                  | .ok _ => e1
                  | _ => (0, statusText)))

theorem gate_after_wait (st : PusherSt) :
    (stWait st).gate.pausedUntilMs ≤ (stWait st).gate.nowMs := by
  simp [stWait, rateWait]

@[simp] theorem parseRetryAfter_ok (id : Int) : parseRetryAfter (.ok id) = 0 := rfl

@[simp] theorem parseRetryAfter_tooMany (ra : Int) : parseRetryAfter (.tooMany ra) = ra := rfl

@[simp] theorem parseRetryAfter_err : parseRetryAfter .err = 0 := rfl

theorem sendWithRetry_gate {st : PusherSt} (text pm : GoStr)
    (hg : st.gate.pausedUntilMs ≤ st.gate.nowMs)
    (hc : ∀ c ∈ st.calls, c.honorsGate) :
    ∀ c ∈ (sendWithRetry st text pm).2.calls, c.honorsGate := by
  have hfirst : TgCall.honorsGate (.sendMsg st.gate.nowMs st.gate.pausedUntilMs text pm) := hg
  have hfirst2 : TgCall.honorsGate (.sendMsg st.gate.nowMs st.gate.pausedUntilMs text []) := hg
  intro c hcl
  cases hres : st.results with
  | nil =>
    rw [sendWithRetry] at hcl
    simp only [tgSendMessage, hres, List.headD_nil, List.tail_nil, parseRetryAfter_err] at hcl
    rw [if_neg (by decide : ¬ ((0 : Int) < 0))] at hcl
    by_cases hpm : pm ≠ []
    · rw [if_pos hpm] at hcl
      simp only [tgSendMessage, List.mem_append, List.mem_singleton] at hcl
      rcases hcl with (h | rfl) | rfl
      · exact hc c h
      · exact hfirst
      · exact hfirst2
    · rw [if_neg hpm] at hcl
      simp only [List.mem_append, List.mem_singleton] at hcl
      rcases hcl with h | rfl
      · exact hc c h
      · exact hfirst
  | cons r rs =>
    rw [sendWithRetry] at hcl
    simp only [tgSendMessage, hres, List.headD_cons, List.tail_cons] at hcl
    cases r with
    | ok id =>
      simp only [List.mem_append, List.mem_singleton] at hcl
      rcases hcl with h | rfl
      · exact hc c h
      · exact hfirst
    | tooMany ra =>
      simp only [parseRetryAfter_tooMany] at hcl
      by_cases hra : (0 : Int) < ra
      · rw [if_pos hra] at hcl
        simp only [tgSendMessage, stWait, stBackOff, rateWait, backOff, List.mem_append,
          List.mem_singleton] at hcl
        rcases hcl with (h | rfl) | rfl
        · exact hc c h
        · exact hfirst
        · simp [TgCall.honorsGate, TgCall.gateAt]
      · rw [if_neg hra] at hcl
        by_cases hpm : pm ≠ []
        · rw [if_pos hpm] at hcl
          simp only [tgSendMessage, List.mem_append, List.mem_singleton] at hcl
          rcases hcl with (h | rfl) | rfl
          · exact hc c h
          · exact hfirst
          · exact hfirst2
        · rw [if_neg hpm] at hcl
          simp only [List.mem_append, List.mem_singleton] at hcl
          rcases hcl with h | rfl
          · exact hc c h
          · exact hfirst
    | err =>
      simp only [parseRetryAfter_err] at hcl
      rw [if_neg (by decide : ¬ ((0 : Int) < 0))] at hcl
      by_cases hpm : pm ≠ []
      · rw [if_pos hpm] at hcl
        simp only [tgSendMessage, List.mem_append, List.mem_singleton] at hcl
        rcases hcl with (h | rfl) | rfl
        · exact hc c h
        · exact hfirst
        · exact hfirst2
      · rw [if_neg hpm] at hcl
        simp only [List.mem_append, List.mem_singleton] at hcl
        rcases hcl with h | rfl
        · exact hc c h
        · exact hfirst

theorem editWithRetry_gate {st : PusherSt} (msgID : Int) (text pm : GoStr)
    (hg : st.gate.pausedUntilMs ≤ st.gate.nowMs)
    (hc : ∀ c ∈ st.calls, c.honorsGate) :
    ∀ c ∈ (editWithRetry st msgID text pm).2.calls, c.honorsGate := by
  have hfirst : TgCall.honorsGate (.editMsg st.gate.nowMs st.gate.pausedUntilMs msgID text pm) := hg
  have hfirst2 : TgCall.honorsGate (.editMsg st.gate.nowMs st.gate.pausedUntilMs msgID text []) := hg
  intro c hcl
  cases hres : st.results with
  | nil =>
    rw [editWithRetry] at hcl
    simp only [tgEditMessage, hres, List.headD_nil, List.tail_nil, parseRetryAfter_err] at hcl
    rw [if_neg (by decide : ¬ ((0 : Int) < 0))] at hcl
    by_cases hpm : pm ≠ []
    · rw [if_pos hpm] at hcl
      simp only [tgEditMessage, List.mem_append, List.mem_singleton] at hcl
      rcases hcl with (h | rfl) | rfl
      · exact hc c h
      · exact hfirst
      · exact hfirst2
    · rw [if_neg hpm] at hcl
      simp only [List.mem_append, List.mem_singleton] at hcl
      rcases hcl with h | rfl
      · exact hc c h
      · exact hfirst
  | cons r rs =>
    rw [editWithRetry] at hcl
    simp only [tgEditMessage, hres, List.headD_cons, List.tail_cons] at hcl
    cases r with
    | ok id =>
      simp only [List.mem_append, List.mem_singleton] at hcl
      rcases hcl with h | rfl
      · exact hc c h
      · exact hfirst
    | tooMany ra =>
      simp only [parseRetryAfter_tooMany] at hcl
      by_cases hra : (0 : Int) < ra
      · rw [if_pos hra] at hcl
        simp only [tgEditMessage, stWait, stBackOff, rateWait, backOff, List.mem_append,
          List.mem_singleton] at hcl
        rcases hcl with (h | rfl) | rfl
        · exact hc c h
        · exact hfirst
        · simp [TgCall.honorsGate, TgCall.gateAt]
      · rw [if_neg hra] at hcl
        by_cases hpm : pm ≠ []
        · rw [if_pos hpm] at hcl
          simp only [tgEditMessage, List.mem_append, List.mem_singleton] at hcl
          rcases hcl with (h | rfl) | rfl
          · exact hc c h
          · exact hfirst
          · exact hfirst2
        · rw [if_neg hpm] at hcl
          simp only [List.mem_append, List.mem_singleton] at hcl
          rcases hcl with h | rfl
          · exact hc c h
          · exact hfirst
    | err =>
      simp only [parseRetryAfter_err] at hcl
      rw [if_neg (by decide : ¬ ((0 : Int) < 0))] at hcl
      by_cases hpm : pm ≠ []
      · rw [if_pos hpm] at hcl
        simp only [tgEditMessage, List.mem_append, List.mem_singleton] at hcl
        rcases hcl with (h | rfl) | rfl
        · exact hc c h
        · exact hfirst
        · exact hfirst2
      · rw [if_neg hpm] at hcl
        simp only [List.mem_append, List.mem_singleton] at hcl
        rcases hcl with h | rfl
        · exact hc c h
        · exact hfirst

theorem sendWithRetry_gateOk {st : PusherSt} (text pm : GoStr)
    (hg : st.gate.pausedUntilMs ≤ st.gate.nowMs) :
    (sendWithRetry st text pm).2.gate.pausedUntilMs ≤
      (sendWithRetry st text pm).2.gate.nowMs := by
  cases hres : st.results with
  | nil =>
    rw [sendWithRetry]
    simp only [tgSendMessage, hres, List.headD_nil, List.tail_nil, parseRetryAfter_err]
    rw [if_neg (by decide : ¬ ((0 : Int) < 0))]
    by_cases hpm : pm ≠ []
    · rw [if_pos hpm]
      exact hg
    · rw [if_neg hpm]
      exact hg
  | cons r rs =>
    rw [sendWithRetry]
    simp only [tgSendMessage, hres, List.headD_cons, List.tail_cons]
    cases r with
    | ok id => exact hg
    | tooMany ra =>
      simp only [parseRetryAfter_tooMany]
      by_cases hra : (0 : Int) < ra
      · rw [if_pos hra]
        simp [tgSendMessage, stWait, stBackOff, rateWait]
      · rw [if_neg hra]
        by_cases hpm : pm ≠ []
        · rw [if_pos hpm]
          exact hg
        · rw [if_neg hpm]
          exact hg
    | err =>
      simp only [parseRetryAfter_err]
      rw [if_neg (by decide : ¬ ((0 : Int) < 0))]
      by_cases hpm : pm ≠ []
      · rw [if_pos hpm]
        exact hg
      · rw [if_neg hpm]
        exact hg

theorem editWithRetry_gateOk {st : PusherSt} (msgID : Int) (text pm : GoStr)
    (hg : st.gate.pausedUntilMs ≤ st.gate.nowMs) :
    (editWithRetry st msgID text pm).2.gate.pausedUntilMs ≤
      (editWithRetry st msgID text pm).2.gate.nowMs := by
  cases hres : st.results with
  | nil =>
    rw [editWithRetry]
    simp only [tgEditMessage, hres, List.headD_nil, List.tail_nil, parseRetryAfter_err]
    rw [if_neg (by decide : ¬ ((0 : Int) < 0))]
    by_cases hpm : pm ≠ []
    · rw [if_pos hpm]
      exact hg
    · rw [if_neg hpm]
      exact hg
  | cons r rs =>
    rw [editWithRetry]
    simp only [tgEditMessage, hres, List.headD_cons, List.tail_cons]
    cases r with
    | ok id => exact hg
    | tooMany ra =>
      simp only [parseRetryAfter_tooMany]
      by_cases hra : (0 : Int) < ra
      · rw [if_pos hra]
        simp [tgEditMessage, stWait, stBackOff, rateWait]
      · rw [if_neg hra]
        by_cases hpm : pm ≠ []
        · rw [if_pos hpm]
          exact hg
        · rw [if_neg hpm]
          exact hg
    | err =>
      simp only [parseRetryAfter_err]
      rw [if_neg (by decide : ¬ ((0 : Int) < 0))]
      by_cases hpm : pm ≠ []
      · rw [if_pos hpm]
        exact hg
      · rw [if_neg hpm]
        exact hg

theorem editToolMessage_gate {st : PusherSt} (msgID : Int) (origText resultText : GoStr)
    (hc : ∀ c ∈ st.calls, c.honorsGate) :
    ∀ c ∈ (editToolMessage st msgID origText resultText).calls, c.honorsGate := by
  rw [editToolMessage]
  have hg1 := gate_after_wait st
  have hc1 : ∀ c ∈ (stWait st).calls, c.honorsGate := hc
  generalize (if 4096 <
      (List.length
        (if origText = [] then escapeHTML resultText
          else origText ++ "\n".data ++ escapeHTML resultText)) then
      truncateRunes
        (if origText = [] then escapeHTML resultText
          else origText ++ "\n".data ++ escapeHTML resultText) 4093 ++ "...".data
    else
      (if origText = [] then escapeHTML resultText
        else origText ++ "\n".data ++ escapeHTML resultText)) = newText
  have hall := @editWithRetry_gate (stWait st) msgID newText parseModeHTML hg1 hc1
  have hok := @editWithRetry_gateOk (stWait st) msgID newText parseModeHTML hg1
  cases hedit : editWithRetry (stWait st) msgID newText parseModeHTML with
  | mk fst snd =>
    rw [hedit] at hall hok
    cases fst with
    | some id => exact hall
    | none =>
      have hall2 := @sendWithRetry_gate snd (escapeHTML resultText) parseModeHTML hok hall
      exact hall2

theorem sendChunksLoop_gate (toHTMLf : GoStr → GoStr) (task : MessageTask) :
    ∀ (chunks : List GoStr) (st : PusherSt),
      (∀ c ∈ st.calls, c.honorsGate) →
      ∀ c ∈ (sendChunksLoop toHTMLf task st chunks).calls, c.honorsGate := by
  intro chunks
  induction chunks with
  | nil =>
    intro st hc
    rw [sendChunksLoop]
    exact hc
  | cons chunk rest ih =>
    intro st hc
    rw [sendChunksLoop]
    have hg1 := gate_after_wait st
    have hc1 : ∀ c ∈ (stWait st).calls, c.honorsGate := hc
    generalize (match task.contentType with
      | ContentType.text => toHTMLf chunk
      | ContentType.thinking => chunk
      | ContentType.toolUse => escapeHTML chunk
      | ContentType.toolResult => escapeHTML chunk) = fmtd
    have hall := @sendWithRetry_gate (stWait st) fmtd parseModeHTML hg1 hc1
    cases hsr : sendWithRetry (stWait st) fmtd parseModeHTML with
    | mk fst snd =>
      rw [hsr] at hall
      cases fst with
      | none => exact hall
      | some msgID =>
        by_cases hrec : task.contentType = ContentType.toolUse ∧ task.toolUseID ≠ [] ∧ rest = []
        · refine ih _ ?_
          intro c hcl
          simp only [if_pos hrec] at hcl
          exact hall c hcl
        · refine ih _ ?_
          intro c hcl
          simp only [if_neg hrec] at hcl
          exact hall c hcl

/-- Claim C2, amended: within the pusher worker, every send_message and
edit_message_text call — the chunk sends, their 429 and plain-text
retries, the paired tool_result edits and their fallback sends — begins
only when the clock has reached the global rate gate (the wait precedes
every call).  The keyboard-notification sends of the output handler and
the status-poller sends and edits do NOT consult the gate (see the
counterexample). -/
theorem C2_gate_amended (toHTMLf : GoStr → GoStr) (redact : Bool) (gate : GateState)
    (m1 : List (GoStr × Int)) (m2 m3 : List (GoStr × GoStr))
    (results : List CallResult) (jitters : List Nat) (task : MessageTask) :
    ∀ c ∈ (sendMessage toHTMLf redact
      ⟨gate, m1, m2, m3, results, jitters, []⟩ task).calls, c.honorsGate := by
  rw [sendMessage]
  set st : PusherSt := ⟨gate, m1, m2, m3, results, jitters, []⟩ with hst
  have hc : ∀ c ∈ st.calls, c.honorsGate := by
    intro c hcl
    rw [hst] at hcl
    simp at hcl
  by_cases hblank : trimSpace (Redact task.text redact) = []
  · rw [if_pos hblank]
    exact hc
  · rw [if_neg hblank]
    cases hlk : (if task.contentType = ContentType.toolResult ∧ task.toolUseID ≠ [] then
        mapLookup st.toolMsgIDs task.toolUseID
      else none) with
    | some msgID =>
      refine editToolMessage_gate msgID _ _ ?_
      intro c hcl
      simp only at hcl
      exact hc c hcl
    | none =>
      exact sendChunksLoop_gate toHTMLf task _ st hc

/-- Claim C2, counterexample: the claim says NO send_message call begins
while now < paused_until on EVERY sending path.  The status poller sends
without consulting the gate: with the gate paused until 1000 ms and the
clock at 0, one poll of a bound topic sends a status message at time 0. -/
theorem C2_gate_counterexample :
    (pollOne ⟨0, 1000⟩ "dm:5".data false (some "hi".data) none (.ok 7)).1 =
      [TgCall.sendMsg 0 1000 ("📊 hi".data) []] ∧
    ¬ TgCall.honorsGate (TgCall.sendMsg 0 1000 ("📊 hi".data) []) := by
  constructor
  · decide
  · rw [TgCall.honorsGate]
    decide

/-- Witness for the amended C2 theorem: a concrete pusher run whose one
send call honors the gate. -/
theorem C2_gate_amended_witness :
    TgCall.honorsGate (TgCall.sendMsg 5 3 "hi".data parseModeHTML) :=
  C2_gate_amended id false ⟨5, 3⟩ [] [] [] [CallResult.ok 1] []
    ⟨"hi".data, ContentType.text, [], []⟩
    (TgCall.sendMsg 5 3 "hi".data parseModeHTML) (by decide)

/-- `sendMessage` with its local variables inlined (definitional). -/
theorem sendMessage_def (toHTMLf : GoStr → GoStr) (redact : Bool) (st : PusherSt)
    (task : MessageTask) :
    sendMessage toHTMLf redact st task =
      if trimSpace (Redact task.text redact) = [] then st
      else
        match (if task.contentType = ContentType.toolResult ∧ task.toolUseID ≠ [] then
            mapLookup st.toolMsgIDs task.toolUseID
          else none) with
        | some msgID =>
          editToolMessage
            { st with
                toolMsgIDs := mapDel st.toolMsgIDs task.toolUseID,
                toolNames := mapDel st.toolNames task.toolUseID,
                toolMsgTexts := mapDel st.toolMsgTexts task.toolUseID }
            msgID ((mapLookup st.toolMsgTexts task.toolUseID).getD [])
            (Redact task.text redact)
        | none =>
          sendChunksLoop toHTMLf task st (splitMessage (Redact task.text redact) 4096) := rfl

/-- `editToolMessage` with its local variables inlined (definitional). -/
theorem editToolMessage_def (st : PusherSt) (msgID : Int) (origText resultText : GoStr) :
    editToolMessage st msgID origText resultText =
      (match (editWithRetry (stWait st) msgID
          (if 4096 <
              (List.length
                (if origText = [] then escapeHTML resultText
                  else origText ++ "\n".data ++ escapeHTML resultText)) then
            truncateRunes
              (if origText = [] then escapeHTML resultText
                else origText ++ "\n".data ++ escapeHTML resultText) 4093 ++ "...".data
          else
            (if origText = [] then escapeHTML resultText
              else origText ++ "\n".data ++ escapeHTML resultText))
          parseModeHTML).1 with
      | some _ =>
        (editWithRetry (stWait st) msgID
          (if 4096 <
              (List.length
                (if origText = [] then escapeHTML resultText
                  else origText ++ "\n".data ++ escapeHTML resultText)) then
            truncateRunes
              (if origText = [] then escapeHTML resultText
                else origText ++ "\n".data ++ escapeHTML resultText) 4093 ++ "...".data
          else
            (if origText = [] then escapeHTML resultText
              else origText ++ "\n".data ++ escapeHTML resultText))
          parseModeHTML).2
      | none =>
        (sendWithRetry
          (editWithRetry (stWait st) msgID
            (if 4096 <
                (List.length
                  (if origText = [] then escapeHTML resultText
                    else origText ++ "\n".data ++ escapeHTML resultText)) then
              truncateRunes
                (if origText = [] then escapeHTML resultText
                  else origText ++ "\n".data ++ escapeHTML resultText) 4093 ++ "...".data
            else
              (if origText = [] then escapeHTML resultText
                else origText ++ "\n".data ++ escapeHTML resultText))
            parseModeHTML).2
          (escapeHTML resultText) parseModeHTML).2) := rfl

@[simp] theorem mapLookup_mapSet_self (m : List (GoStr × α)) (k : GoStr) (v : α) :
    mapLookup (mapSet m k v) k = some v := by
  simp [mapLookup, mapSet]

@[simp] theorem mapLookup_mapDel_self (m : List (GoStr × α)) (k : GoStr) :
    mapLookup (mapDel m k) k = none := by
  rw [mapLookup, mapDel]
  rw [List.find?_eq_none.mpr]
  · rfl
  · intro p hp
    have := (List.mem_filter.mp hp).2
    simp at this
    simp [this]

@[simp] theorem callID_ok (id : Int) : callID (.ok id) = some id := rfl

@[simp] theorem callID_tooMany (ra : Int) : callID (.tooMany ra) = none := rfl

@[simp] theorem callID_err : callID .err = none := rfl

theorem sendWithRetry_toolMsgIDs (st : PusherSt) (text pm : GoStr) :
    (sendWithRetry st text pm).2.toolMsgIDs = st.toolMsgIDs := by
  cases hres : st.results with
  | nil =>
    rw [sendWithRetry]
    simp only [tgSendMessage, hres, List.headD_nil, List.tail_nil, parseRetryAfter_err]
    rw [if_neg (by decide : ¬ ((0 : Int) < 0))]
    by_cases hpm : pm ≠ [] <;> simp [hpm, tgSendMessage]
  | cons r rs =>
    rw [sendWithRetry]
    simp only [tgSendMessage, hres, List.headD_cons, List.tail_cons]
    cases r with
    | ok id => rfl
    | tooMany ra =>
      simp only [parseRetryAfter_tooMany]
      by_cases hra : (0 : Int) < ra <;>
        by_cases hpm : pm ≠ [] <;>
          simp [hra, hpm, tgSendMessage, stWait, stBackOff]
    | err =>
      simp only [parseRetryAfter_err]
      rw [if_neg (by decide : ¬ ((0 : Int) < 0))]
      by_cases hpm : pm ≠ [] <;> simp [hpm, tgSendMessage]

theorem editWithRetry_toolMsgIDs (st : PusherSt) (msgID : Int) (text pm : GoStr) :
    (editWithRetry st msgID text pm).2.toolMsgIDs = st.toolMsgIDs := by
  cases hres : st.results with
  | nil =>
    rw [editWithRetry]
    simp only [tgEditMessage, hres, List.headD_nil, List.tail_nil, parseRetryAfter_err]
    rw [if_neg (by decide : ¬ ((0 : Int) < 0))]
    by_cases hpm : pm ≠ [] <;> simp [hpm, tgEditMessage]
  | cons r rs =>
    rw [editWithRetry]
    simp only [tgEditMessage, hres, List.headD_cons, List.tail_cons]
    cases r with
    | ok id => rfl
    | tooMany ra =>
      simp only [parseRetryAfter_tooMany]
      by_cases hra : (0 : Int) < ra <;>
        by_cases hpm : pm ≠ [] <;>
          simp [hra, hpm, tgEditMessage, stWait, stBackOff]
    | err =>
      simp only [parseRetryAfter_err]
      rw [if_neg (by decide : ¬ ((0 : Int) < 0))]
      by_cases hpm : pm ≠ [] <;> simp [hpm, tgEditMessage]

theorem editToolMessage_toolMsgIDs (st : PusherSt) (msgID : Int) (origText resultText : GoStr) :
    (editToolMessage st msgID origText resultText).toolMsgIDs = st.toolMsgIDs := by
  rw [editToolMessage_def]
  cases h : (editWithRetry (stWait st) msgID _ parseModeHTML).1 with
  | some id =>
    have := editWithRetry_toolMsgIDs (stWait st) msgID
      (if 4096 <
          (List.length
            (if origText = [] then escapeHTML resultText
              else origText ++ "\n".data ++ escapeHTML resultText)) then
        truncateRunes
          (if origText = [] then escapeHTML resultText
            else origText ++ "\n".data ++ escapeHTML resultText) 4093 ++ "...".data
      else
        (if origText = [] then escapeHTML resultText
          else origText ++ "\n".data ++ escapeHTML resultText)) parseModeHTML
    exact this
  | none =>
    rw [sendWithRetry_toolMsgIDs]
    exact editWithRetry_toolMsgIDs (stWait st) msgID _ parseModeHTML

theorem pairing_record {toHTMLf : GoStr → GoStr} {redact : Bool} {st : PusherSt}
    {task : MessageTask} {k : Int} {rest : List CallResult}
    (hres : st.results = CallResult.ok k :: rest)
    (htype : task.contentType = ContentType.toolUse)
    (hid : task.toolUseID ≠ [])
    (htext : trimSpace (Redact task.text redact) ≠ [])
    (hlen : (Redact task.text redact).length ≤ 4096) :
    mapLookup (sendMessage toHTMLf redact st task).toolMsgIDs task.toolUseID = some k ∧
    mapLookup (sendMessage toHTMLf redact st task).toolNames task.toolUseID
      = some task.toolName ∧
    mapLookup (sendMessage toHTMLf redact st task).toolMsgTexts task.toolUseID
      = some (escapeHTML (Redact task.text redact)) ∧
    (sendMessage toHTMLf redact st task).calls = st.calls ++
      [TgCall.sendMsg (max st.gate.nowMs st.gate.pausedUntilMs) st.gate.pausedUntilMs
        (escapeHTML (Redact task.text redact)) parseModeHTML] := by
  rw [sendMessage_def, if_neg htext, if_neg (by simp [htype])]
  rw [splitMessage, if_pos hlen]
  rw [sendChunksLoop, htype]
  rw [sendWithRetry]
  simp only [tgSendMessage, stWait, rateWait, hres, List.headD_cons, List.tail_cons]
  rw [if_pos ⟨trivial, hid, trivial⟩]
  rw [sendChunksLoop]
  refine ⟨?_, ?_, ?_, ?_⟩ <;> simp

theorem pairing_edit_success {toHTMLf : GoStr → GoStr} {redact : Bool} {st : PusherSt}
    {task : MessageTask} {k msgID : Int} {rest : List CallResult} {orig : GoStr}
    (hres : st.results = CallResult.ok k :: rest)
    (htype : task.contentType = ContentType.toolResult)
    (hid : task.toolUseID ≠ [])
    (hlk : mapLookup st.toolMsgIDs task.toolUseID = some msgID)
    (hlkT : mapLookup st.toolMsgTexts task.toolUseID = some orig)
    (htext : trimSpace (Redact task.text redact) ≠ []) :
    (sendMessage toHTMLf redact st task).calls = st.calls ++
      [TgCall.editMsg (max st.gate.nowMs st.gate.pausedUntilMs) st.gate.pausedUntilMs msgID
        (if 4096 <
            (List.length
              (if orig = [] then escapeHTML (Redact task.text redact)
                else orig ++ "\n".data ++ escapeHTML (Redact task.text redact))) then
          truncateRunes
            (if orig = [] then escapeHTML (Redact task.text redact)
              else orig ++ "\n".data ++ escapeHTML (Redact task.text redact)) 4093
            ++ "...".data
        else
          (if orig = [] then escapeHTML (Redact task.text redact)
            else orig ++ "\n".data ++ escapeHTML (Redact task.text redact)))
        parseModeHTML] ∧
    mapLookup (sendMessage toHTMLf redact st task).toolMsgIDs task.toolUseID = none := by
  rw [sendMessage_def, if_neg htext, if_pos (And.intro htype hid), hlk, hlkT]
  dsimp only
  simp only [Option.getD_some]
  constructor
  · rw [editToolMessage_def]
    rw [editWithRetry]
    simp only [tgEditMessage, stWait, rateWait, hres, List.headD_cons, List.tail_cons]
  · rw [editToolMessage_toolMsgIDs]
    simp only []
    exact mapLookup_mapDel_self st.toolMsgIDs task.toolUseID

theorem pairing_edit_failure {toHTMLf : GoStr → GoStr} {redact : Bool} {st : PusherSt}
    {task : MessageTask} {k msgID : Int} {rest : List CallResult} {orig : GoStr}
    (hres : st.results = CallResult.err :: CallResult.err :: CallResult.ok k :: rest)
    (htype : task.contentType = ContentType.toolResult)
    (hid : task.toolUseID ≠ [])
    (hlk : mapLookup st.toolMsgIDs task.toolUseID = some msgID)
    (hlkT : mapLookup st.toolMsgTexts task.toolUseID = some orig)
    (htext : trimSpace (Redact task.text redact) ≠ []) :
    (sendMessage toHTMLf redact st task).calls = st.calls ++
      [TgCall.editMsg (max st.gate.nowMs st.gate.pausedUntilMs) st.gate.pausedUntilMs msgID
        (if 4096 <
            (List.length
              (if orig = [] then escapeHTML (Redact task.text redact)
                else orig ++ "\n".data ++ escapeHTML (Redact task.text redact))) then
          truncateRunes
            (if orig = [] then escapeHTML (Redact task.text redact)
              else orig ++ "\n".data ++ escapeHTML (Redact task.text redact)) 4093
            ++ "...".data
        else
          (if orig = [] then escapeHTML (Redact task.text redact)
            else orig ++ "\n".data ++ escapeHTML (Redact task.text redact)))
        parseModeHTML,
      TgCall.editMsg (max st.gate.nowMs st.gate.pausedUntilMs) st.gate.pausedUntilMs msgID
        (if 4096 <
            (List.length
              (if orig = [] then escapeHTML (Redact task.text redact)
                else orig ++ "\n".data ++ escapeHTML (Redact task.text redact))) then
          truncateRunes
            (if orig = [] then escapeHTML (Redact task.text redact)
              else orig ++ "\n".data ++ escapeHTML (Redact task.text redact)) 4093
            ++ "...".data
        else
          (if orig = [] then escapeHTML (Redact task.text redact)
            else orig ++ "\n".data ++ escapeHTML (Redact task.text redact))) [],
      TgCall.sendMsg (max st.gate.nowMs st.gate.pausedUntilMs) st.gate.pausedUntilMs
        (escapeHTML (Redact task.text redact)) parseModeHTML] ∧
    mapLookup (sendMessage toHTMLf redact st task).toolMsgIDs task.toolUseID = none := by
  rw [sendMessage_def, if_neg htext, if_pos (And.intro htype hid), hlk, hlkT]
  dsimp only
  simp only [Option.getD_some]
  constructor
  · rw [editToolMessage_def]
    rw [editWithRetry]
    simp only [tgEditMessage, stWait, rateWait, hres, List.headD_cons, List.tail_cons,
      parseRetryAfter_err]
    rw [if_neg (by decide : ¬ ((0 : Int) < 0))]
    rw [if_pos (by simp [parseModeHTML] : parseModeHTML ≠ ([] : GoStr))]
    simp only [tgEditMessage, List.headD_cons, List.tail_cons, callID_err]
    rw [sendWithRetry]
    simp only [tgSendMessage, List.headD_cons, List.tail_cons]
    simp [List.append_assoc]
  · rw [editToolMessage_toolMsgIDs]
    simp only []
    exact mapLookup_mapDel_self st.toolMsgIDs task.toolUseID

/-- Recorded original text for the C5 counterexample: 4095 copies of a. -/
def c5orig : GoStr := List.replicate 4095 'a'

/-- Pusher state for the C5 counterexample: message 7 is recorded for
tool_use_id u1 with sent text `c5orig`; the platform accepts the edit. -/
def c5st : PusherSt :=
  ⟨⟨0, 0⟩, [("u1".data, 7)], [], [("u1".data, c5orig)], [.ok 1], [], []⟩

/-- The tool_result task for the C5 counterexample. -/
def c5task : MessageTask := ⟨"zz".data, .toolResult, "u1".data, []⟩

theorem c5orig_ne_nil : c5orig ≠ [] := by
  intro h
  have h2 := congrArg List.length h
  rw [c5orig, List.length_replicate, List.length_nil] at h2
  exact absurd h2 (by omega)

theorem c5orig_decomp :
    c5orig ++ "\n".data ++ "zz".data =
      List.replicate 4093 'a' ++ (List.replicate 2 'a' ++ "\n".data ++ "zz".data) := by
  rw [c5orig, show (4095 : Nat) = 4093 + 2 from rfl, List.replicate_add]
  simp only [List.append_assoc]

theorem c5_newText :
    (if 4096 <
        (List.length
          (if c5orig = [] then escapeHTML (Redact c5task.text false)
            else c5orig ++ "\n".data ++ escapeHTML (Redact c5task.text false))) then
      truncateRunes
        (if c5orig = [] then escapeHTML (Redact c5task.text false)
          else c5orig ++ "\n".data ++ escapeHTML (Redact c5task.text false)) 4093
        ++ "...".data
    else
      (if c5orig = [] then escapeHTML (Redact c5task.text false)
        else c5orig ++ "\n".data ++ escapeHTML (Redact c5task.text false))) =
      List.replicate 4093 'a' ++ "...".data := by
  have hesc : escapeHTML (Redact c5task.text false) = "zz".data := by
    simp [escapeHTML, replaceAllLit, Redact, c5task]
  rw [hesc]
  simp only [if_neg c5orig_ne_nil]
  have hlen : (c5orig ++ "\n".data ++ "zz".data).length = 4098 := by
    rw [List.length_append, List.length_append, c5orig, List.length_replicate]
    rfl
  rw [if_pos (by rw [hlen]; omega)]
  rw [truncateRunes_eq, c5orig_decomp, List.take_left' (by rw [List.length_replicate])]

/-- Claim C5, counterexample: the claim says the over-long edited text is
truncated at 4093 runes plus the single-rune ellipsis U+2026.  The code
appends three ASCII dots: with sent text of 4095 runes and result zz, the
edit carries `replicate 4093 a ++ "..."` (4096 runes), which differs from
`replicate 4093 a ++ U+2026` (4094 runes). -/
theorem C5_pairing_counterexample :
    (sendMessage id false c5st c5task).calls =
      [TgCall.editMsg 0 0 7 (List.replicate 4093 'a' ++ "...".data) parseModeHTML] ∧
    List.replicate 4093 'a' ++ "...".data ≠ List.replicate 4093 'a' ++ "…".data := by
  constructor
  · have h := (@pairing_edit_success id false c5st c5task 1 7 [] c5orig
      rfl rfl (by decide) (by decide) rfl (by decide)).1
    rw [h, c5_newText]
    rfl
  · intro h
    have h2 := congrArg List.length h
    rw [List.length_append, List.length_append, List.length_replicate] at h2
    rw [show ("...".data).length = 3 from rfl, show ("…".data).length = 1 from rfl] at h2
    exact absurd h2 (by omega)

/-- Claim C5, amended: when a tool_use task is sent (single-chunk case),
the pusher records tool_use_id to message id, tool name and sent text;
when a later tool_result task with the same tool_use_id is drained, the
recorded message is edited to the sent text, a newline and the escaped
result, truncated at 4093 runes plus "..." (three ASCII dots) when over
4096 runes; on edit failure (both parse modes) the result is sent as a
fresh message; the correlation entry is removed once consumed. -/
theorem C5_pairing_amended :
    (∀ (toHTMLf : GoStr → GoStr) (redact : Bool) (st : PusherSt) (task : MessageTask)
        (k : Int) (rest : List CallResult),
      st.results = CallResult.ok k :: rest →
      task.contentType = ContentType.toolUse →
      task.toolUseID ≠ [] →
      trimSpace (Redact task.text redact) ≠ [] →
      (Redact task.text redact).length ≤ 4096 →
      mapLookup (sendMessage toHTMLf redact st task).toolMsgIDs task.toolUseID = some k ∧
      mapLookup (sendMessage toHTMLf redact st task).toolNames task.toolUseID
        = some task.toolName ∧
      mapLookup (sendMessage toHTMLf redact st task).toolMsgTexts task.toolUseID
        = some (escapeHTML (Redact task.text redact)) ∧
      (sendMessage toHTMLf redact st task).calls = st.calls ++
        [TgCall.sendMsg (max st.gate.nowMs st.gate.pausedUntilMs) st.gate.pausedUntilMs
          (escapeHTML (Redact task.text redact)) parseModeHTML]) ∧
    (∀ (toHTMLf : GoStr → GoStr) (redact : Bool) (st : PusherSt) (task : MessageTask)
        (k msgID : Int) (rest : List CallResult) (orig : GoStr),
      st.results = CallResult.ok k :: rest →
      task.contentType = ContentType.toolResult →
      task.toolUseID ≠ [] →
      mapLookup st.toolMsgIDs task.toolUseID = some msgID →
      mapLookup st.toolMsgTexts task.toolUseID = some orig →
      trimSpace (Redact task.text redact) ≠ [] →
      (sendMessage toHTMLf redact st task).calls = st.calls ++
        [TgCall.editMsg (max st.gate.nowMs st.gate.pausedUntilMs) st.gate.pausedUntilMs msgID
          (if 4096 <
              (List.length
                (if orig = [] then escapeHTML (Redact task.text redact)
                  else orig ++ "\n".data ++ escapeHTML (Redact task.text redact))) then
            truncateRunes
              (if orig = [] then escapeHTML (Redact task.text redact)
                else orig ++ "\n".data ++ escapeHTML (Redact task.text redact)) 4093
              ++ "...".data
          else
            (if orig = [] then escapeHTML (Redact task.text redact)
              else orig ++ "\n".data ++ escapeHTML (Redact task.text redact)))
          parseModeHTML] ∧
      mapLookup (sendMessage toHTMLf redact st task).toolMsgIDs task.toolUseID = none) ∧
    (∀ (toHTMLf : GoStr → GoStr) (redact : Bool) (st : PusherSt) (task : MessageTask)
        (k msgID : Int) (rest : List CallResult) (orig : GoStr),
      st.results = CallResult.err :: CallResult.err :: CallResult.ok k :: rest →
      task.contentType = ContentType.toolResult →
      task.toolUseID ≠ [] →
      mapLookup st.toolMsgIDs task.toolUseID = some msgID →
      mapLookup st.toolMsgTexts task.toolUseID = some orig →
      trimSpace (Redact task.text redact) ≠ [] →
      (sendMessage toHTMLf redact st task).calls = st.calls ++
        [TgCall.editMsg (max st.gate.nowMs st.gate.pausedUntilMs) st.gate.pausedUntilMs msgID
          (if 4096 <
              (List.length
                (if orig = [] then escapeHTML (Redact task.text redact)
                  else orig ++ "\n".data ++ escapeHTML (Redact task.text redact))) then
            truncateRunes
              (if orig = [] then escapeHTML (Redact task.text redact)
                else orig ++ "\n".data ++ escapeHTML (Redact task.text redact)) 4093
              ++ "...".data
          else
            (if orig = [] then escapeHTML (Redact task.text redact)
              else orig ++ "\n".data ++ escapeHTML (Redact task.text redact)))
          parseModeHTML,
        TgCall.editMsg (max st.gate.nowMs st.gate.pausedUntilMs) st.gate.pausedUntilMs msgID
          (if 4096 <
              (List.length
                (if orig = [] then escapeHTML (Redact task.text redact)
                  else orig ++ "\n".data ++ escapeHTML (Redact task.text redact))) then
            truncateRunes
              (if orig = [] then escapeHTML (Redact task.text redact)
                else orig ++ "\n".data ++ escapeHTML (Redact task.text redact)) 4093
              ++ "...".data
          else
            (if orig = [] then escapeHTML (Redact task.text redact)
              else orig ++ "\n".data ++ escapeHTML (Redact task.text redact))) [],
        TgCall.sendMsg (max st.gate.nowMs st.gate.pausedUntilMs) st.gate.pausedUntilMs
          (escapeHTML (Redact task.text redact)) parseModeHTML] ∧
      mapLookup (sendMessage toHTMLf redact st task).toolMsgIDs task.toolUseID = none) :=
  ⟨fun _ _ _ _ _ _ h1 h2 h3 h4 h5 => pairing_record h1 h2 h3 h4 h5,
    fun _ _ _ _ _ _ _ _ h1 h2 h3 h4 h5 h6 => pairing_edit_success h1 h2 h3 h4 h5 h6,
    fun _ _ _ _ _ _ _ _ h1 h2 h3 h4 h5 h6 => pairing_edit_failure h1 h2 h3 h4 h5 h6⟩

/-- Witness for the amended C5 theorem: a concrete tool_use send records
its correlation entry, and a concrete tool_result consumes it. -/
theorem C5_pairing_amended_witness :
    mapLookup (sendMessage id false
      ⟨⟨1, 0⟩, [], [], [], [CallResult.ok 3], [], []⟩
      ⟨"go".data, ContentType.toolUse, "t1".data, "Bash".data⟩).toolMsgIDs "t1".data
      = some 3 ∧
    mapLookup (sendMessage id false
      ⟨⟨1, 0⟩, [("t1".data, 3)], [], [("t1".data, "x".data)], [CallResult.ok 4], [], []⟩
      ⟨"ok".data, ContentType.toolResult, "t1".data, []⟩).toolMsgIDs "t1".data
      = none :=
  ⟨(C5_pairing_amended.1 id false
      ⟨⟨1, 0⟩, [], [], [], [CallResult.ok 3], [], []⟩
      ⟨"go".data, ContentType.toolUse, "t1".data, "Bash".data⟩ 3 []
      rfl rfl (by decide) (by decide) (by decide)).1,
    (C5_pairing_amended.2.1 id false
      ⟨⟨1, 0⟩, [("t1".data, 3)], [], [("t1".data, "x".data)], [CallResult.ok 4], [], []⟩
      ⟨"ok".data, ContentType.toolResult, "t1".data, []⟩ 4 3 [] "x".data
      rfl rfl (by decide) (by decide) (by decide) (by decide)).2⟩

/-- Claim C8, counterexample: the claim routes every throttling error
through the back-off-and-retry path and abandons "any other error".  A
throttling error whose retry-after is not positive takes neither path:
with parse mode set it is retried once as plain text, without touching
the gate, and the retry's outcome is returned. -/
theorem C8_retry_counterexample :
    (sendWithRetry ⟨⟨0, 0⟩, [], [], [], [CallResult.tooMany 0, CallResult.ok 5], [100], []⟩
        "hi".data parseModeHTML).2.calls =
      [TgCall.sendMsg 0 0 "hi".data parseModeHTML, TgCall.sendMsg 0 0 "hi".data []] ∧
    (sendWithRetry ⟨⟨0, 0⟩, [], [], [], [CallResult.tooMany 0, CallResult.ok 5], [100], []⟩
        "hi".data parseModeHTML).1 = some 5 ∧
    (sendWithRetry ⟨⟨0, 0⟩, [], [], [], [CallResult.tooMany 0, CallResult.ok 5], [100], []⟩
        "hi".data parseModeHTML).2.gate.pausedUntilMs = 0 := by
  decide

/-- Claim C8, amended: for every send attempt by the pusher: on success
the message id is returned after a single call; on a throttling error
with positive retry-after the gate's pause is advanced by the clamped
retry-after (clamp to [1,30] seconds, times the jitter percentage, which
at 80..120 percent brackets the delay within plus or minus 20 percent),
the sender waits on the gate and retries exactly once with the same
parse mode; on any other failure (including a throttling error with
nonpositive retry-after) with parse mode set, the send is retried
exactly once with parse mode cleared and the gate untouched; otherwise
the message is abandoned after the single call. -/
theorem C8_retry_amended :
    (∀ (st : PusherSt) (text pm : GoStr) (k : Int) (rest : List CallResult),
      st.results = CallResult.ok k :: rest →
      (sendWithRetry st text pm).1 = some k ∧
      (sendWithRetry st text pm).2.calls = st.calls ++
        [TgCall.sendMsg st.gate.nowMs st.gate.pausedUntilMs text pm] ∧
      (sendWithRetry st text pm).2.gate = st.gate) ∧
    (∀ (st : PusherSt) (text pm : GoStr) (ra : Int) (res2 : CallResult)
        (rest : List CallResult),
      st.results = CallResult.tooMany ra :: res2 :: rest →
      0 < ra →
      (sendWithRetry st text pm).2.calls = st.calls ++
        [TgCall.sendMsg st.gate.nowMs st.gate.pausedUntilMs text pm,
          TgCall.sendMsg
            (max st.gate.nowMs
              (st.gate.nowMs +
                (if (30 : Int) < ra then 30 else ra).toNat * st.jitters.headD 100 * 10))
            (st.gate.nowMs +
              (if (30 : Int) < ra then 30 else ra).toNat * st.jitters.headD 100 * 10)
            text pm] ∧
      (sendWithRetry st text pm).1 = callID res2 ∧
      (1 ≤ (if (30 : Int) < ra then 30 else ra) ∧
        (if (30 : Int) < ra then 30 else ra) ≤ 30) ∧
      (80 ≤ st.jitters.headD 100 → st.jitters.headD 100 ≤ 120 →
        (if (30 : Int) < ra then 30 else ra).toNat * 800 ≤
            (if (30 : Int) < ra then 30 else ra).toNat * st.jitters.headD 100 * 10 ∧
          (if (30 : Int) < ra then 30 else ra).toNat * st.jitters.headD 100 * 10 ≤
            (if (30 : Int) < ra then 30 else ra).toNat * 1200)) ∧
    (∀ (st : PusherSt) (text pm : GoStr) (res : CallResult) (res2 : CallResult)
        (rest : List CallResult),
      st.results = res :: res2 :: rest →
      callID res = none →
      parseRetryAfter res ≤ 0 →
      pm ≠ [] →
      (sendWithRetry st text pm).2.calls = st.calls ++
        [TgCall.sendMsg st.gate.nowMs st.gate.pausedUntilMs text pm,
          TgCall.sendMsg st.gate.nowMs st.gate.pausedUntilMs text []] ∧
      (sendWithRetry st text pm).1 = callID res2 ∧
      (sendWithRetry st text pm).2.gate = st.gate) ∧
    (∀ (st : PusherSt) (text : GoStr) (res : CallResult) (rest : List CallResult),
      st.results = res :: rest →
      callID res = none →
      parseRetryAfter res ≤ 0 →
      (sendWithRetry st text []).1 = none ∧
      (sendWithRetry st text []).2.calls = st.calls ++
        [TgCall.sendMsg st.gate.nowMs st.gate.pausedUntilMs text []] ∧
      (sendWithRetry st text []).2.gate = st.gate) := by
  refine ⟨?_, ?_, ?_, ?_⟩
  · intro st text pm k rest hres
    rw [sendWithRetry]
    simp only [tgSendMessage, hres, List.headD_cons, List.tail_cons]
    exact ⟨by trivial, by trivial, by trivial⟩
  · intro st text pm ra res2 rest hres hra
    rw [sendWithRetry]
    simp only [tgSendMessage, hres, List.headD_cons, List.tail_cons, parseRetryAfter_tooMany]
    rw [if_pos hra]
    simp only [stBackOff, stWait, backOff, rateWait, tgSendMessage, List.headD_cons,
      List.tail_cons]
    rw [if_neg (not_le.mpr hra)]
    refine ⟨by simp only [List.append_assoc, List.cons_append, List.nil_append], trivial,
      ?_, ?_⟩
    · constructor
      · by_cases h30 : (30 : Int) < ra
        · rw [if_pos h30]
          omega
        · rw [if_neg h30]
          omega
      · by_cases h30 : (30 : Int) < ra
        · rw [if_pos h30]
        · rw [if_neg h30]
          omega
    · intro hjl hjh
      constructor
      · rw [Nat.mul_assoc]
        exact Nat.mul_le_mul (le_refl _) (by omega)
      · rw [Nat.mul_assoc]
        exact Nat.mul_le_mul (le_refl _) (by omega)
  · intro st text pm res res2 rest hres hnone hpr hpm
    rw [sendWithRetry]
    cases res with
    | ok id => exact absurd hnone (by simp [callID])
    | tooMany ra =>
      simp only [tgSendMessage, hres, List.headD_cons, List.tail_cons, parseRetryAfter_tooMany]
      rw [if_neg (not_lt.mpr (by simpa [parseRetryAfter_tooMany] using hpr)), if_pos hpm]
      simp only [tgSendMessage, List.headD_cons, List.tail_cons]
      exact ⟨by simp only [List.append_assoc, List.cons_append, List.nil_append], trivial,
        trivial⟩
    | err =>
      simp only [tgSendMessage, hres, List.headD_cons, List.tail_cons, parseRetryAfter_err]
      rw [if_neg (by decide : ¬ ((0 : Int) < 0)), if_pos hpm]
      simp only [tgSendMessage, List.headD_cons, List.tail_cons]
      exact ⟨by simp only [List.append_assoc, List.cons_append, List.nil_append], trivial,
        trivial⟩
  · intro st text res rest hres hnone hpr
    rw [sendWithRetry]
    cases res with
    | ok id => exact absurd hnone (by simp [callID])
    | tooMany ra =>
      simp only [tgSendMessage, hres, List.headD_cons, List.tail_cons, parseRetryAfter_tooMany]
      rw [if_neg (not_lt.mpr (by simpa [parseRetryAfter_tooMany] using hpr))]
      rw [if_neg (by simp : ¬ (([] : GoStr) ≠ []))]
      exact ⟨rfl, rfl, rfl⟩
    | err =>
      simp only [tgSendMessage, hres, List.headD_cons, List.tail_cons, parseRetryAfter_err]
      rw [if_neg (by decide : ¬ ((0 : Int) < 0))]
      rw [if_neg (by simp : ¬ (([] : GoStr) ≠ []))]
      exact ⟨rfl, rfl, rfl⟩

/-- Witness for the amended C8 theorem: a successful send returns its
message id, and a throttled send with retry-after 5 returns the retry's
message id. -/
theorem C8_retry_amended_witness :
    (sendWithRetry ⟨⟨2, 1⟩, [], [], [], [CallResult.ok 9], [], []⟩ "m".data []).1
      = some 9 ∧
    (sendWithRetry ⟨⟨0, 0⟩, [], [], [], [CallResult.tooMany 5, CallResult.ok 7], [90], []⟩
        "m".data parseModeHTML).1 = some 7 :=
  ⟨(C8_retry_amended.1 ⟨⟨2, 1⟩, [], [], [], [CallResult.ok 9], [], []⟩ "m".data [] 9 []
      rfl).1,
    by
      have h := (C8_retry_amended.2.1
        ⟨⟨0, 0⟩, [], [], [], [CallResult.tooMany 5, CallResult.ok 7], [90], []⟩
        "m".data parseModeHTML 5 (CallResult.ok 7) [] rfl (by decide)).2.1
      rw [h]
      rfl⟩

/-! ### The claude/codex JSONL append-log monitor (JSONLMonitor) -/

/-- Components of a clean slash-separated path. -/
def pathParts (p : GoStr) : List GoStr := p.splitOn '/'

/-- Go `filepath.Base` on clean slash-separated paths without a trailing
slash. -/
def pathBase (p : GoStr) : GoStr := ((pathParts p).getLast?).getD []

/-- Go `filepath.Dir` on clean slash-separated paths without a trailing
slash. -/
def pathDir (p : GoStr) : GoStr := List.intercalate "/".data (pathParts p).dropLast

/-- Go `filepath.Ext`: the suffix of the last path component starting at
its final dot, empty when it has no dot. -/
def pathExt (p : GoStr) : GoStr :=
  let pre := p.reverse.takeWhile (fun c => c != '/')
  if pre.contains '.' then (pre.takeWhile (fun c => c != '.') ++ ['.']).reverse else []

/-- Go `strings.TrimSuffix`. -/
def trimSuffix (s suf : GoStr) : GoStr :=
  if suf.isSuffixOf s then s.take (s.length - suf.length) else s

/-- Source `extractSessionUUID`: the parent of a `subagents/` directory,
else the basename without extension. -/
def extractSessionUUID (path : GoStr) : GoStr :=
  let dir := pathDir path
  let base := pathBase dir
  if base = "subagents".data then pathBase (pathDir dir)
  else
    let name := pathBase path
    trimSuffix name (pathExt name)

/-- Source `isJSONLFile` for the claude backend: basename ends in
`.jsonl`. -/
def isJSONLFile (path : GoStr) : Bool := stringsHasSuf (pathBase path) ".jsonl".data

/-- State of one `JSONLMonitor`.  File contents, byte offsets and the
fsnotify watcher are not modelled; `tracks` and `reads` record, for each
`trackFile` adoption and each `readIncremental` of a tracked file, the
session uuid held at that moment, so the claimed filtering invariant can
be stated over them. -/
structure MonSt where
  trackedFiles : List (GoStr × Nat)
  mainFile : GoStr
  sessionUUID : GoStr
  baseline : Option (List GoStr)
  tracks : List (GoStr × GoStr)
  reads : List (GoStr × GoStr)
deriving DecidableEq, Repr

/-- Source `belongsToSession`: accept everything until the uuid is set,
then require an equal extracted uuid. -/
def belongsToSession (st : MonSt) (path : GoStr) : Bool :=
  if st.sessionUUID = [] then true else extractSessionUUID path == st.sessionUUID

/-- Source `readIncremental`, reduced to its tracking behaviour: a read
of a tracked file is recorded with the uuid held at read time; untracked
paths are ignored.  Parsing and offset persistence are not modelled. -/
def readIncrementalM (st : MonSt) (path : GoStr) : MonSt :=
  match mapLookup st.trackedFiles path with
  | none => st
  | some _ => { st with reads := st.reads ++ [(st.sessionUUID, path)] }

/-- Source `trackFile`: ignore already-tracked files and files of a
foreign session; otherwise adopt the file, and for a principal file
(path without `/subagents/`) update `mainFile` and lock the uuid if it
is still unset; finally read the file. -/
def trackFile (st : MonSt) (path : GoStr) : MonSt :=
  if (mapLookup st.trackedFiles path).isSome then st
  else if !(belongsToSession st path) then st
  else
    let st1 : MonSt := { st with
      trackedFiles := mapSet st.trackedFiles path 0,
      tracks := st.tracks ++ [(st.sessionUUID, path)] }
    let st2 : MonSt :=
      if stringsContains path "/subagents/".data then st1
      else { st1 with
        mainFile := path,
        sessionUUID :=
          if st1.sessionUUID = [] then extractSessionUUID path else st1.sessionUUID }
    readIncrementalM st2 path

/-- An fsnotify event on the watched tree. -/
inductive FsEvent where
  | create (path : GoStr) (isDir : Bool)
  | write (path : GoStr)
deriving DecidableEq, Repr

/-- Source `handleEvent` (claude backend): directory creations only add
watches; a created or first-written `.jsonl` file outside the baseline
is adopted via `trackFile`; a write to an already-tracked file goes
straight to `readIncremental` with no session check. -/
def handleEvent (st : MonSt) (e : FsEvent) : MonSt :=
  match e with
  | .create path isDir =>
    if isDir then st
    else if isJSONLFile path then
      match st.baseline with
      | some bl => if path ∈ bl then st else trackFile st path
      | none => trackFile st path
    else st
  | .write path =>
    if isJSONLFile path then
      if (mapLookup st.trackedFiles path).isSome then readIncrementalM st path
      else
        match st.baseline with
        | some bl => if path ∈ bl then st else trackFile st path
        | none => trackFile st path
    else st

/-- The monitor driven by a stream of fsnotify events. -/
def runEvents (st : MonSt) (evs : List FsEvent) : MonSt := evs.foldl handleEvent st

/-- The fresh-session initial monitor state (empty uuid, empty baseline
scan). -/
def monInit : MonSt := ⟨[], [], [], some [], [], []⟩

theorem mapLookup_eq_none_iff (m : List (GoStr × α)) (k : GoStr) :
    mapLookup m k = none ↔ ∀ pr ∈ m, pr.1 ≠ k := by
  rw [mapLookup, Option.map_eq_none', List.find?_eq_none]
  constructor
  · intro h pr hpr
    simpa using h pr hpr
  · intro h pr hpr
    simpa using h pr hpr

theorem mapLookup_mapSet_ne_none {m : List (GoStr × α)} {k p : GoStr} {v : α}
    (h : mapLookup (mapSet m k v) p ≠ none) : p = k ∨ mapLookup m p ≠ none := by
  by_cases hpk : p = k
  · exact Or.inl hpk
  · refine Or.inr fun hmn => h ?_
    rw [mapLookup_eq_none_iff] at hmn ⊢
    intro pr hpr
    rcases List.mem_cons.mp hpr with he | hf
    · rw [he]
      exact fun h2 => hpk h2.symm
    · exact hmn pr (List.mem_filter.mp hf).1

theorem readInc_uuid (st : MonSt) (p : GoStr) :
    (readIncrementalM st p).sessionUUID = st.sessionUUID := by
  rw [readIncrementalM]
  split <;> rfl

theorem readInc_tracked (st : MonSt) (p : GoStr) :
    (readIncrementalM st p).trackedFiles = st.trackedFiles := by
  rw [readIncrementalM]
  split <;> rfl

theorem readInc_reads {st : MonSt} {p : GoStr} {pr : GoStr × GoStr}
    (h : pr ∈ (readIncrementalM st p).reads) :
    pr ∈ st.reads ∨ pr = (st.sessionUUID, p) := by
  rw [readIncrementalM] at h
  revert h
  split
  · exact fun h => Or.inl h
  · intro h
    rcases List.mem_append.mp h with h2 | h2
    · exact Or.inl h2
    · exact Or.inr (List.mem_singleton.mp h2)

theorem belongs_extract {st : MonSt} {path : GoStr} (hu : st.sessionUUID ≠ [])
    (hb : belongsToSession st path = true) :
    extractSessionUUID path = st.sessionUUID := by
  rw [belongsToSession, if_neg hu] at hb
  exact beq_iff_eq.mp hb

/-- `trackFile` once the session uuid is locked: the uuid-locking branch
is dead, so the step is the original state or one tracking insertion. -/
theorem trackFile_of_locked {st : MonSt} {path : GoStr} (hu : st.sessionUUID ≠ []) :
    trackFile st path =
      if (mapLookup st.trackedFiles path).isSome then st
      else if !(belongsToSession st path) then st
      else
        readIncrementalM
          (if stringsContains path "/subagents/".data then
            { st with trackedFiles := mapSet st.trackedFiles path 0,
                      tracks := st.tracks ++ [(st.sessionUUID, path)] }
          else
            { st with trackedFiles := mapSet st.trackedFiles path 0,
                      tracks := st.tracks ++ [(st.sessionUUID, path)],
                      mainFile := path }) path := by
  rw [trackFile]
  dsimp only
  by_cases h1 : (mapLookup st.trackedFiles path).isSome
  · rw [if_pos h1, if_pos h1]
  · rw [if_neg h1, if_neg h1]
    by_cases h2 : (!(belongsToSession st path)) = true
    · rw [if_pos h2, if_pos h2]
    · rw [if_neg h2, if_neg h2]
      by_cases h3 : stringsContains path "/subagents/".data = true
      · rw [if_pos h3, if_pos h3]
      · rw [if_neg h3, if_neg h3, if_neg hu]

theorem trackFile_uuid {st : MonSt} {path : GoStr} (hu : st.sessionUUID ≠ []) :
    (trackFile st path).sessionUUID = st.sessionUUID := by
  rw [trackFile_of_locked hu]
  by_cases h1 : (mapLookup st.trackedFiles path).isSome
  · rw [if_pos h1]
  · rw [if_neg h1]
    by_cases h2 : (!(belongsToSession st path)) = true
    · rw [if_pos h2]
    · rw [if_neg h2]
      by_cases h3 : stringsContains path "/subagents/".data = true
      · rw [if_pos h3, readInc_uuid]
      · rw [if_neg h3, readInc_uuid]

theorem trackFile_tracked {st : MonSt} {path p : GoStr} (hu : st.sessionUUID ≠ [])
    (h : mapLookup (trackFile st path).trackedFiles p ≠ none) :
    mapLookup st.trackedFiles p ≠ none ∨ extractSessionUUID p = st.sessionUUID := by
  rw [trackFile_of_locked hu] at h
  by_cases h1 : (mapLookup st.trackedFiles path).isSome
  · rw [if_pos h1] at h
    exact Or.inl h
  · rw [if_neg h1] at h
    by_cases h2 : (!(belongsToSession st path)) = true
    · rw [if_pos h2] at h
      exact Or.inl h
    · rw [if_neg h2] at h
      have hb : belongsToSession st path = true := by
        revert h2
        cases belongsToSession st path
        · intro h2
          exact absurd rfl h2
        · intro _
          rfl
      have h4 : mapLookup (mapSet st.trackedFiles path 0) p ≠ none := by
        by_cases h3 : stringsContains path "/subagents/".data = true
        · rw [if_pos h3, readInc_tracked] at h
          exact h
        · rw [if_neg h3, readInc_tracked] at h
          exact h
      rcases mapLookup_mapSet_ne_none h4 with he | hm
      · rw [he]
        exact Or.inr (belongs_extract hu hb)
      · exact Or.inl hm

theorem trackFile_reads {st : MonSt} {path : GoStr} {pr : GoStr × GoStr}
    (hu : st.sessionUUID ≠ [])
    (h : pr ∈ (trackFile st path).reads) :
    pr ∈ st.reads ∨ pr.1 = st.sessionUUID := by
  rw [trackFile_of_locked hu] at h
  by_cases h1 : (mapLookup st.trackedFiles path).isSome
  · rw [if_pos h1] at h
    exact Or.inl h
  · rw [if_neg h1] at h
    by_cases h2 : (!(belongsToSession st path)) = true
    · rw [if_pos h2] at h
      exact Or.inl h
    · rw [if_neg h2] at h
      by_cases h3 : stringsContains path "/subagents/".data = true
      · rw [if_pos h3] at h
        rcases readInc_reads h with h4 | h4
        · exact Or.inl h4
        · rw [h4]
          exact Or.inr rfl
      · rw [if_neg h3] at h
        rcases readInc_reads h with h4 | h4
        · exact Or.inl h4
        · rw [h4]
          exact Or.inr rfl

/-- Claim C3, counterexample: a subagent file adopted before the session
uuid is locked stays tracked, and writes to it keep being read after a
principal file of a different session locks the uuid: after adopting
`/l/A/subagents/agent-1.jsonl` (uuid A) and then `/l/B.jsonl` (locking
uuid B), a further write to the A-file is still read. -/
theorem C3_session_counterexample :
    (runEvents monInit
        [FsEvent.write "/l/A/subagents/agent-1.jsonl".data,
          FsEvent.write "/l/B.jsonl".data,
          FsEvent.write "/l/A/subagents/agent-1.jsonl".data]).sessionUUID = "B".data ∧
    (("B".data : GoStr), ("/l/A/subagents/agent-1.jsonl".data : GoStr)) ∈
      (runEvents monInit
        [FsEvent.write "/l/A/subagents/agent-1.jsonl".data,
          FsEvent.write "/l/B.jsonl".data,
          FsEvent.write "/l/A/subagents/agent-1.jsonl".data]).reads ∧
    extractSessionUUID "/l/A/subagents/agent-1.jsonl".data ≠ "B".data := by
  decide

/-- Claim C3, amended: once the session uuid is set it never changes; no
file whose extracted uuid differs from it is newly tracked from that
point on; and every read performed from that point on is already in the
log or attributed to the locked uuid — but a file of a different session
tracked before the uuid was locked remains tracked, so its writes keep
being read (the claimed never-read guarantee holds only for files first
seen after the lock). -/
theorem C3_session_amended :
    ∀ (st : MonSt) (e : FsEvent),
      st.sessionUUID ≠ [] →
      (handleEvent st e).sessionUUID = st.sessionUUID ∧
      (∀ p, mapLookup (handleEvent st e).trackedFiles p ≠ none →
        mapLookup st.trackedFiles p ≠ none ∨ extractSessionUUID p = st.sessionUUID) ∧
      (∀ pr : GoStr × GoStr, pr ∈ (handleEvent st e).reads →
        pr ∈ st.reads ∨ pr.1 = st.sessionUUID) := by
  intro st e hu
  cases e with
  | create path isDir =>
    rw [handleEvent]
    by_cases hd : isDir = true
    · rw [if_pos hd]
      exact ⟨rfl, fun p h => Or.inl h, fun pr h => Or.inl h⟩
    · rw [if_neg hd]
      by_cases hj : isJSONLFile path = true
      · rw [if_pos hj]
        cases hbl : st.baseline with
        | some bl =>
          dsimp only
          by_cases hm : path ∈ bl
          · rw [if_pos hm]
            exact ⟨rfl, fun p h => Or.inl h, fun pr h => Or.inl h⟩
          · rw [if_neg hm]
            exact ⟨trackFile_uuid hu, fun p h => trackFile_tracked hu h,
              fun pr h => trackFile_reads hu h⟩
        | none =>
          dsimp only
          exact ⟨trackFile_uuid hu, fun p h => trackFile_tracked hu h,
            fun pr h => trackFile_reads hu h⟩
      · rw [if_neg hj]
        exact ⟨rfl, fun p h => Or.inl h, fun pr h => Or.inl h⟩
  | write path =>
    rw [handleEvent]
    by_cases hj : isJSONLFile path = true
    · rw [if_pos hj]
      by_cases ht : (mapLookup st.trackedFiles path).isSome
      · rw [if_pos ht]
        refine ⟨readInc_uuid st path, ?_, ?_⟩
        · intro p h
          rw [readInc_tracked] at h
          exact Or.inl h
        · intro pr h
          rcases readInc_reads h with h2 | h2
          · exact Or.inl h2
          · rw [h2]
            exact Or.inr rfl
      · rw [if_neg ht]
        cases hbl : st.baseline with
        | some bl =>
          dsimp only
          by_cases hm : path ∈ bl
          · rw [if_pos hm]
            exact ⟨rfl, fun p h => Or.inl h, fun pr h => Or.inl h⟩
          · rw [if_neg hm]
            exact ⟨trackFile_uuid hu, fun p h => trackFile_tracked hu h,
              fun pr h => trackFile_reads hu h⟩
        | none =>
          dsimp only
          exact ⟨trackFile_uuid hu, fun p h => trackFile_tracked hu h,
            fun pr h => trackFile_reads hu h⟩
    · rw [if_neg hj]
      exact ⟨rfl, fun p h => Or.inl h, fun pr h => Or.inl h⟩

/-- Witness for the amended C3 theorem: with the uuid locked to `u`, a
write event leaves the uuid unchanged. -/
theorem C3_session_amended_witness :
    (handleEvent ⟨[("/a/u.jsonl".data, 0)], "/a/u.jsonl".data, "u".data, none, [], []⟩
      (FsEvent.write "/a/u.jsonl".data)).sessionUUID = "u".data :=
  (C3_session_amended ⟨[("/a/u.jsonl".data, 0)], "/a/u.jsonl".data, "u".data, none, [], []⟩
    (FsEvent.write "/a/u.jsonl".data) (by decide)).1

/-! ### Startup recovery of persisted bindings (bot/bot.go) -/

/-- A persisted binding, reduced to the fields recovery consults. -/
structure RecBinding where
  windowID : GoStr
  status : GoStr
deriving DecidableEq, Repr

/-- One side effect performed by `recoverBindings`. -/
inductive RecAction where
  | setBinding (key windowID status : GoStr)
  | deleteBinding (key : GoStr)
  | deleteOffset (key : GoStr)
  | createSendChan (windowID : GoStr)
  | startMonitor (key windowID : GoStr)
  | setPhase (key phase : GoStr)
deriving DecidableEq, Repr

/-- The recovery loop body for one persisted binding, as its sequence of
side effects; `wa`/`ba` are the tmux window- and backend-liveness
oracles.  Handler construction carries no persistent effect and is not
recorded. -/
def recoverOne (wa ba : GoStr → Bool) (key : GoStr) (bnd : RecBinding) : List RecAction :=
  if !(wa bnd.windowID) then
    [.setBinding key bnd.windowID "disconnected".data]
  else if !(ba bnd.windowID) then
    [.deleteBinding key, .deleteOffset key]
  else
    [.createSendChan bnd.windowID] ++
      (if (parseTopicKey key).1 = 0 then []
        else [.startMonitor key bnd.windowID, .setPhase key "bound".data])

/-- Source `recoverBindings`: the concatenated effects of the loop over
all persisted bindings. -/
def recoverBindings (wa ba : GoStr → Bool) (bindings : List (GoStr × RecBinding)) :
    List RecAction :=
  (bindings.map (fun kb => recoverOne wa ba kb.1 kb.2)).flatten

/-- Claim C4, counterexample: a persisted binding whose key parses to
chat id 0 (here the malformed key `x`) with window and backend both
alive gets its per-window serializer created but no monitor started and
no phase change, contradicting the claim's final arm. -/
theorem C4_recover_counterexample :
    recoverBindings (fun _ => true) (fun _ => true)
        [("x".data, ⟨"w1".data, "active".data⟩)] =
      [RecAction.createSendChan "w1".data] ∧
    (parseTopicKey "x".data).1 = 0 := by
  decide

/-- Claim C4, amended: for each persisted binding: dead window — the
binding is kept with status disconnected and nothing else happens; live
window with dead backend — the binding and its offset are deleted;
otherwise the per-window serializer is created, and when the key parses
to a nonzero chat id a monitor is started and the topic phase is set to
bound, whereas a key parsing to chat id 0 is skipped after the
serializer is created. -/
theorem C4_recover_amended :
    ∀ (wa ba : GoStr → Bool) (key : GoStr) (bnd : RecBinding),
      (wa bnd.windowID = false →
        recoverOne wa ba key bnd =
          [RecAction.setBinding key bnd.windowID "disconnected".data]) ∧
      (wa bnd.windowID = true → ba bnd.windowID = false →
        recoverOne wa ba key bnd =
          [RecAction.deleteBinding key, RecAction.deleteOffset key]) ∧
      (wa bnd.windowID = true → ba bnd.windowID = true → (parseTopicKey key).1 ≠ 0 →
        recoverOne wa ba key bnd =
          [RecAction.createSendChan bnd.windowID,
            RecAction.startMonitor key bnd.windowID,
            RecAction.setPhase key "bound".data]) ∧
      (wa bnd.windowID = true → ba bnd.windowID = true → (parseTopicKey key).1 = 0 →
        recoverOne wa ba key bnd = [RecAction.createSendChan bnd.windowID]) := by
  intro wa ba key bnd
  refine ⟨?_, ?_, ?_, ?_⟩
  · intro hw
    rw [recoverOne, if_pos (by rw [hw]; rfl)]
  · intro hw hb
    rw [recoverOne, if_neg (by rw [hw]; exact Bool.false_ne_true),
      if_pos (by rw [hb]; rfl)]
  · intro hw hb hc
    rw [recoverOne, if_neg (by rw [hw]; exact Bool.false_ne_true),
      if_neg (by rw [hb]; exact Bool.false_ne_true), if_neg hc]
    rfl
  · intro hw hb hc
    rw [recoverOne, if_neg (by rw [hw]; exact Bool.false_ne_true),
      if_neg (by rw [hb]; exact Bool.false_ne_true), if_pos hc]
    rfl

/-- Witness for the amended C4 theorem: key `dm:5` with both oracles
alive yields serializer, monitor and phase change. -/
theorem C4_recover_amended_witness :
    recoverOne (fun _ => true) (fun _ => true) "dm:5".data ⟨"w1".data, "active".data⟩ =
      [RecAction.createSendChan "w1".data,
        RecAction.startMonitor "dm:5".data "w1".data,
        RecAction.setPhase "dm:5".data "bound".data] :=
  (C4_recover_amended (fun _ => true) (fun _ => true) "dm:5".data
    ⟨"w1".data, "active".data⟩).2.2.1 rfl rfl (by decide)

/-! ### The gemini logs.json full-diff monitor (monitor/json_diff.go) -/

/-- A decoded `logs.json` entry (fields the diff consults). -/
structure GeminiLogEntry where
  messageID : Int
  type : GoStr
  message : GoStr
deriving DecidableEq, Repr

/-- One iteration of the `readAndDiff` loop: the accumulator is the
running `lastMessageID` and the collected new texts. -/
def geminiStep (acc : Int × List GoStr) (e : GeminiLogEntry) : Int × List GoStr :=
  if acc.1 < e.messageID ∧ e.type = "model".data then
    (e.messageID, if e.message = [] then acc.2 else acc.2 ++ [e.message])
  else acc

/-- The `readAndDiff` collection loop over the reparsed array. -/
def geminiDiffLoop (lid : Int) (entries : List GeminiLogEntry) : Int × List GoStr :=
  entries.foldl geminiStep (lid, [])

/-- Source `readAndDiff` on a successfully reparsed array: the new
`lastMessageID` and the emitted text blocks (one newline-joined block
when any new text was collected, nothing otherwise). -/
def readAndDiff (lid : Int) (entries : List GeminiLogEntry) : Int × List GoStr :=
  let r := geminiDiffLoop lid entries
  (r.1, if r.2 = [] then [] else [List.intercalate "\n".data r.2])

/-- The entries the claim says are kept, and their messages: type model,
id above the incoming count, nonempty message. -/
def geminiKept (lid : Int) (entries : List GeminiLogEntry) : List GoStr :=
  (entries.filter (fun e =>
    decide (lid < e.messageID) && (e.type == "model".data) && !(e.message == []))).map
    (fun e => e.message)

theorem geminiStep_pass {l : Int} {ts : List GoStr} {e : GeminiLogEntry}
    (h : l < e.messageID ∧ e.type = "model".data) :
    geminiStep (l, ts) e =
      (e.messageID, if e.message = [] then ts else ts ++ [e.message]) := by
  rw [geminiStep]
  dsimp only
  rw [if_pos h]

theorem geminiStep_fail {l : Int} {ts : List GoStr} {e : GeminiLogEntry}
    (h : ¬(l < e.messageID ∧ e.type = "model".data)) :
    geminiStep (l, ts) e = (l, ts) := by
  rw [geminiStep]
  dsimp only
  rw [if_neg h]

theorem geminiFold_fst_le (es : List GeminiLogEntry) :
    ∀ acc : Int × List GoStr, acc.1 ≤ (es.foldl geminiStep acc).1 := by
  induction es with
  | nil => exact fun acc => le_refl _
  | cons e tl ih =>
    intro acc
    rw [List.foldl_cons]
    refine le_trans ?_ (ih (geminiStep acc e))
    rw [geminiStep]
    split
    · exact le_of_lt (by assumption : acc.1 < e.messageID ∧ _).1
    · exact le_refl _

theorem geminiFold_acc (es : List GeminiLogEntry) :
    ∀ (l : Int) (ts : List GoStr),
      es.foldl geminiStep (l, ts) =
        ((es.foldl geminiStep (l, [])).1, ts ++ (es.foldl geminiStep (l, [])).2) := by
  induction es with
  | nil =>
    intro l ts
    rw [List.foldl_nil, List.foldl_nil, List.append_nil]
  | cons e tl ih =>
    intro l ts
    rw [List.foldl_cons, List.foldl_cons]
    by_cases hp : l < e.messageID ∧ e.type = "model".data
    · rw [geminiStep_pass hp, geminiStep_pass hp]
      by_cases hm : e.message = []
      · rw [if_pos hm, if_pos hm, ih e.messageID ts, ih e.messageID ([] : List GoStr)]
      · rw [if_neg hm, if_neg hm, ih e.messageID (ts ++ [e.message]),
          ih e.messageID ([] ++ [e.message])]
        rw [List.nil_append, List.append_assoc]
    · rw [geminiStep_fail hp, geminiStep_fail hp, ih l ts]

theorem gLoop_sorted (entries : List GeminiLogEntry) :
    ∀ lid : Int,
      List.Pairwise (fun a b => a.messageID < b.messageID) entries →
      (geminiDiffLoop lid entries).2 = geminiKept lid entries := by
  induction entries with
  | nil => exact fun lid _ => rfl
  | cons e tl ih =>
    intro lid hpw
    rcases List.pairwise_cons.mp hpw with ⟨hlt, hpwtl⟩
    rw [geminiDiffLoop, List.foldl_cons]
    by_cases hp : lid < e.messageID ∧ e.type = "model".data
    · rw [geminiStep_pass hp]
      have hcong : geminiKept e.messageID tl = geminiKept lid tl := by
        rw [geminiKept, geminiKept]
        rw [List.filter_congr]
        intro x hx
        rw [decide_eq_true (hlt x hx), decide_eq_true (lt_trans hp.1 (hlt x hx))]
      have hrhs : geminiKept lid (e :: tl) =
          (if e.message = [] then [] else [e.message]) ++ geminiKept lid tl := by
        rw [geminiKept, geminiKept, List.filter_cons]
        rw [decide_eq_true hp.1, beq_iff_eq.mpr hp.2]
        by_cases hm : e.message = []
        · rw [beq_iff_eq.mpr hm]
          rw [if_neg (by decide : ¬((true && true && !true) = true))]
          rw [if_pos hm, List.nil_append]
        · have hbm : (e.message == ([] : GoStr)) = false := by
            rcases Bool.eq_false_or_eq_true (e.message == []) with h2 | h2
            · exact absurd (beq_iff_eq.mp h2) hm
            · exact h2
          rw [hbm]
          rw [if_pos (by decide : (true && true && !false) = true)]
          rw [if_neg hm, List.map_cons, List.singleton_append]
      rw [hrhs]
      by_cases hm : e.message = []
      · rw [if_pos hm, if_pos hm, geminiFold_acc tl e.messageID ([] : List GoStr)]
        dsimp only
        rw [List.nil_append, List.nil_append]
        rw [show (tl.foldl geminiStep (e.messageID, [])).2 = geminiKept e.messageID tl
          from ih e.messageID hpwtl]
        exact hcong
      · rw [if_neg hm, if_neg hm, List.nil_append,
          geminiFold_acc tl e.messageID [e.message]]
        dsimp only
        rw [show (tl.foldl geminiStep (e.messageID, [])).2 = geminiKept e.messageID tl
          from ih e.messageID hpwtl]
        rw [hcong]
    · rw [geminiStep_fail hp]
      have hrhs : geminiKept lid (e :: tl) = geminiKept lid tl := by
        rw [geminiKept, geminiKept, List.filter_cons]
        have hfalse : (decide (lid < e.messageID) && (e.type == "model".data)
            && !(e.message == [])) = false := by
          rcases not_and_or.mp hp with h | h
          · rw [decide_eq_false h]
            rfl
          · have h2 : (e.type == "model".data) = false := by
              rcases Bool.eq_false_or_eq_true (e.type == "model".data) with h3 | h3
              · exact absurd (beq_iff_eq.mp h3) h
              · exact h3
            rw [h2, Bool.and_false]
            rfl
        rw [hfalse]
        rw [if_neg (by decide : ¬((false : Bool) = true))]
      rw [hrhs]
      exact ih lid hpwtl

theorem gLoop_ub (es : List GeminiLogEntry) :
    ∀ (l : Int) (ts : List GoStr) (x : GeminiLogEntry),
      x ∈ es → l < x.messageID → x.type = "model".data →
      x.messageID ≤ (es.foldl geminiStep (l, ts)).1 := by
  induction es with
  | nil => exact fun l ts x hx => absurd hx (List.not_mem_nil x)
  | cons e tl ih =>
    intro l ts x hx hlt htype
    rw [List.foldl_cons]
    rcases List.mem_cons.mp hx with he | hxtl
    · rw [he]
      rw [geminiStep_pass (he ▸ ⟨hlt, htype⟩)]
      exact geminiFold_fst_le tl _
    · by_cases hcmp : (geminiStep (l, ts) e).1 < x.messageID
      · exact ih (geminiStep (l, ts) e).1 (geminiStep (l, ts) e).2 x hxtl hcmp htype
      · exact le_trans (le_of_not_lt hcmp) (geminiFold_fst_le tl _)

/-- Claim C6, counterexample: two new model entries with messages a and
b produce one combined text block containing a newline, not one block
per kept entry as the claim states. -/
theorem C6_diff_counterexample :
    (readAndDiff 0
        [⟨1, "model".data, "a".data⟩, ⟨2, "model".data, "b".data⟩]).2 =
      ["a\nb".data] ∧
    (["a\nb".data] : List GoStr) ≠ ["a".data, "b".data] := by
  decide

/-- Claim C6, amended: on every reparse of logs.json, when the entries'
messageIds are strictly increasing the monitor keeps exactly the model
entries with messageId strictly greater than the current message_count
and a nonempty message, and emits their messages as a single
newline-joined text block (nothing when no text was kept); the updated
message_count is at least the old one and an upper bound of every new
model entry's messageId. -/
theorem C6_diff_amended :
    ∀ (lid : Int) (entries : List GeminiLogEntry),
      List.Pairwise (fun a b => a.messageID < b.messageID) entries →
      (readAndDiff lid entries).2 =
        (if geminiKept lid entries = [] then []
          else [List.intercalate "\n".data (geminiKept lid entries)]) ∧
      lid ≤ (readAndDiff lid entries).1 ∧
      (∀ x ∈ entries, lid < x.messageID → x.type = "model".data →
        x.messageID ≤ (readAndDiff lid entries).1) := by
  intro lid entries hpw
  refine ⟨?_, ?_, ?_⟩
  · rw [readAndDiff]
    dsimp only
    rw [gLoop_sorted entries lid hpw]
  · exact geminiFold_fst_le entries (lid, [])
  · intro x hx hlt htype
    exact gLoop_ub entries lid [] x hx hlt htype

/-- Witness for the amended C6 theorem: count 0 with entries
(1, model, a), (2, other, x), (3, model, b) emits the single block
a-newline-b. -/
theorem C6_diff_amended_witness :
    (readAndDiff 0
        [⟨1, "model".data, "a".data⟩, ⟨2, "other".data, "x".data⟩,
          ⟨3, "model".data, "b".data⟩]).2 = ["a\nb".data] :=
  (C6_diff_amended 0
    [⟨1, "model".data, "a".data⟩, ⟨2, "other".data, "x".data⟩,
      ⟨3, "model".data, "b".data⟩] (by decide)).1

/-! ### claude tool_result formatting (monitor/tool_format.go and the
claude line parser) -/

/-- Go `%d` formatting of a count. -/
def natToDigits (n : Nat) : GoStr := Nat.toDigits 10 n

/-- Source `countLines`: 0 for the empty string, else newline count plus
one. -/
def countLines (s : GoStr) : Nat := if s = [] then 0 else s.count '\n' + 1

/-- Source `countNonEmpty`: the number of lines with non-whitespace
content. -/
def countNonEmpty (s : GoStr) : Nat :=
  ((s.splitOn '\n').filter (fun l => !(trimSpace l == []))).length

/-- Source `firstLine`: the prefix up to the first newline. -/
def firstLine (s : GoStr) : GoStr := s.takeWhile (fun c => c != '\n')

/-- Source `FormatToolResultStats`. -/
def FormatToolResultStats (text toolName : GoStr) : GoStr :=
  if text = [] then []
  else
    let lines := countLines text
    if toolName = "Read".data then
      "  ⎿  Read ".data ++ natToDigits lines ++ " lines".data
    else if toolName = "Write".data then
      "  ⎿  Wrote ".data ++ natToDigits lines ++ " lines".data
    else if toolName = "Bash".data then
      "  ⎿  Output ".data ++ natToDigits lines ++ " lines".data
    else if toolName = "Grep".data then
      "  ⎿  Found ".data ++ natToDigits (countNonEmpty text) ++ " matches".data
    else if toolName = "Glob".data then
      "  ⎿  Found ".data ++ natToDigits (countNonEmpty text) ++ " files".data
    else if toolName = "Edit".data ∨ toolName = "NotebookEdit".data then
      "  ⎿  Edited".data
    else
      "  ⎿  ".data ++ natToDigits lines ++ " lines".data

/-- One decoded claude content block.  JSON decoding is not modelled:
`resultText` stands for `extractToolResultText(block.Content)` and
`summary` for `FormatToolUseSummary(block.Name, block.Input)`, both
computed from decoded JSON values outside this embedding. -/
structure CBlock where
  type : GoStr
  text : GoStr
  thinking : GoStr
  id : GoStr
  name : GoStr
  toolUseID : GoStr
  resultText : GoStr
  isErr : Bool
  summary : GoStr
deriving DecidableEq, Repr

/-- The body of the `parseClaudeLine` block loop: the pending
tool_use_id to tool-name map, and the contents appended for one block.
Byte-indexed truncation `errLine[:100]` is modelled as taking the runes
that fit in 100 bytes. -/
def claudeStep (pending : List (GoStr × GoStr)) (b : CBlock) :
    List (GoStr × GoStr) × List ParsedContent :=
  if b.type = "thinking".data then
    (pending, if b.thinking = [] then []
      else [⟨ContentType.thinking, b.thinking, [], []⟩])
  else if b.type = "text".data then
    (pending, if b.text = [] then [] else [⟨ContentType.text, b.text, [], []⟩])
  else if b.type = "tool_use".data then
    if b.name = [] then (pending, [])
    else (mapSet pending b.id b.name, [⟨ContentType.toolUse, b.summary, b.id, b.name⟩])
  else if b.type = "tool_result".data then
    if b.isErr then
      let errLine0 := firstLine b.resultText
      let errLine :=
        if 100 < byteLen errLine0 then takeBytes errLine0 100 ++ "…".data else errLine0
      (pending, [⟨ContentType.toolResult, "  ⎿  Error: ".data ++ errLine, b.toolUseID, []⟩])
    else
      let toolName := (mapLookup pending b.toolUseID).getD []
      (mapDel pending b.toolUseID,
        [⟨ContentType.toolResult, FormatToolResultStats b.resultText toolName,
          b.toolUseID, []⟩])
  else (pending, [])

/-- Source `parseClaudeLine` over the decoded content blocks of one
assistant/user line, threading the pending map. -/
def parseClaudeLine (pending : List (GoStr × GoStr)) (blocks : List CBlock) :
    List (GoStr × GoStr) × List ParsedContent :=
  blocks.foldl (fun acc b =>
    let r := claudeStep acc.1 b
    (r.1, acc.2 ++ r.2)) (pending, [])

/-- Claim C7, confirmed: for every claude tool_result block, the error
case emits the error marker plus the first line of the extracted result
(truncated at 100 bytes with an appended ellipsis when longer) and
leaves the pending map alone; the non-error case emits the stats line
for the tool name remembered in the pending map and consumes that
entry; the stats line is the claimed per-tool mapping; and a Bash
result "a\nb\nc" yields "  ⎿  Output 3 lines". -/
theorem C7_stats_confirmed :
    (∀ (pending : List (GoStr × GoStr)) (b : CBlock),
      b.type = "tool_result".data → b.isErr = true →
      claudeStep pending b =
        (pending,
          [⟨ContentType.toolResult,
            "  ⎿  Error: ".data ++
              (if 100 < byteLen (firstLine b.resultText) then
                takeBytes (firstLine b.resultText) 100 ++ "…".data
              else firstLine b.resultText),
            b.toolUseID, []⟩])) ∧
    (∀ (pending : List (GoStr × GoStr)) (b : CBlock),
      b.type = "tool_result".data → b.isErr = false →
      claudeStep pending b =
        (mapDel pending b.toolUseID,
          [⟨ContentType.toolResult,
            FormatToolResultStats b.resultText ((mapLookup pending b.toolUseID).getD []),
            b.toolUseID, []⟩]) ∧
      mapLookup (claudeStep pending b).1 b.toolUseID = none) ∧
    (∀ t : GoStr, t ≠ [] →
      FormatToolResultStats t "Read".data =
        "  ⎿  Read ".data ++ natToDigits (countLines t) ++ " lines".data ∧
      FormatToolResultStats t "Write".data =
        "  ⎿  Wrote ".data ++ natToDigits (countLines t) ++ " lines".data ∧
      FormatToolResultStats t "Bash".data =
        "  ⎿  Output ".data ++ natToDigits (countLines t) ++ " lines".data ∧
      FormatToolResultStats t "Grep".data =
        "  ⎿  Found ".data ++ natToDigits (countNonEmpty t) ++ " matches".data ∧
      FormatToolResultStats t "Glob".data =
        "  ⎿  Found ".data ++ natToDigits (countNonEmpty t) ++ " files".data ∧
      FormatToolResultStats t "Edit".data = "  ⎿  Edited".data ∧
      FormatToolResultStats t "NotebookEdit".data = "  ⎿  Edited".data) ∧
    (∀ (t name : GoStr), t ≠ [] →
      name ≠ "Read".data → name ≠ "Write".data → name ≠ "Bash".data →
      name ≠ "Grep".data → name ≠ "Glob".data → name ≠ "Edit".data →
      name ≠ "NotebookEdit".data →
      FormatToolResultStats t name =
        "  ⎿  ".data ++ natToDigits (countLines t) ++ " lines".data) ∧
    (claudeStep [("u1".data, "Bash".data)]
        ⟨"tool_result".data, [], [], [], [], "u1".data, "a\nb\nc".data, false, []⟩).2 =
      [⟨ContentType.toolResult, "  ⎿  Output 3 lines".data, "u1".data, []⟩] := by
  refine ⟨?_, ?_, ?_, ?_, by decide⟩
  · intro pending b htype herr
    rw [claudeStep, htype]
    rw [if_neg (by decide), if_neg (by decide), if_neg (by decide), if_pos rfl, if_pos herr]
  · intro pending b htype herr
    have h : claudeStep pending b =
        (mapDel pending b.toolUseID,
          [⟨ContentType.toolResult,
            FormatToolResultStats b.resultText ((mapLookup pending b.toolUseID).getD []),
            b.toolUseID, []⟩]) := by
      rw [claudeStep, htype]
      rw [if_neg (by decide), if_neg (by decide), if_neg (by decide), if_pos rfl,
        if_neg (by rw [herr]; exact Bool.false_ne_true)]
    exact ⟨h, by rw [h]; exact mapLookup_mapDel_self pending b.toolUseID⟩
  · intro t ht
    refine ⟨?_, ?_, ?_, ?_, ?_, ?_, ?_⟩
    · rw [FormatToolResultStats, if_neg ht, if_pos rfl]
    · rw [FormatToolResultStats, if_neg ht, if_neg (by decide), if_pos rfl]
    · rw [FormatToolResultStats, if_neg ht, if_neg (by decide), if_neg (by decide),
        if_pos rfl]
    · rw [FormatToolResultStats, if_neg ht, if_neg (by decide), if_neg (by decide),
        if_neg (by decide), if_pos rfl]
    · rw [FormatToolResultStats, if_neg ht, if_neg (by decide), if_neg (by decide),
        if_neg (by decide), if_neg (by decide), if_pos rfl]
    · rw [FormatToolResultStats, if_neg ht, if_neg (by decide), if_neg (by decide),
        if_neg (by decide), if_neg (by decide), if_neg (by decide),
        if_pos (Or.inl rfl)]
    · rw [FormatToolResultStats, if_neg ht, if_neg (by decide), if_neg (by decide),
        if_neg (by decide), if_neg (by decide), if_neg (by decide),
        if_pos (Or.inr rfl)]
  · intro t name ht h1 h2 h3 h4 h5 h6 h7
    rw [FormatToolResultStats, if_neg ht, if_neg h1, if_neg h2, if_neg h3, if_neg h4,
      if_neg h5, if_neg (by rintro (h | h); exact h6 h; exact h7 h)]

/-- Witness for the C7 theorem: the Bash mapping and the pending-map
consumption at concrete inputs. -/
theorem C7_stats_confirmed_witness :
    FormatToolResultStats "a\nb\nc".data "Bash".data = "  ⎿  Output 3 lines".data ∧
    mapLookup (claudeStep [("u1".data, "Bash".data)]
      ⟨"tool_result".data, [], [], [], [], "u1".data, "a\nb\nc".data, false, []⟩).1
      "u1".data = none :=
  ⟨((C7_stats_confirmed.2.2.1 "a\nb\nc".data (by decide)).2.2.1).trans (by decide),
    (C7_stats_confirmed.2.1 [("u1".data, "Bash".data)]
      ⟨"tool_result".data, [], [], [], [], "u1".data, "a\nb\nc".data, false, []⟩
      rfl rfl).2⟩

/-! ### The state store's directory bookmarks (state/store.go) -/

/-- A persisted monitor offset. -/
structure OffsetRec where
  file : GoStr
  byteOffset : Int
  messageCount : Int
deriving DecidableEq, Repr

/-- The store's persisted data plus its `recentMax` configuration. -/
structure StoreSt where
  bindings : List (GoStr × RecBinding)
  offsets : List (GoStr × OffsetRec)
  favorites : List GoStr
  recent : List GoStr
  recentMax : Nat
deriving DecidableEq, Repr

/-- Source `Store.AddFavorite`: no-op when present, else append. -/
def AddFavorite (st : StoreSt) (path : GoStr) : StoreSt :=
  if path ∈ st.favorites then st
  else { st with favorites := st.favorites ++ [path] }

/-- Source `Store.RemoveFavorite`: keep the non-matching entries. -/
def RemoveFavorite (st : StoreSt) (path : GoStr) : StoreSt :=
  { st with favorites := st.favorites.filter (fun f => !(f == path)) }

/-- Source `Store.AddRecent`: drop existing occurrences, push to the
front, truncate to `recentMax`. -/
def AddRecent (st : StoreSt) (path : GoStr) : StoreSt :=
  let filtered := st.recent.filter (fun r => !(r == path))
  let rec2 := path :: filtered
  { st with recent := if st.recentMax < rec2.length then rec2.take st.recentMax else rec2 }

theorem addRecent_recent (st : StoreSt) (path : GoStr) :
    (AddRecent st path).recent =
      (if st.recentMax < (path :: st.recent.filter (fun r => !(r == path))).length then
        (path :: st.recent.filter (fun r => !(r == path))).take st.recentMax
      else path :: st.recent.filter (fun r => !(r == path))) := rfl

theorem path_not_mem_filtered (l : List GoStr) (path : GoStr) :
    path ∉ l.filter (fun r => !(r == path)) := by
  intro h
  have h2 := (List.mem_filter.mp h).2
  simp at h2

theorem nodup_path_cons_filtered {l : List GoStr} (path : GoStr) (h : l.Nodup) :
    (path :: l.filter (fun r => !(r == path))).Nodup :=
  List.nodup_cons.mpr ⟨path_not_mem_filtered l path, h.filter _⟩

/-- Claim C10, confirmed: AddFavorite, RemoveFavorite and AddRecent
leave the bindings and offsets maps (and each other's dirs component)
unchanged; AddFavorite and RemoveFavorite preserve duplicate-freeness
of favorites (RemoveFavorite removes every occurrence of the path);
AddRecent keeps recent duplicate-free, most-recent-first (new path at
the head, remaining entries a subsequence of the old list), and capped
at recentMax. -/
theorem C10_store_confirmed :
    ∀ (st : StoreSt) (path : GoStr),
      ((AddFavorite st path).bindings = st.bindings ∧
        (AddFavorite st path).offsets = st.offsets ∧
        (AddFavorite st path).recent = st.recent ∧
        (AddFavorite st path).recentMax = st.recentMax) ∧
      ((RemoveFavorite st path).bindings = st.bindings ∧
        (RemoveFavorite st path).offsets = st.offsets ∧
        (RemoveFavorite st path).recent = st.recent ∧
        (RemoveFavorite st path).recentMax = st.recentMax) ∧
      ((AddRecent st path).bindings = st.bindings ∧
        (AddRecent st path).offsets = st.offsets ∧
        (AddRecent st path).favorites = st.favorites ∧
        (AddRecent st path).recentMax = st.recentMax) ∧
      (st.favorites.Nodup → (AddFavorite st path).favorites.Nodup) ∧
      ((RemoveFavorite st path).favorites.Sublist st.favorites ∧
        (st.favorites.Nodup → (RemoveFavorite st path).favorites.Nodup) ∧
        path ∉ (RemoveFavorite st path).favorites) ∧
      (st.recent.Nodup → (AddRecent st path).recent.Nodup) ∧
      (AddRecent st path).recent.length ≤ st.recentMax ∧
      (0 < st.recentMax → (AddRecent st path).recent.head? = some path) ∧
      (AddRecent st path).recent.tail.Sublist st.recent := by
  intro st path
  refine ⟨?_, ⟨rfl, rfl, rfl, rfl⟩, ?_, ?_, ?_, ?_, ?_, ?_, ?_⟩
  · rw [AddFavorite]
    split <;> exact ⟨rfl, rfl, rfl, rfl⟩
  · exact ⟨rfl, rfl, rfl, rfl⟩
  · intro h
    rw [AddFavorite]
    split
    · exact h
    · rename_i hmem
      rw [List.nodup_append]
      exact ⟨h, List.nodup_singleton path,
        fun a ha hb => hmem ((List.mem_singleton.mp hb) ▸ ha)⟩
  · exact ⟨List.filter_sublist _, fun h => h.filter _,
      path_not_mem_filtered st.favorites path⟩
  · intro h
    rw [addRecent_recent]
    split
    · exact (List.take_sublist _ _).nodup (nodup_path_cons_filtered path h)
    · exact nodup_path_cons_filtered path h
  · rw [addRecent_recent]
    split
    · rw [List.length_take]
      exact min_le_left _ _
    · rename_i hlen
      exact le_of_not_lt hlen
  · intro hmax
    rw [addRecent_recent]
    split
    · obtain ⟨m, hm⟩ := Nat.exists_eq_succ_of_ne_zero (Nat.pos_iff_ne_zero.mp hmax)
      rw [hm, List.take_succ_cons]
      rfl
    · rfl
  · rw [addRecent_recent]
    split
    · cases hm : st.recentMax with
      | zero =>
        rw [List.take_zero]
        exact List.nil_sublist _
      | succ m =>
        rw [List.take_succ_cons, List.tail_cons]
        exact ((List.take_sublist _ _).trans (List.filter_sublist _))
    · rw [List.tail_cons]
      exact List.filter_sublist _

/-- Witness for the C10 theorem: on a concrete store with capacity 2,
AddRecent puts the new path first and AddFavorite does not touch the
bindings map. -/
theorem C10_store_confirmed_witness :
    (AddRecent ⟨[], [], ["f".data], ["a".data], 2⟩ "b".data).recent.head?
      = some "b".data ∧
    (AddFavorite ⟨[], [], ["f".data], ["a".data], 2⟩ "b".data).bindings = [] :=
  ⟨(C10_store_confirmed ⟨[], [], ["f".data], ["a".data], 2⟩ "b".data).2.2.2.2.2.2.2.1
      (by decide),
    (C10_store_confirmed ⟨[], [], ["f".data], ["a".data], 2⟩ "b".data).1.1⟩

/-! ### Idempotence of the redaction pipeline -/

/-- No suffix of `s` matches `m`: `ReplaceAll` with `m` leaves `s`
alone, and scanning never fires inside `s`. -/
def CleanM (m : GoStr → Option Nat) (s : GoStr) : Prop :=
  ∀ t : GoStr, t <:+ s → m t = none

theorem cleanM_mono {m : GoStr → Option Nat} {s t : GoStr}
    (h : CleanM m s) (hst : t <:+ s) : CleanM m t :=
  fun u hu => h u (hu.trans hst)

theorem cleanM_cons {m : GoStr → Option Nat} {c : Char} {s : GoStr}
    (h : CleanM m (c :: s)) : CleanM m s :=
  cleanM_mono h ⟨[c], rfl⟩

theorem replaceAllM_of_cleanM {m : GoStr → Option Nat} :
    ∀ {s : GoStr}, CleanM m s → replaceAllM m s = s := by
  intro s
  induction s with
  | nil => intro _; rw [replaceAllM]
  | cons c cs ih =>
    intro h
    rw [replaceAllM]
    rw [h (c :: cs) (List.suffix_refl _)]
    rw [ih (cleanM_cons h)]

/-- Decompose a suffix of `a ++ z`: either it is a suffix of `z`, or it
is a nonempty suffix of `a` followed by all of `z`. -/
theorem suffix_append_cases {t a z : GoStr} (h : t <:+ a ++ z) :
    t <:+ z ∨ ∃ a', a' <:+ a ∧ a' ≠ [] ∧ t = a' ++ z := by
  obtain ⟨pre, hpre⟩ := h
  by_cases hlen : t.length ≤ z.length
  · left
    have h2 : z.drop (z.length - t.length) = t := by
      have h3 := congrArg (List.drop (pre.length)) hpre
      rw [List.drop_left] at h3
      have h4 : pre.length = a.length + z.length - t.length := by
        have h5 := congrArg List.length hpre
        simp only [List.length_append] at h5
        omega
      rw [h4] at h3
      rw [List.drop_append_eq_append_drop] at h3
      rw [List.drop_eq_nil_of_le (by omega), List.nil_append] at h3
      rw [show a.length + z.length - t.length - a.length = z.length - t.length
        from by omega] at h3
      exact h3.symm
    rw [← h2]
    exact List.drop_suffix _ _
  · right
    refine ⟨a.drop pre.length, ⟨a.take pre.length, List.take_append_drop _ _⟩, ?_, ?_⟩
    · intro hnil
      have h2 := congrArg List.length hnil
      have h3 := congrArg List.length hpre
      simp only [List.length_drop, List.length_append, List.length_nil] at h2 h3
      omega
    · have h4 : pre.length ≤ a.length := by
        have h5 := congrArg List.length hpre
        simp only [List.length_append] at h5
        omega
      have h3 := congrArg (List.drop pre.length) hpre
      rw [List.drop_left] at h3
      rw [List.drop_append_eq_append_drop,
        show pre.length - a.length = 0 from by omega, List.drop_zero] at h3
      exact h3

/-- The output of `ReplaceAll` is either the input (no match anywhere)
or a literal prefix of the input, the replacement text, and a remainder,
where the rest of the input at the split point matched. -/
theorem replaceAllM_decomp (m : GoStr → Option Nat) :
    ∀ x : GoStr,
      replaceAllM m x = x ∨
      ∃ d n w, m (x.drop d) = some n ∧ x.drop d ≠ [] ∧
        replaceAllM m x = x.take d ++ redactedStr ++ w := by
  intro x
  induction x with
  | nil => exact Or.inl (by rw [replaceAllM])
  | cons c cs ih =>
    rw [replaceAllM]
    cases hm : m (c :: cs) with
    | some n =>
      exact Or.inr ⟨0, n, replaceAllM m (cs.drop (n - 1)),
        by rw [List.drop_zero]; exact hm, by rw [List.drop_zero]; exact List.cons_ne_nil c cs,
        by rw [List.take_zero, List.nil_append]⟩
    | none =>
      rcases ih with h | ⟨d, n, w, hmd, hne, hout⟩
      · exact Or.inl (by rw [h])
      · exact Or.inr ⟨d + 1, n, w, by rw [List.drop_succ_cons]; exact hmd,
          by rw [List.drop_succ_cons]; exact hne,
          by rw [hout, List.take_succ_cons, List.cons_append, List.cons_append]⟩

/-- Splitting a run over an append. -/
theorem runLen_append (p : Char → Bool) :
    ∀ a b : GoStr,
      runLen p (a ++ b) = if a.all p then a.length + runLen p b else runLen p a := by
  intro a
  induction a with
  | nil =>
    intro b
    rw [List.nil_append, List.all_nil, if_pos rfl, List.length_nil, Nat.zero_add]
  | cons c a' ih =>
    intro b
    rw [List.cons_append, runLen, runLen, List.all_cons, ih b]
    cases hp : p c with
    | false =>
      simp only [hp, Bool.false_and, Bool.false_eq_true, if_false]
    | true =>
      simp only [hp, Bool.true_and, if_true, List.length_cons]
      by_cases ha : a'.all p = true
      · rw [if_pos ha, if_pos ha]
        omega
      · rw [if_neg ha, if_neg ha]

/-- A run stopped by a non-class character never exceeds the run over
any other continuation. -/
theorem runLen_blocked_le {p : Char → Bool} {c : Char} (hc : p c = false)
    (a w rest : GoStr) :
    runLen p (a ++ c :: w) ≤ runLen p (a ++ rest) := by
  rw [runLen_append, runLen_append]
  by_cases ha : a.all p = true
  · rw [if_pos ha, if_pos ha]
    rw [runLen, hc]
    rw [if_neg (Bool.false_ne_true)]
    omega
  · rw [if_neg ha, if_neg ha]

theorem skHead {c : Char} {t : GoStr} (hc : c ≠ 's') : matchSk (c :: t) = none := by
  have hd : dropLit "sk-".data (c :: t) = none := by
    rw [dropLit, if_neg]
    rw [show "sk-".data = 's' :: "k-".data from rfl]
    simp only [List.isPrefixOf]
    rw [beq_eq_false_iff_ne.mpr (Ne.symm hc), Bool.false_and]
    exact Bool.false_ne_true
  rw [matchSk, hd]

theorem keyHead {c : Char} {t : GoStr} (hc : c ≠ 'k') : matchKey (c :: t) = none := by
  have hd : dropLit "key-".data (c :: t) = none := by
    rw [dropLit, if_neg]
    rw [show "key-".data = 'k' :: "ey-".data from rfl]
    simp only [List.isPrefixOf]
    rw [beq_eq_false_iff_ne.mpr (Ne.symm hc), Bool.false_and]
    exact Bool.false_ne_true
  rw [matchKey, hd]

theorem bearerHead {c : Char} {t : GoStr} (hc : c ≠ 'B') : matchBearer (c :: t) = none := by
  have hd : dropLit "Bearer ".data (c :: t) = none := by
    rw [dropLit, if_neg]
    rw [show "Bearer ".data = 'B' :: "earer ".data from rfl]
    simp only [List.isPrefixOf]
    rw [beq_eq_false_iff_ne.mpr (Ne.symm hc), Bool.false_and]
    exact Bool.false_ne_true
  rw [matchBearer, hd]

theorem privHead {c : Char} {t : GoStr} (hc : c ≠ '-') : matchPrivKey (c :: t) = none := by
  have hd : dropLit "-----BEGIN ".data (c :: t) = none := by
    rw [dropLit, if_neg]
    rw [show "-----BEGIN ".data = '-' :: "----BEGIN ".data from rfl]
    simp only [List.isPrefixOf]
    rw [beq_eq_false_iff_ne.mpr (Ne.symm hc), Bool.false_and]
    exact Bool.false_ne_true
  rw [matchPrivKey, hd]

theorem akiaHead {c : Char} {t : GoStr} (hc : c ≠ 'A') : matchAkia (c :: t) = none := by
  have hd : dropLit "AKIA".data (c :: t) = none := by
    rw [dropLit, if_neg]
    rw [show "AKIA".data = 'A' :: "KIA".data from rfl]
    simp only [List.isPrefixOf]
    rw [beq_eq_false_iff_ne.mpr (Ne.symm hc), Bool.false_and]
    exact Bool.false_ne_true
  rw [matchAkia, hd]

theorem akiaHead2 {c : Char} {t : GoStr} (hc : c ≠ 'K') :
    matchAkia ('A' :: c :: t) = none := by
  have hd : dropLit "AKIA".data ('A' :: c :: t) = none := by
    rw [dropLit, if_neg]
    rw [show "AKIA".data = 'A' :: 'K' :: "IA".data from rfl]
    simp only [List.isPrefixOf]
    rw [beq_eq_false_iff_ne.mpr (Ne.symm hc), Bool.false_and, Bool.and_false]
    exact Bool.false_ne_true
  rw [matchAkia, hd]

theorem tokenHead {c : Char} {t : GoStr} (hc : asciiLower c ≠ 't') :
    matchToken (c :: t) = none := by
  have hd : dropLitCI "token".data (c :: t) = none := by
    rw [show "token".data = 't' :: "oken".data from rfl, dropLitCI,
      if_neg (by rw [beq_eq_false_iff_ne.mpr hc]; exact Bool.false_ne_true)]
  rw [matchToken, hd]

theorem tokenHead2 {c : Char} {t : GoStr} (hc : asciiLower c ≠ 'o') :
    matchToken ('T' :: c :: t) = none := by
  have hd : dropLitCI "token".data ('T' :: c :: t) = none := by
    rw [show "token".data = 't' :: 'o' :: "ken".data from rfl, dropLitCI,
      if_pos (by decide), dropLitCI,
      if_neg (by rw [beq_eq_false_iff_ne.mpr hc]; exact Bool.false_ne_true)]
  rw [matchToken, hd]

theorem passwordHead {c : Char} {t : GoStr} (hc : asciiLower c ≠ 'p') :
    matchPassword (c :: t) = none := by
  have hd : dropLitCI "password".data (c :: t) = none := by
    rw [show "password".data = 'p' :: "assword".data from rfl, dropLitCI,
      if_neg (by rw [beq_eq_false_iff_ne.mpr hc]; exact Bool.false_ne_true)]
  rw [matchPassword, hd]


theorem rfail_sk : ∀ i w, i < 10 → matchSk (redactedStr.drop i ++ w) = none := by
  intro i w hi
  interval_cases i
  · rw [show redactedStr.drop 0 ++ w = '[' :: ("REDACTED]".data ++ w) from rfl]
    exact skHead (by decide)
  · rw [show redactedStr.drop 1 ++ w = 'R' :: ("EDACTED]".data ++ w) from rfl]
    exact skHead (by decide)
  · rw [show redactedStr.drop 2 ++ w = 'E' :: ("DACTED]".data ++ w) from rfl]
    exact skHead (by decide)
  · rw [show redactedStr.drop 3 ++ w = 'D' :: ("ACTED]".data ++ w) from rfl]
    exact skHead (by decide)
  · rw [show redactedStr.drop 4 ++ w = 'A' :: ("CTED]".data ++ w) from rfl]
    exact skHead (by decide)
  · rw [show redactedStr.drop 5 ++ w = 'C' :: ("TED]".data ++ w) from rfl]
    exact skHead (by decide)
  · rw [show redactedStr.drop 6 ++ w = 'T' :: ("ED]".data ++ w) from rfl]
    exact skHead (by decide)
  · rw [show redactedStr.drop 7 ++ w = 'E' :: ("D]".data ++ w) from rfl]
    exact skHead (by decide)
  · rw [show redactedStr.drop 8 ++ w = 'D' :: ("]".data ++ w) from rfl]
    exact skHead (by decide)
  · rw [show redactedStr.drop 9 ++ w = ']' :: ("".data ++ w) from rfl]
    exact skHead (by decide)

theorem rfail_key : ∀ i w, i < 10 → matchKey (redactedStr.drop i ++ w) = none := by
  intro i w hi
  interval_cases i
  · rw [show redactedStr.drop 0 ++ w = '[' :: ("REDACTED]".data ++ w) from rfl]
    exact keyHead (by decide)
  · rw [show redactedStr.drop 1 ++ w = 'R' :: ("EDACTED]".data ++ w) from rfl]
    exact keyHead (by decide)
  · rw [show redactedStr.drop 2 ++ w = 'E' :: ("DACTED]".data ++ w) from rfl]
    exact keyHead (by decide)
  · rw [show redactedStr.drop 3 ++ w = 'D' :: ("ACTED]".data ++ w) from rfl]
    exact keyHead (by decide)
  · rw [show redactedStr.drop 4 ++ w = 'A' :: ("CTED]".data ++ w) from rfl]
    exact keyHead (by decide)
  · rw [show redactedStr.drop 5 ++ w = 'C' :: ("TED]".data ++ w) from rfl]
    exact keyHead (by decide)
  · rw [show redactedStr.drop 6 ++ w = 'T' :: ("ED]".data ++ w) from rfl]
    exact keyHead (by decide)
  · rw [show redactedStr.drop 7 ++ w = 'E' :: ("D]".data ++ w) from rfl]
    exact keyHead (by decide)
  · rw [show redactedStr.drop 8 ++ w = 'D' :: ("]".data ++ w) from rfl]
    exact keyHead (by decide)
  · rw [show redactedStr.drop 9 ++ w = ']' :: ("".data ++ w) from rfl]
    exact keyHead (by decide)

theorem rfail_bearer : ∀ i w, i < 10 → matchBearer (redactedStr.drop i ++ w) = none := by
  intro i w hi
  interval_cases i
  · rw [show redactedStr.drop 0 ++ w = '[' :: ("REDACTED]".data ++ w) from rfl]
    exact bearerHead (by decide)
  · rw [show redactedStr.drop 1 ++ w = 'R' :: ("EDACTED]".data ++ w) from rfl]
    exact bearerHead (by decide)
  · rw [show redactedStr.drop 2 ++ w = 'E' :: ("DACTED]".data ++ w) from rfl]
    exact bearerHead (by decide)
  · rw [show redactedStr.drop 3 ++ w = 'D' :: ("ACTED]".data ++ w) from rfl]
    exact bearerHead (by decide)
  · rw [show redactedStr.drop 4 ++ w = 'A' :: ("CTED]".data ++ w) from rfl]
    exact bearerHead (by decide)
  · rw [show redactedStr.drop 5 ++ w = 'C' :: ("TED]".data ++ w) from rfl]
    exact bearerHead (by decide)
  · rw [show redactedStr.drop 6 ++ w = 'T' :: ("ED]".data ++ w) from rfl]
    exact bearerHead (by decide)
  · rw [show redactedStr.drop 7 ++ w = 'E' :: ("D]".data ++ w) from rfl]
    exact bearerHead (by decide)
  · rw [show redactedStr.drop 8 ++ w = 'D' :: ("]".data ++ w) from rfl]
    exact bearerHead (by decide)
  · rw [show redactedStr.drop 9 ++ w = ']' :: ("".data ++ w) from rfl]
    exact bearerHead (by decide)

theorem rfail_token : ∀ i w, i < 10 → matchToken (redactedStr.drop i ++ w) = none := by
  intro i w hi
  interval_cases i
  · rw [show redactedStr.drop 0 ++ w = '[' :: ("REDACTED]".data ++ w) from rfl]
    exact tokenHead (by decide)
  · rw [show redactedStr.drop 1 ++ w = 'R' :: ("EDACTED]".data ++ w) from rfl]
    exact tokenHead (by decide)
  · rw [show redactedStr.drop 2 ++ w = 'E' :: ("DACTED]".data ++ w) from rfl]
    exact tokenHead (by decide)
  · rw [show redactedStr.drop 3 ++ w = 'D' :: ("ACTED]".data ++ w) from rfl]
    exact tokenHead (by decide)
  · rw [show redactedStr.drop 4 ++ w = 'A' :: ("CTED]".data ++ w) from rfl]
    exact tokenHead (by decide)
  · rw [show redactedStr.drop 5 ++ w = 'C' :: ("TED]".data ++ w) from rfl]
    exact tokenHead (by decide)
  · rw [show redactedStr.drop 6 ++ w = 'T' :: 'E' :: ("D]".data ++ w) from rfl]
    exact tokenHead2 (by decide)
  · rw [show redactedStr.drop 7 ++ w = 'E' :: ("D]".data ++ w) from rfl]
    exact tokenHead (by decide)
  · rw [show redactedStr.drop 8 ++ w = 'D' :: ("]".data ++ w) from rfl]
    exact tokenHead (by decide)
  · rw [show redactedStr.drop 9 ++ w = ']' :: ("".data ++ w) from rfl]
    exact tokenHead (by decide)

theorem rfail_password : ∀ i w, i < 10 → matchPassword (redactedStr.drop i ++ w) = none := by
  intro i w hi
  interval_cases i
  · rw [show redactedStr.drop 0 ++ w = '[' :: ("REDACTED]".data ++ w) from rfl]
    exact passwordHead (by decide)
  · rw [show redactedStr.drop 1 ++ w = 'R' :: ("EDACTED]".data ++ w) from rfl]
    exact passwordHead (by decide)
  · rw [show redactedStr.drop 2 ++ w = 'E' :: ("DACTED]".data ++ w) from rfl]
    exact passwordHead (by decide)
  · rw [show redactedStr.drop 3 ++ w = 'D' :: ("ACTED]".data ++ w) from rfl]
    exact passwordHead (by decide)
  · rw [show redactedStr.drop 4 ++ w = 'A' :: ("CTED]".data ++ w) from rfl]
    exact passwordHead (by decide)
  · rw [show redactedStr.drop 5 ++ w = 'C' :: ("TED]".data ++ w) from rfl]
    exact passwordHead (by decide)
  · rw [show redactedStr.drop 6 ++ w = 'T' :: ("ED]".data ++ w) from rfl]
    exact passwordHead (by decide)
  · rw [show redactedStr.drop 7 ++ w = 'E' :: ("D]".data ++ w) from rfl]
    exact passwordHead (by decide)
  · rw [show redactedStr.drop 8 ++ w = 'D' :: ("]".data ++ w) from rfl]
    exact passwordHead (by decide)
  · rw [show redactedStr.drop 9 ++ w = ']' :: ("".data ++ w) from rfl]
    exact passwordHead (by decide)

theorem rfail_akia : ∀ i w, i < 10 → matchAkia (redactedStr.drop i ++ w) = none := by
  intro i w hi
  interval_cases i
  · rw [show redactedStr.drop 0 ++ w = '[' :: ("REDACTED]".data ++ w) from rfl]
    exact akiaHead (by decide)
  · rw [show redactedStr.drop 1 ++ w = 'R' :: ("EDACTED]".data ++ w) from rfl]
    exact akiaHead (by decide)
  · rw [show redactedStr.drop 2 ++ w = 'E' :: ("DACTED]".data ++ w) from rfl]
    exact akiaHead (by decide)
  · rw [show redactedStr.drop 3 ++ w = 'D' :: ("ACTED]".data ++ w) from rfl]
    exact akiaHead (by decide)
  · rw [show redactedStr.drop 4 ++ w = 'A' :: 'C' :: ("TED]".data ++ w) from rfl]
    exact akiaHead2 (by decide)
  · rw [show redactedStr.drop 5 ++ w = 'C' :: ("TED]".data ++ w) from rfl]
    exact akiaHead (by decide)
  · rw [show redactedStr.drop 6 ++ w = 'T' :: ("ED]".data ++ w) from rfl]
    exact akiaHead (by decide)
  · rw [show redactedStr.drop 7 ++ w = 'E' :: ("D]".data ++ w) from rfl]
    exact akiaHead (by decide)
  · rw [show redactedStr.drop 8 ++ w = 'D' :: ("]".data ++ w) from rfl]
    exact akiaHead (by decide)
  · rw [show redactedStr.drop 9 ++ w = ']' :: ("".data ++ w) from rfl]
    exact akiaHead (by decide)

theorem rfail_priv : ∀ i w, i < 10 → matchPrivKey (redactedStr.drop i ++ w) = none := by
  intro i w hi
  interval_cases i
  · rw [show redactedStr.drop 0 ++ w = '[' :: ("REDACTED]".data ++ w) from rfl]
    exact privHead (by decide)
  · rw [show redactedStr.drop 1 ++ w = 'R' :: ("EDACTED]".data ++ w) from rfl]
    exact privHead (by decide)
  · rw [show redactedStr.drop 2 ++ w = 'E' :: ("DACTED]".data ++ w) from rfl]
    exact privHead (by decide)
  · rw [show redactedStr.drop 3 ++ w = 'D' :: ("ACTED]".data ++ w) from rfl]
    exact privHead (by decide)
  · rw [show redactedStr.drop 4 ++ w = 'A' :: ("CTED]".data ++ w) from rfl]
    exact privHead (by decide)
  · rw [show redactedStr.drop 5 ++ w = 'C' :: ("TED]".data ++ w) from rfl]
    exact privHead (by decide)
  · rw [show redactedStr.drop 6 ++ w = 'T' :: ("ED]".data ++ w) from rfl]
    exact privHead (by decide)
  · rw [show redactedStr.drop 7 ++ w = 'E' :: ("D]".data ++ w) from rfl]
    exact privHead (by decide)
  · rw [show redactedStr.drop 8 ++ w = 'D' :: ("]".data ++ w) from rfl]
    exact privHead (by decide)
  · rw [show redactedStr.drop 9 ++ w = ']' :: ("".data ++ w) from rfl]
    exact privHead (by decide)

theorem runLen_le_length (p : Char → Bool) : ∀ l : GoStr, runLen p l ≤ l.length := by
  intro l
  induction l with
  | nil => exact le_refl _
  | cons c t ih =>
    rw [runLen, List.length_cons]
    split
    · omega
    · omega

theorem runLen_lt_of_not_all {p : Char → Bool} :
    ∀ {l : GoStr}, l.all p = false → runLen p l < l.length := by
  intro l
  induction l with
  | nil =>
    intro h
    rw [List.all_nil] at h
    exact Bool.noConfusion h
  | cons c t ih =>
    intro h
    rw [List.all_cons] at h
    rw [runLen, List.length_cons]
    cases hc : p c with
    | false =>
      rw [if_neg Bool.false_ne_true]
      omega
    | true =>
      rw [if_pos rfl]
      rw [hc, Bool.true_and] at h
      have := ih h
      omega

theorem drop_runLen_blocker {p : Char → Bool} :
    ∀ {l : GoStr}, runLen p l < l.length →
      ∃ q t2, l.drop (runLen p l) = q :: t2 ∧ p q = false := by
  intro l
  induction l with
  | nil => intro h; exact absurd h (by rw [runLen]; exact lt_irrefl 0)
  | cons c t ih =>
    intro h
    rw [runLen] at h ⊢
    cases hc : p c with
    | false =>
      rw [hc] at h
      rw [if_neg Bool.false_ne_true] at h ⊢
      exact ⟨c, t, List.drop_zero _, hc⟩
    | true =>
      rw [hc] at h
      rw [if_pos rfl] at h ⊢
      rw [List.length_cons] at h
      obtain ⟨q, t2, hd, hq⟩ := ih (by omega)
      exact ⟨q, t2, by rw [List.drop_succ_cons]; exact hd, hq⟩

theorem runLen_pos_head {p : Char → Bool} :
    ∀ {l : GoStr}, 0 < runLen p l → ∃ c t, l = c :: t ∧ p c = true := by
  intro l
  cases l with
  | nil => intro h; exact absurd h (by rw [runLen]; exact lt_irrefl 0)
  | cons c t =>
    intro h
    refine ⟨c, t, rfl, ?_⟩
    by_contra hc
    rw [runLen, if_neg hc] at h
    exact lt_irrefl 0 h

theorem runLen_ge_of {p : Char → Bool} :
    ∀ (n : Nat) (l : GoStr), (l.take n).all p = true → n ≤ l.length → n ≤ runLen p l := by
  intro n
  induction n with
  | zero => intro l _ _; exact Nat.zero_le _
  | succ n ih =>
    intro l hall hlen
    cases l with
    | nil => rw [List.length_nil] at hlen; omega
    | cons c t =>
      rw [List.take_succ_cons, List.all_cons, Bool.and_eq_true] at hall
      rw [runLen, if_pos hall.1]
      rw [List.length_cons] at hlen
      have := ih t hall.2 (by omega)
      omega

theorem prefix_within {lit u z : GoStr} (h : lit.isPrefixOf (u ++ z) = true)
    (hlen : lit.length ≤ u.length) : lit.isPrefixOf u = true := by
  rw [List.isPrefixOf_iff_prefix] at h ⊢
  have h2 : lit = (u ++ z).take lit.length := List.prefix_iff_eq_take.mp h
  rw [List.take_append_eq_append_take,
    show lit.length - u.length = 0 from by omega, List.take_zero, List.append_nil] at h2
  have h3 : u.take lit.length <+: u := List.take_prefix _ _
  rw [← h2] at h3
  exact h3

theorem prefix_cross {lit u w : GoStr} {c : Char}
    (h : lit.isPrefixOf (u ++ c :: w) = true) (hc : c ∉ lit) : lit.length ≤ u.length := by
  by_contra hlen
  rw [List.isPrefixOf_iff_prefix, List.prefix_iff_eq_take] at h
  rw [List.take_append_eq_append_take] at h
  have h2 : lit.length - u.length = (lit.length - u.length - 1) + 1 := by omega
  rw [h2, List.take_succ_cons] at h
  exact hc (h ▸ List.mem_append_right _ (List.mem_cons_self _ _))

theorem prefix_extend {lit u : GoStr} (h : lit.isPrefixOf u = true) (z : GoStr) :
    lit.isPrefixOf (u ++ z) = true := by
  rw [List.isPrefixOf_iff_prefix] at h ⊢
  exact h.trans (List.prefix_append u z)

theorem dropLit_align (rest : GoStr) {lit u w : GoStr} {c : Char} {r : GoStr}
    (hc : c ∉ lit) (h : dropLit lit (u ++ c :: w) = some r) :
    lit.length ≤ u.length ∧ r = u.drop lit.length ++ c :: w ∧
      dropLit lit (u ++ rest) = some (u.drop lit.length ++ rest) := by
  rw [dropLit] at h
  by_cases hp : lit.isPrefixOf (u ++ c :: w) = true
  · rw [if_pos hp] at h
    have hlen := prefix_cross hp hc
    refine ⟨hlen, ?_, ?_⟩
    · rw [← Option.some_inj.mp h, List.drop_append_of_le_length hlen]
    · rw [dropLit, if_pos (prefix_extend (prefix_within hp hlen) rest),
        List.drop_append_of_le_length hlen]
  · rw [if_neg hp] at h
    exact Option.noConfusion h

theorem dropLit_spec {lit s r : GoStr} (h : dropLit lit s = some r) :
    s.take lit.length = lit ∧ r = s.drop lit.length ∧ lit.length ≤ s.length := by
  rw [dropLit] at h
  by_cases hp : lit.isPrefixOf s = true
  · rw [if_pos hp] at h
    rw [List.isPrefixOf_iff_prefix] at hp
    exact ⟨(List.prefix_iff_eq_take.mp hp).symm, (Option.some_inj.mp h).symm,
      hp.length_le⟩
  · rw [if_neg hp] at h
    exact Option.noConfusion h

theorem dropLitCI_align (rest : GoStr) :
    ∀ (lit : GoStr) {u w : GoStr} {c : Char} {r : GoStr},
      (∀ x ∈ lit, asciiLower c ≠ x) →
      dropLitCI lit (u ++ c :: w) = some r →
      lit.length ≤ u.length ∧ r = u.drop lit.length ++ c :: w ∧
        dropLitCI lit (u ++ rest) = some (u.drop lit.length ++ rest) := by
  intro lit
  induction lit with
  | nil =>
    intro u w c r _ h
    rw [dropLitCI] at h
    exact ⟨Nat.zero_le _, by rw [← Option.some_inj.mp h, List.length_nil, List.drop_zero],
      by rw [dropLitCI, List.length_nil, List.drop_zero]⟩
  | cons l ls ih =>
    intro u w c r hc h
    cases u with
    | nil =>
      rw [List.nil_append, dropLitCI] at h
      rw [if_neg (by
        rw [beq_eq_false_iff_ne.mpr (hc l (List.mem_cons_self l ls))]
        exact Bool.false_ne_true)] at h
      exact Option.noConfusion h
    | cons d u' =>
      rw [List.cons_append, dropLitCI] at h
      by_cases hd : (asciiLower d == l) = true
      · rw [if_pos hd] at h
        obtain ⟨hlen, hr, hrest⟩ :=
          ih (fun x hx => hc x (List.mem_cons_of_mem l hx)) h
        refine ⟨by rw [List.length_cons, List.length_cons]; omega, ?_, ?_⟩
        · rw [hr, List.length_cons, List.drop_succ_cons]
        · rw [List.cons_append, dropLitCI, if_pos hd, hrest,
            List.length_cons, List.drop_succ_cons]
      · rw [if_neg hd] at h
        exact Option.noConfusion h

theorem dropLitCI_spec :
    ∀ (lit : GoStr) {s r : GoStr},
      dropLitCI lit s = some r →
      (s.take lit.length).map asciiLower = lit ∧ r = s.drop lit.length ∧
        lit.length ≤ s.length := by
  intro lit
  induction lit with
  | nil =>
    intro s r h
    rw [dropLitCI] at h
    exact ⟨by rw [List.length_nil, List.take_zero, List.map_nil],
      by rw [← Option.some_inj.mp h, List.length_nil, List.drop_zero], Nat.zero_le _⟩
  | cons l ls ih =>
    intro s r h
    cases s with
    | nil => rw [dropLitCI] at h; exact Option.noConfusion h
    | cons c cs =>
      rw [dropLitCI] at h
      by_cases hd : (asciiLower c == l) = true
      · rw [if_pos hd] at h
        obtain ⟨hmap, hr, hlen⟩ := ih h
        refine ⟨?_, ?_, ?_⟩
        · rw [List.length_cons, List.take_succ_cons, List.map_cons, hmap,
            beq_iff_eq.mp hd]
        · rw [hr, List.length_cons, List.drop_succ_cons]
        · rw [List.length_cons, List.length_cons]
          omega
      · rw [if_neg hd] at h
        exact Option.noConfusion h

theorem pw_not_ws_quote {c : Char} (h : isPwChar c = true) :
    isWs c = false ∧ (c == '"') = false ∧ (c == '\x27') = false := by
  rw [isPwChar, Bool.not_eq_true'] at h
  rw [Bool.or_eq_false_iff, Bool.or_eq_false_iff] at h
  exact ⟨h.1.1, h.1.2, h.2⟩

theorem runLen_nil (p : Char → Bool) : runLen p [] = 0 := by rw [runLen]

theorem msqr_align_blocked {cls : Char → Bool} {min : Nat} (hcl : cls '[' = false)
    (hmin : 1 ≤ min) :
    ∀ {u w rest : GoStr} {k : Nat},
      matchSepQuoteRun cls min (u ++ '[' :: w) = some k →
      ∃ k', matchSepQuoteRun cls min (u ++ rest) = some k' := by
  intro u w rest k h
  cases u with
  | nil =>
    rw [List.nil_append, matchSepQuoteRun] at h
    rw [if_neg (by decide)] at h
    exact Option.noConfusion h
  | cons c u1 =>
    rw [List.cons_append, matchSepQuoteRun] at h
    by_cases hsep : (c == '=' || c == ':') = true
    · rw [if_pos hsep] at h
      dsimp only at h
      by_cases hall : u1.all isWs = true
      · exfalso
        have hW : runLen isWs (u1 ++ '[' :: w) = u1.length := by
          rw [runLen_append, if_pos hall, runLen,
            if_neg (by decide : ¬(isWs '[' = true))]
          omega
        rw [hW, List.drop_left] at h
        dsimp only at h
        rw [if_neg (by decide : ¬((('[' : Char) == '"' || ('[' : Char) == '\x27') = true))]
          at h
        have hn0 : runLen cls ('[' :: w) = 0 := by
          rw [runLen, if_neg (by rw [hcl]; exact Bool.false_ne_true)]
        rw [hn0, if_neg (by omega)] at h
        exact Option.noConfusion h
      · have hall' : u1.all isWs = false := by
          rcases Bool.eq_false_or_eq_true (u1.all isWs) with h2 | h2
          · exact absurd h2 hall
          · exact h2
        have hW : runLen isWs (u1 ++ '[' :: w) = runLen isWs u1 := by
          rw [runLen_append, if_neg hall]
        have hWx : runLen isWs (u1 ++ rest) = runLen isWs u1 := by
          rw [runLen_append, if_neg hall]
        have hlt : runLen isWs u1 < u1.length := runLen_lt_of_not_all hall'
        obtain ⟨q, u2, hdrop, hq⟩ := drop_runLen_blocker hlt
        have hd1 : (u1 ++ '[' :: w).drop (runLen isWs u1) = q :: (u2 ++ '[' :: w) := by
          rw [List.drop_append_of_le_length (le_of_lt hlt), hdrop, List.cons_append]
        have hd2 : (u1 ++ rest).drop (runLen isWs u1) = q :: (u2 ++ rest) := by
          rw [List.drop_append_of_le_length (le_of_lt hlt), hdrop, List.cons_append]
        rw [hW, hd1] at h
        dsimp only at h
        by_cases hquote : ((q == '"') || (q == '\x27')) = true
        · rw [if_pos hquote] at h
          by_cases hn : min ≤ runLen cls (u2 ++ '[' :: w)
          · refine ⟨1 + runLen isWs u1 + 1 + runLen cls (u2 ++ rest), ?_⟩
            rw [List.cons_append, matchSepQuoteRun, if_pos hsep]
            dsimp only
            rw [hWx, hd2]
            dsimp only
            rw [if_pos hquote,
              if_pos (le_trans hn (runLen_blocked_le hcl u2 w rest))]
          · rw [if_neg hn] at h
            exact Option.noConfusion h
        · rw [if_neg hquote] at h
          by_cases hn : min ≤ runLen cls (q :: (u2 ++ '[' :: w))
          · refine ⟨1 + runLen isWs u1 + runLen cls (q :: (u2 ++ rest)), ?_⟩
            rw [List.cons_append, matchSepQuoteRun, if_pos hsep]
            dsimp only
            rw [hWx, hd2]
            dsimp only
            rw [if_neg hquote]
            rw [if_pos (by
              have h3 := runLen_blocked_le hcl (q :: u2) w rest
              rw [List.cons_append, List.cons_append] at h3
              exact le_trans hn h3)]
          · rw [if_neg hn] at h
            exact Option.noConfusion h
    · rw [if_neg hsep] at h
      exact Option.noConfusion h

theorem msqr_align_pw :
    ∀ {u w rest : GoStr} {k : Nat},
      8 ≤ runLen isPwChar rest →
      matchSepQuoteRun isPwChar 8 (u ++ '[' :: w) = some k →
      ∃ k', matchSepQuoteRun isPwChar 8 (u ++ rest) = some k' := by
  intro u w rest k hrest h
  obtain ⟨c0, t0, hr0, hc0⟩ := runLen_pos_head (show 0 < runLen isPwChar rest by omega)
  obtain ⟨hc0ws, hc0q1, hc0q2⟩ := pw_not_ws_quote hc0
  cases u with
  | nil =>
    rw [List.nil_append, matchSepQuoteRun] at h
    rw [if_neg (by decide)] at h
    exact Option.noConfusion h
  | cons c u1 =>
    rw [List.cons_append, matchSepQuoteRun] at h
    by_cases hsep : (c == '=' || c == ':') = true
    · rw [if_pos hsep] at h
      dsimp only at h
      by_cases hall : u1.all isWs = true
      · have hW : runLen isWs (u1 ++ '[' :: w) = u1.length := by
          rw [runLen_append, if_pos hall, runLen,
            if_neg (by decide : ¬(isWs '[' = true))]
          omega
        have hWx : runLen isWs (u1 ++ rest) = u1.length := by
          rw [runLen_append, if_pos hall, hr0, runLen, hc0ws,
            if_neg Bool.false_ne_true]
          omega
        refine ⟨1 + u1.length + runLen isPwChar rest, ?_⟩
        rw [List.cons_append, matchSepQuoteRun, if_pos hsep]
        dsimp only
        rw [hWx, List.drop_left, hr0]
        dsimp only
        rw [if_neg (by rw [hc0q1, hc0q2]; decide), ← hr0]
        rw [if_pos hrest]
      · have hall' : u1.all isWs = false := by
          rcases Bool.eq_false_or_eq_true (u1.all isWs) with h2 | h2
          · exact absurd h2 hall
          · exact h2
        have hW : runLen isWs (u1 ++ '[' :: w) = runLen isWs u1 := by
          rw [runLen_append, if_neg hall]
        have hWx : runLen isWs (u1 ++ rest) = runLen isWs u1 := by
          rw [runLen_append, if_neg hall]
        have hlt : runLen isWs u1 < u1.length := runLen_lt_of_not_all hall'
        obtain ⟨q, u2, hdrop, hq⟩ := drop_runLen_blocker hlt
        have hd1 : (u1 ++ '[' :: w).drop (runLen isWs u1) = q :: (u2 ++ '[' :: w) := by
          rw [List.drop_append_of_le_length (le_of_lt hlt), hdrop, List.cons_append]
        have hd2 : (u1 ++ rest).drop (runLen isWs u1) = q :: (u2 ++ rest) := by
          rw [List.drop_append_of_le_length (le_of_lt hlt), hdrop, List.cons_append]
        rw [hW, hd1] at h
        dsimp only at h
        have hrun : ∀ a : GoStr, 8 ≤ runLen isPwChar (a ++ '[' :: w) →
            8 ≤ runLen isPwChar (a ++ rest) := by
          intro a ha
          rw [runLen_append] at ha ⊢
          by_cases haa : a.all isPwChar = true
          · rw [if_pos haa] at ha ⊢
            omega
          · rw [if_neg haa] at ha ⊢
            exact ha
        by_cases hquote : ((q == '"') || (q == '\x27')) = true
        · rw [if_pos hquote] at h
          by_cases hn : 8 ≤ runLen isPwChar (u2 ++ '[' :: w)
          · refine ⟨1 + runLen isWs u1 + 1 + runLen isPwChar (u2 ++ rest), ?_⟩
            rw [List.cons_append, matchSepQuoteRun, if_pos hsep]
            dsimp only
            rw [hWx, hd2]
            dsimp only
            rw [if_pos hquote, if_pos (hrun u2 hn)]
          · rw [if_neg hn] at h
            exact Option.noConfusion h
        · rw [if_neg hquote] at h
          by_cases hn : 8 ≤ runLen isPwChar (q :: (u2 ++ '[' :: w))
          · refine ⟨1 + runLen isWs u1 + runLen isPwChar (q :: (u2 ++ rest)), ?_⟩
            rw [List.cons_append, matchSepQuoteRun, if_pos hsep]
            dsimp only
            rw [hWx, hd2]
            dsimp only
            rw [if_neg hquote]
            have h3 : 8 ≤ runLen isPwChar (q :: (u2 ++ rest)) := by
              have h4 := hrun (q :: u2) (by rw [List.cons_append]; exact hn)
              rw [List.cons_append] at h4
              exact h4
            rw [if_pos h3]
          · rw [if_neg hn] at h
            exact Option.noConfusion h
    · rw [if_neg hsep] at h
      exact Option.noConfusion h

theorem all_take_cross {p : Char → Bool} {a w2 : GoStr} {c : Char} {n : Nat}
    (hall : ((a ++ c :: w2).take n).all p = true) (hpc : p c = false) : n ≤ a.length := by
  by_contra hlt
  rw [List.take_append_eq_append_take,
    show n - a.length = (n - a.length - 1) + 1 from by omega,
    List.take_succ_cons, List.all_eq_true] at hall
  have h2 := hall c (List.mem_append_right _ (List.mem_cons_self _ _))
  rw [hpc] at h2
  exact Bool.noConfusion h2

theorem A_sk {u w rest : GoStr} {k : Nat} (h : matchSk (u ++ '[' :: w) = some k) :
    ∃ k', matchSk (u ++ rest) = some k' := by
  rw [matchSk] at h
  cases hd : dropLit "sk-".data (u ++ '[' :: w) with
  | none => rw [hd] at h; exact Option.noConfusion h
  | some r =>
    rw [hd] at h
    dsimp only at h
    obtain ⟨hlen, hr, hrest⟩ := dropLit_align rest (by decide) hd
    by_cases hn : 20 ≤ runLen isAlnum r
    · rw [matchSk, hrest]
      dsimp only
      rw [hr] at hn
      rw [if_pos (le_trans hn (runLen_blocked_le (by decide) _ _ _))]
      exact ⟨_, rfl⟩
    · rw [if_neg hn] at h
      exact Option.noConfusion h

theorem A_key {u w rest : GoStr} {k : Nat} (h : matchKey (u ++ '[' :: w) = some k) :
    ∃ k', matchKey (u ++ rest) = some k' := by
  rw [matchKey] at h
  cases hd : dropLit "key-".data (u ++ '[' :: w) with
  | none => rw [hd] at h; exact Option.noConfusion h
  | some r =>
    rw [hd] at h
    dsimp only at h
    obtain ⟨hlen, hr, hrest⟩ := dropLit_align rest (by decide) hd
    by_cases hn : 20 ≤ runLen isAlnum r
    · rw [matchKey, hrest]
      dsimp only
      rw [hr] at hn
      rw [if_pos (le_trans hn (runLen_blocked_le (by decide) _ _ _))]
      exact ⟨_, rfl⟩
    · rw [if_neg hn] at h
      exact Option.noConfusion h

theorem A_bearer {u w rest : GoStr} {k : Nat}
    (h : matchBearer (u ++ '[' :: w) = some k) :
    ∃ k', matchBearer (u ++ rest) = some k' := by
  rw [matchBearer] at h
  cases hd : dropLit "Bearer ".data (u ++ '[' :: w) with
  | none => rw [hd] at h; exact Option.noConfusion h
  | some r =>
    rw [hd] at h
    dsimp only at h
    obtain ⟨hlen, hr, hrest⟩ := dropLit_align rest (by decide) hd
    by_cases hn : 1 ≤ runLen isBearerChar r
    · rw [matchBearer, hrest]
      dsimp only
      rw [hr] at hn
      rw [if_pos (le_trans hn (runLen_blocked_le (by decide) _ _ _))]
      exact ⟨_, rfl⟩
    · rw [if_neg hn] at h
      exact Option.noConfusion h

theorem A_token {u w rest : GoStr} {k : Nat}
    (h : matchToken (u ++ '[' :: w) = some k) :
    ∃ k', matchToken (u ++ rest) = some k' := by
  rw [matchToken] at h
  cases hd : dropLitCI "token".data (u ++ '[' :: w) with
  | none => rw [hd] at h; exact Option.noConfusion h
  | some r =>
    rw [hd] at h
    dsimp only at h
    obtain ⟨hlen, hr, hrest⟩ := dropLitCI_align rest "token".data (by decide) hd
    obtain ⟨k0, hk0, _⟩ := Option.map_eq_some'.mp h
    rw [hr] at hk0
    obtain ⟨k', hk'⟩ := msqr_align_blocked (by decide) (by omega) hk0
    refine ⟨k' + 5, ?_⟩
    rw [matchToken, hrest]
    dsimp only
    rw [hk', Option.map_some']

theorem A_password {u w rest : GoStr} {k : Nat}
    (hrest : 8 ≤ runLen isPwChar rest)
    (h : matchPassword (u ++ '[' :: w) = some k) :
    ∃ k', matchPassword (u ++ rest) = some k' := by
  rw [matchPassword] at h
  cases hd : dropLitCI "password".data (u ++ '[' :: w) with
  | none => rw [hd] at h; exact Option.noConfusion h
  | some r =>
    rw [hd] at h
    dsimp only at h
    obtain ⟨hlen, hr, hrest2⟩ := dropLitCI_align rest "password".data (by decide) hd
    obtain ⟨k0, hk0, _⟩ := Option.map_eq_some'.mp h
    rw [hr] at hk0
    obtain ⟨k', hk'⟩ := msqr_align_pw hrest hk0
    refine ⟨k' + 8, ?_⟩
    rw [matchPassword, hrest2]
    dsimp only
    rw [hk', Option.map_some']

theorem A_akia {u w rest : GoStr} {k : Nat} (h : matchAkia (u ++ '[' :: w) = some k) :
    ∃ k', matchAkia (u ++ rest) = some k' := by
  rw [matchAkia] at h
  cases hd : dropLit "AKIA".data (u ++ '[' :: w) with
  | none => rw [hd] at h; exact Option.noConfusion h
  | some r =>
    rw [hd] at h
    dsimp only at h
    obtain ⟨hlen, hr, hrest⟩ := dropLit_align rest (by decide) hd
    by_cases hc : (decide (16 ≤ r.length) && (r.take 16).all isUpperDigit) = true
    · rw [Bool.and_eq_true] at hc
      have h16 : 16 ≤ r.length := of_decide_eq_true hc.1
      have hall := hc.2
      rw [hr] at h16 hall
      have h16u : 16 ≤ (u.drop "AKIA".data.length).length :=
        all_take_cross hall (by decide)
      have hconv : ("AKIA".data : List Char) = ['A', 'K', 'I', 'A'] := rfl
      rw [hconv] at h16u hall
      refine ⟨20, ?_⟩
      rw [matchAkia, hrest]
      dsimp only
      rw [if_pos ?_]
      rw [Bool.and_eq_true]
      constructor
      · rw [decide_eq_true_iff, List.length_append]
        omega
      · rw [List.take_append_of_le_length h16u]
        rw [List.take_append_of_le_length h16u] at hall
        exact hall
    · rw [if_neg hc] at h
      exact Option.noConfusion h

theorem findTail_spec :
    ∀ (j : Nat) (r : GoStr) (kk : Nat), findTailFrom r j = some kk →
      privKeyTail.isPrefixOf (r.drop kk) = true ∧ kk ≤ j := by
  intro j
  induction j with
  | zero =>
    intro r kk h
    rw [findTailFrom] at h
    by_cases hp : privKeyTail.isPrefixOf r = true
    · rw [if_pos hp] at h
      have := Option.some_inj.mp h
      rw [← this]
      exact ⟨by rw [List.drop_zero]; exact hp, le_refl 0⟩
    · rw [if_neg hp] at h
      exact Option.noConfusion h
  | succ j ih =>
    intro r kk h
    rw [findTailFrom] at h
    by_cases hp : privKeyTail.isPrefixOf (r.drop (j + 1)) = true
    · rw [if_pos hp] at h
      have := Option.some_inj.mp h
      rw [← this]
      exact ⟨hp, le_refl _⟩
    · rw [if_neg hp] at h
      obtain ⟨h1, h2⟩ := ih r kk h
      exact ⟨h1, by omega⟩

theorem findTail_found :
    ∀ (j : Nat) (r : GoStr) (kk : Nat), kk ≤ j →
      privKeyTail.isPrefixOf (r.drop kk) = true →
      ∃ k2, findTailFrom r j = some k2 := by
  intro j
  induction j with
  | zero =>
    intro r kk hle hp
    rw [show kk = 0 from by omega] at hp
    rw [List.drop_zero] at hp
    exact ⟨0, by rw [findTailFrom, if_pos hp]⟩
  | succ j ih =>
    intro r kk hle hp
    by_cases hp2 : privKeyTail.isPrefixOf (r.drop (j + 1)) = true
    · exact ⟨j + 1, by rw [findTailFrom, if_pos hp2]⟩
    · by_cases hkk : kk = j + 1
      · rw [hkk] at hp
        exact absurd hp hp2
      · obtain ⟨k2, hk2⟩ := ih r kk (by omega) hp
        exact ⟨k2, by rw [findTailFrom, if_neg hp2]; exact hk2⟩

theorem A_priv {u w rest : GoStr} {k : Nat}
    (h : matchPrivKey (u ++ '[' :: w) = some k) :
    ∃ k', matchPrivKey (u ++ rest) = some k' := by
  rw [matchPrivKey] at h
  cases hd : dropLit "-----BEGIN ".data (u ++ '[' :: w) with
  | none => rw [hd] at h; exact Option.noConfusion h
  | some r =>
    rw [hd] at h
    dsimp only at h
    obtain ⟨hlen, hr, hrest⟩ := dropLit_align rest (by decide) hd
    cases hft : findTailFrom r (runLen isKeyCap r) with
    | none => rw [hft] at h; exact Option.noConfusion h
    | some kk =>
      obtain ⟨hp, hkk⟩ := findTail_spec _ _ _ hft
      rw [hr] at hp hkk
      have hrun_le : runLen isKeyCap ((u.drop "-----BEGIN ".data.length) ++ '[' :: w) ≤
          (u.drop "-----BEGIN ".data.length).length := by
        rw [runLen_append]
        by_cases ha : (u.drop "-----BEGIN ".data.length).all isKeyCap = true
        · rw [if_pos ha, runLen, if_neg (by decide : ¬(isKeyCap '[' = true))]
          omega
        · rw [if_neg ha]
          exact runLen_le_length _ _
      have hkku : kk ≤ (u.drop "-----BEGIN ".data.length).length := le_trans hkk hrun_le
      rw [List.drop_append_of_le_length hkku] at hp
      have h17 : privKeyTail.length ≤ ((u.drop "-----BEGIN ".data.length).drop kk).length :=
        prefix_cross hp (by decide)
      have hpu : privKeyTail.isPrefixOf ((u.drop "-----BEGIN ".data.length).drop kk)
          = true := prefix_within hp h17
      have hpx : privKeyTail.isPrefixOf
          (((u.drop "-----BEGIN ".data.length) ++ rest).drop kk) = true := by
        rw [List.drop_append_of_le_length hkku]
        exact prefix_extend hpu rest
      obtain ⟨k2, hk2⟩ := findTail_found
        (runLen isKeyCap ((u.drop "-----BEGIN ".data.length) ++ rest)) _ kk
        (le_trans hkk (runLen_blocked_le (by decide) _ _ _)) hpx
      refine ⟨11 + k2 + 17, ?_⟩
      rw [matchPrivKey, hrest]
      dsimp only
      rw [hk2]

theorem isPwChar_true_of {c : Char} (h1 : c ≠ ' ') (h2 : c ≠ '\t') (h3 : c ≠ '\n')
    (h4 : c ≠ '\x0c') (h5 : c ≠ '\r') (h6 : c ≠ '"') (h7 : c ≠ '\x27') :
    isPwChar c = true := by
  rw [isPwChar, isWs]
  rw [beq_eq_false_iff_ne.mpr h1, beq_eq_false_iff_ne.mpr h2, beq_eq_false_iff_ne.mpr h3,
    beq_eq_false_iff_ne.mpr h4, beq_eq_false_iff_ne.mpr h5, beq_eq_false_iff_ne.mpr h6,
    beq_eq_false_iff_ne.mpr h7]
  rfl

theorem pwlit_pw {c : Char} (h : asciiLower c ∈ "password".data) : isPwChar c = true := by
  refine isPwChar_true_of ?_ ?_ ?_ ?_ ?_ ?_ ?_ <;>
    exact fun he => by rw [he] at h; exact absurd h (by decide)

theorem upperdigit_pw {c : Char} (h : isUpperDigit c = true) : isPwChar c = true := by
  refine isPwChar_true_of ?_ ?_ ?_ ?_ ?_ ?_ ?_ <;>
    exact fun he => by rw [he] at h; exact absurd h (by decide)

theorem span_pw_password {s : GoStr} {n : Nat} (h : matchPassword s = some n) :
    8 ≤ runLen isPwChar s := by
  rw [matchPassword] at h
  cases hd : dropLitCI "password".data s with
  | none => rw [hd] at h; exact Option.noConfusion h
  | some r =>
    obtain ⟨hmap, _, hlen⟩ := dropLitCI_spec "password".data hd
    refine runLen_ge_of 8 s ?_ (by
      rw [show ("password".data).length = 8 from rfl] at hlen
      exact hlen)
    rw [List.all_eq_true]
    intro c hc
    have hc8 : c ∈ s.take ("password".data).length := by
      rw [show ("password".data).length = 8 from rfl]
      exact hc
    exact pwlit_pw (hmap ▸ List.mem_map_of_mem asciiLower hc8)

theorem span_pw_akia {s : GoStr} {n : Nat} (h : matchAkia s = some n) :
    8 ≤ runLen isPwChar s := by
  rw [matchAkia] at h
  cases hd : dropLit "AKIA".data s with
  | none => rw [hd] at h; exact Option.noConfusion h
  | some r =>
    rw [hd] at h
    dsimp only at h
    obtain ⟨htake, hr, hlen⟩ := dropLit_spec hd
    by_cases hc : (decide (16 ≤ r.length) && (r.take 16).all isUpperDigit) = true
    · rw [Bool.and_eq_true] at hc
      have h16 : 16 ≤ r.length := of_decide_eq_true hc.1
      refine runLen_ge_of 8 s ?_ (by
        rw [hr, List.length_drop] at h16
        omega)
      have hsplit : s.take 8 = s.take 4 ++ (s.drop 4).take 4 := List.take_add s 4 4
      rw [hsplit, List.all_eq_true]
      intro c hc2
      rcases List.mem_append.mp hc2 with hc3 | hc3
      · rw [show s.take 4 = s.take ("AKIA".data.length) from rfl, htake] at hc3
        refine isPwChar_true_of ?_ ?_ ?_ ?_ ?_ ?_ ?_ <;>
          exact fun he => by rw [he] at hc3; exact absurd hc3 (by decide)
      · have hc4 : c ∈ r.take 16 := by
          have hds : (List.drop 4 s : GoStr) = r := by
            rw [hr, show ("AKIA".data.length : Nat) = 4 from rfl]
          rw [hds] at hc3
          have h5 : r.take 4 = (r.take 16).take 4 := by
            rw [List.take_take, show ((4 : Nat) ⊓ 16) = 4 from by decide]
          rw [h5] at hc3
          exact List.take_subset 4 _ hc3
        exact upperdigit_pw (List.all_eq_true.mp hc.2 c hc4)
    · rw [if_neg hc] at h
      exact Option.noConfusion h

theorem span_pw_priv {s : GoStr} {n : Nat} (h : matchPrivKey s = some n) :
    8 ≤ runLen isPwChar s := by
  rw [matchPrivKey] at h
  cases hd : dropLit "-----BEGIN ".data s with
  | none => rw [hd] at h; exact Option.noConfusion h
  | some r =>
    obtain ⟨htake, hr, hlen⟩ := dropLit_spec hd
    refine runLen_ge_of 8 s ?_ (by
      rw [show ("-----BEGIN ".data).length = 11 from rfl] at hlen
      omega)
    have h8 : s.take 8 = (s.take 11).take 8 := by
      rw [List.take_take, show ((8 : Nat) ⊓ 11) = 8 from by decide]
    rw [h8, show s.take 11 = s.take ("-----BEGIN ".data.length) from rfl, htake]
    decide

theorem clean_R_part {m : GoStr → Option Nat}
    (hR : ∀ i w, i < 10 → m (redactedStr.drop i ++ w) = none)
    {z : GoStr} (hz : CleanM m z) : CleanM m (redactedStr ++ z) := by
  intro t ht
  rcases suffix_append_cases ht with h1 | ⟨a', ha', hne, rfl⟩
  · exact hz t h1
  · have hlen : a'.length ≤ 10 := by
      have h2 := ha'.length_le
      rw [show redactedStr.length = 10 from rfl] at h2
      exact h2
    have hpos : 1 ≤ a'.length := List.length_pos.mpr hne
    have hdrop : a' = redactedStr.drop (redactedStr.length - a'.length) :=
      List.suffix_iff_eq_drop.mp ha'
    rw [show redactedStr.length = 10 from rfl] at hdrop
    rw [hdrop]
    exact hR (10 - a'.length) z (by omega)

theorem clean_step (m m' : GoStr → Option Nat)
    (hR : ∀ i w, i < 10 → m (redactedStr.drop i ++ w) = none)
    (hA : ∀ u w rest k, m (u ++ '[' :: w) = some k → m' rest ≠ none →
      ∃ k', m (u ++ rest) = some k') :
    ∀ (N : Nat) (x : GoStr), x.length ≤ N → CleanM m x →
      CleanM m (replaceAllM m' x) := by
  intro N
  induction N with
  | zero =>
    intro x hlen hx
    have hx0 : x = [] := List.eq_nil_of_length_eq_zero (by omega)
    rw [hx0, replaceAllM]
    rw [hx0] at hx
    exact hx
  | succ N ih =>
    intro x hlen hx
    cases x with
    | nil =>
      rw [replaceAllM]
      exact hx
    | cons c cs =>
      rw [replaceAllM]
      cases hm' : m' (c :: cs) with
      | some n =>
        refine clean_R_part hR (ih (cs.drop (n - 1)) ?_ ?_)
        · rw [List.length_drop]
          rw [List.length_cons] at hlen
          omega
        · exact cleanM_mono hx ((List.drop_suffix _ cs).trans (List.suffix_cons c cs))
      | none =>
        intro t ht
        rcases List.suffix_cons_iff.mp ht with rfl | h2
        · rcases replaceAllM_decomp m' cs with heq | ⟨d, n2, w2, hmd, hdne, hout⟩
          · rw [heq]
            exact hx (c :: cs) (List.suffix_refl _)
          · rw [hout]
            by_contra hne2
            obtain ⟨k, hk⟩ := Option.ne_none_iff_exists'.mp hne2
            have hshape : c :: (cs.take d ++ redactedStr ++ w2) =
                (c :: cs.take d) ++ '[' :: ("REDACTED]".data ++ w2) := by
              rw [List.append_assoc]
              rfl
            rw [hshape] at hk
            obtain ⟨k', hk'⟩ := hA (c :: cs.take d) ("REDACTED]".data ++ w2)
              (cs.drop d) k hk (by rw [hmd]; exact Option.some_ne_none n2)
            have hcc : (c :: cs.take d) ++ cs.drop d = c :: cs := by
              rw [List.cons_append, List.take_append_drop]
            rw [hcc] at hk'
            have h3 := hx (c :: cs) (List.suffix_refl _)
            rw [h3] at hk'
            exact Option.noConfusion hk'
        · exact ih cs (by rw [List.length_cons] at hlen; omega) (cleanM_cons hx) t h2

theorem clean_self_aux (m : GoStr → Option Nat)
    (hnil : m [] = none)
    (hR : ∀ i w, i < 10 → m (redactedStr.drop i ++ w) = none)
    (hA : ∀ u w rest k, m (u ++ '[' :: w) = some k → m rest ≠ none →
      ∃ k', m (u ++ rest) = some k') :
    ∀ (N : Nat) (x : GoStr), x.length ≤ N → CleanM m (replaceAllM m x) := by
  intro N
  induction N with
  | zero =>
    intro x hlen
    have hx0 : x = [] := List.eq_nil_of_length_eq_zero (by omega)
    rw [hx0, replaceAllM]
    intro t ht
    rw [List.suffix_nil.mp ht]
    exact hnil
  | succ N ih =>
    intro x hlen
    cases x with
    | nil =>
      rw [replaceAllM]
      intro t ht
      rw [List.suffix_nil.mp ht]
      exact hnil
    | cons c cs =>
      rw [replaceAllM]
      cases hm : m (c :: cs) with
      | some n =>
        refine clean_R_part hR (ih (cs.drop (n - 1)) ?_)
        rw [List.length_drop]
        rw [List.length_cons] at hlen
        omega
      | none =>
        intro t ht
        rcases List.suffix_cons_iff.mp ht with rfl | h2
        · rcases replaceAllM_decomp m cs with heq | ⟨d, n2, w2, hmd, hdne, hout⟩
          · rw [heq]
            exact hm
          · rw [hout]
            by_contra hne2
            obtain ⟨k, hk⟩ := Option.ne_none_iff_exists'.mp hne2
            have hshape : c :: (cs.take d ++ redactedStr ++ w2) =
                (c :: cs.take d) ++ '[' :: ("REDACTED]".data ++ w2) := by
              rw [List.append_assoc]
              rfl
            rw [hshape] at hk
            obtain ⟨k', hk'⟩ := hA (c :: cs.take d) ("REDACTED]".data ++ w2)
              (cs.drop d) k hk (by rw [hmd]; exact Option.some_ne_none n2)
            have hcc : (c :: cs.take d) ++ cs.drop d = c :: cs := by
              rw [List.cons_append, List.take_append_drop]
            rw [hcc] at hk'
            rw [hm] at hk'
            exact Option.noConfusion hk'
        · exact ih cs (by rw [List.length_cons] at hlen; omega) t h2

theorem clean_sk_step (f : GoStr → Option Nat) {x : GoStr} (hx : CleanM matchSk x) :
    CleanM matchSk (replaceAllM f x) :=
  clean_step matchSk f rfail_sk (fun _ _ _ _ h _ => A_sk h) x.length x (le_refl _) hx

theorem clean_sk_self (x : GoStr) : CleanM matchSk (replaceAllM matchSk x) :=
  clean_self_aux matchSk (by decide) rfail_sk (fun _ _ _ _ h _ => A_sk h)
    x.length x (le_refl _)

theorem clean_key_step (f : GoStr → Option Nat) {x : GoStr} (hx : CleanM matchKey x) :
    CleanM matchKey (replaceAllM f x) :=
  clean_step matchKey f rfail_key (fun _ _ _ _ h _ => A_key h) x.length x (le_refl _) hx

theorem clean_key_self (x : GoStr) : CleanM matchKey (replaceAllM matchKey x) :=
  clean_self_aux matchKey (by decide) rfail_key (fun _ _ _ _ h _ => A_key h)
    x.length x (le_refl _)

theorem clean_bearer_step (f : GoStr → Option Nat) {x : GoStr}
    (hx : CleanM matchBearer x) : CleanM matchBearer (replaceAllM f x) :=
  clean_step matchBearer f rfail_bearer (fun _ _ _ _ h _ => A_bearer h)
    x.length x (le_refl _) hx

theorem clean_bearer_self (x : GoStr) : CleanM matchBearer (replaceAllM matchBearer x) :=
  clean_self_aux matchBearer (by decide) rfail_bearer (fun _ _ _ _ h _ => A_bearer h)
    x.length x (le_refl _)

theorem clean_token_step (f : GoStr → Option Nat) {x : GoStr}
    (hx : CleanM matchToken x) : CleanM matchToken (replaceAllM f x) :=
  clean_step matchToken f rfail_token (fun _ _ _ _ h _ => A_token h)
    x.length x (le_refl _) hx

theorem clean_token_self (x : GoStr) : CleanM matchToken (replaceAllM matchToken x) :=
  clean_self_aux matchToken (by decide) rfail_token (fun _ _ _ _ h _ => A_token h)
    x.length x (le_refl _)

theorem clean_akia_step (f : GoStr → Option Nat) {x : GoStr} (hx : CleanM matchAkia x) :
    CleanM matchAkia (replaceAllM f x) :=
  clean_step matchAkia f rfail_akia (fun _ _ _ _ h _ => A_akia h)
    x.length x (le_refl _) hx

theorem clean_akia_self (x : GoStr) : CleanM matchAkia (replaceAllM matchAkia x) :=
  clean_self_aux matchAkia (by decide) rfail_akia (fun _ _ _ _ h _ => A_akia h)
    x.length x (le_refl _)

theorem clean_priv_self (x : GoStr) : CleanM matchPrivKey (replaceAllM matchPrivKey x) :=
  clean_self_aux matchPrivKey (by decide) rfail_priv (fun _ _ _ _ h _ => A_priv h)
    x.length x (le_refl _)

theorem clean_password_self (x : GoStr) :
    CleanM matchPassword (replaceAllM matchPassword x) :=
  clean_self_aux matchPassword (by decide) rfail_password
    (fun _ _ rest _ h hr => A_password (by
      obtain ⟨n2, hn2⟩ := Option.ne_none_iff_exists'.mp hr
      exact span_pw_password hn2) h)
    x.length x (le_refl _)

theorem clean_password_step_akia {x : GoStr} (hx : CleanM matchPassword x) :
    CleanM matchPassword (replaceAllM matchAkia x) :=
  clean_step matchPassword matchAkia rfail_password
    (fun _ _ rest _ h hr => A_password (by
      obtain ⟨n2, hn2⟩ := Option.ne_none_iff_exists'.mp hr
      exact span_pw_akia hn2) h)
    x.length x (le_refl _) hx

theorem clean_password_step_priv {x : GoStr} (hx : CleanM matchPassword x) :
    CleanM matchPassword (replaceAllM matchPrivKey x) :=
  clean_step matchPassword matchPrivKey rfail_password
    (fun _ _ rest _ h hr => A_password (by
      obtain ⟨n2, hn2⟩ := Option.ne_none_iff_exists'.mp hr
      exact span_pw_priv hn2) h)
    x.length x (le_refl _) hx

theorem Redact_true_eq (z : GoStr) :
    Redact z true =
      replaceAllM matchPrivKey (replaceAllM matchAkia (replaceAllM matchPassword
        (replaceAllM matchToken (replaceAllM matchBearer (replaceAllM matchKey
          (replaceAllM matchSk z)))))) := rfl

/-- Claim C9, confirmed: secret redaction is idempotent — applying the
seven-pattern pipeline to an already-redacted string changes nothing,
because no pattern can match anywhere in the output: matches cannot
start inside the replacement text, and a match that would use text
truncated at a replacement boundary pulls back to a match the scan of
that stage would already have replaced. -/
theorem C9_redact_idempotent : ∀ x : GoStr, Redact (Redact x true) true = Redact x true := by
  intro x
  have c1 : CleanM matchSk (Redact x true) := by
    rw [Redact_true_eq x]
    exact clean_sk_step _ (clean_sk_step _ (clean_sk_step _ (clean_sk_step _
      (clean_sk_step _ (clean_sk_step _ (clean_sk_self x))))))
  have c2 : CleanM matchKey (Redact x true) := by
    rw [Redact_true_eq x]
    exact clean_key_step _ (clean_key_step _ (clean_key_step _ (clean_key_step _
      (clean_key_step _ (clean_key_self _)))))
  have c3 : CleanM matchBearer (Redact x true) := by
    rw [Redact_true_eq x]
    exact clean_bearer_step _ (clean_bearer_step _ (clean_bearer_step _
      (clean_bearer_step _ (clean_bearer_self _))))
  have c4 : CleanM matchToken (Redact x true) := by
    rw [Redact_true_eq x]
    exact clean_token_step _ (clean_token_step _ (clean_token_step _
      (clean_token_self _)))
  have c5 : CleanM matchPassword (Redact x true) := by
    rw [Redact_true_eq x]
    exact clean_password_step_priv (clean_password_step_akia (clean_password_self _))
  have c6 : CleanM matchAkia (Redact x true) := by
    rw [Redact_true_eq x]
    exact clean_akia_step _ (clean_akia_self _)
  have c7 : CleanM matchPrivKey (Redact x true) := by
    rw [Redact_true_eq x]
    exact clean_priv_self _
  rw [Redact_true_eq (Redact x true)]
  rw [replaceAllM_of_cleanM c1, replaceAllM_of_cleanM c2, replaceAllM_of_cleanM c3,
    replaceAllM_of_cleanM c4, replaceAllM_of_cleanM c5, replaceAllM_of_cleanM c6,
    replaceAllM_of_cleanM c7]

/-- Witness for the C9 theorem at a concrete input containing a secret. -/
theorem C9_redact_idempotent_witness :
    Redact (Redact "password=hunter2hunter2".data true) true =
      Redact "password=hunter2hunter2".data true :=
  C9_redact_idempotent "password=hunter2hunter2".data
